import Mathlib

/-!
# Verification of the opera-toolkit reconciliation core

Shallow embedding of the toolkit's reconciliation engine
(`core/reconciler`, `core/diff`, `core/lifecycle`, `core/nodes`,
`core/sandbox` listener binding) and proofs about it.

Keys of child lists are modelled by an arbitrary linearly ordered type
(JS keys are strings or numbers compared with `===`, `<`, `>`);
indices are `Nat` where the source guarantees non-negativity and `Int`
where the source may produce `-1` (`Array.prototype.indexOf`).
-/

namespace Toolkit

/-- JS `Array.prototype.splice(start, deleteCount, ...items)` restricted to the
uses in the source: a negative `start` counts from the end (clamped at 0),
a `start` beyond the length is clamped to the length. Returns the mutated
array (the source mutates in place; values model state passing). -/
def jsSplice (l : List α) (start : Int) (deleteCount : Nat) (items : List α) : List α :=
  let len := l.length
  let s : Nat := if start < 0 then ((len : Int) + start).toNat else min start.toNat len
  l.take s ++ items ++ l.drop (s + deleteCount)

/-- JS `Array.prototype.indexOf`: index of the first occurrence, `-1` if absent. -/
def jsIndexOf [DecidableEq α] (l : List α) (x : α) : Int :=
  match l.indexOf? x with
  | some i => (i : Int)
  | none => -1

/-- Stable insertion used to model JS stable `Array.prototype.sort(cmp)`:
an element is placed before the first element it compares `≤` to, so
original order is kept among ties. -/
def insertBy (le : α → α → Bool) (x : α) : List α → List α
  | [] => [x]
  | y :: ys => if le x y then x :: y :: ys else y :: insertBy le x ys

/-- Stable sort modelling JS `Array.prototype.sort(cmp)` (stable per spec). -/
def sortBy (le : α → α → Bool) : List α → List α
  | [] => []
  | x :: xs => insertBy le x (sortBy le xs)

/-- `createItem(key, index)` of `Reconciler.calculateMoves`. -/
structure Item (K : Type) where
  key : K
  index : Nat
deriving DecidableEq, Repr

/-- `Reconciler.comparator`: `0` on `Object.is`-equal keys, else `1`/`-1` by `>`. -/
def comparator [LinearOrder K] (a b : Item K) : Int :=
  if a.key = b.key then 0 else if a.key > b.key then 1 else -1

/-- `source.map(createItem)`. -/
def createItems (l : List K) : List (Item K) :=
  l.mapIdx fun i k => ⟨k, i⟩

/-- Boolean order on items used for `\x2asort(this.comparator)`: `a` sorts no
later than `b` iff `comparator a b ≤ 0`, i.e. `a.key ≤ b.key`. -/
def itemKeyLe [LinearOrder K] (a b : Item K) : Bool :=
  decide (a.key ≤ b.key)

/-- Boolean order for `sortByIndex` (`foo.index - bar.index`). -/
def itemIdxLe (a b : Item K) : Bool :=
  decide (a.index ≤ b.index)

/-- The `while (before.length || after.length)` merge walk of
`Reconciler.calculateMoves`, classifying sorted items as removed/inserted.
Each iteration consumes at least one element of `before` or `after`,
so fuel `before.length + after.length` (supplied at the call site)
makes the model exact; fuel `0` is never reached. -/
def mergeWalk [LinearOrder K] :
    Nat → List (Item K) → List (Item K) → List (Item K) × List (Item K)
  | 0, before, after => (before, after)
  | _ + 1, [], after => ([], after)
  | _ + 1, b :: bs, [] => (b :: bs, [])
  | fuel + 1, b :: bs, a :: ys =>
    if comparator a b = 0 then
      mergeWalk fuel bs ys
    else if comparator a b = 1 then
      let (r, i) := mergeWalk fuel bs (a :: ys)
      (b :: r, i)
    else
      let (r, i) := mergeWalk fuel (b :: bs) ys
      (r, a :: i)

/-- `Reconciler.Move`: one of insert / move / remove, with the payload captured
by the corresponding factory (`at` is an original-array index, `from` an
`indexOf` result which may be `-1`, `to` a loop index). -/
inductive Move (K : Type) where
  | insert (item : K) (atIdx : Nat)
  | move (item : K) (fromIdx : Int) (toIdx : Nat)
  | remove (item : K) (atIdx : Nat)
deriving DecidableEq, Repr

/-- The key carried by a move (`move.item`). -/
def Move.item : Move K → K
  | .insert i _ => i
  | .move i _ _ => i
  | .remove i _ => i

/-- `move.make(items)`: the list transformation attached to each move.
`insert` is `items.splice(at, 0, item)`; `move` is `items.splice(from, 1)`
then `items.splice(to, 0, item)`; `remove` is `items.splice(at, 1)`. -/
def Move.make : Move K → List K → List K
  | .insert item a, items => jsSplice items (a : Int) 0 [item]
  | .move item f t, items => jsSplice (jsSplice items f 1 []) (t : Int) 0 [item]
  | .remove _ a, items => jsSplice items (a : Int) 1 []

/-- Whether a move is a `move` (reordering) operation. -/
def Move.isMove : Move K → Bool
  | .move _ _ _ => true
  | _ => false

/-- Whether a move is a `remove` operation. -/
def Move.isRemove : Move K → Bool
  | .remove _ _ => true
  | _ => false

/-- Whether a move is an `insert` operation. -/
def Move.isInsert : Move K → Bool
  | .insert _ _ => true
  | _ => false

/-- The items of the source sequence whose key does not occur in the target
sequence, in ascending original-index order: the canonical description of the
`removed` set computed by the sorted merge walk. -/
def removedItems [DecidableEq K] (source target : List K) : List (Item K) :=
  (createItems source).filter fun it => decide (it.key ∉ target)

/-- The items of the target sequence whose key does not occur in the source
sequence, in ascending index order: the canonical description of the
`inserted` set computed by the sorted merge walk. -/
def insertedItems [DecidableEq K] (source target : List K) : List (Item K) :=
  (createItems target).filter fun it => decide (it.key ∉ source)

/-- `moveItemIfNeeded(index)` inside `calculateIndexChanges`: state is the
working list plus the accumulated move list. `target[index]` is always in
bounds for the indices the two loops supply, so the out-of-bounds branch
(`none`) is dead and leaves the state unchanged. -/
def moveItemIfNeeded [DecidableEq K] (target : List K)
    (st : List K × List (Move K)) (index : Nat) : List K × List (Move K) :=
  match target.get? index with
  | none => st
  | some item =>
    if st.1.get? index ≠ some item then
      let f := jsIndexOf st.1 item
      let mv := Move.move item f index
      (mv.make st.1, st.2 ++ [mv])
    else
      st

/-- `calculateIndexChanges(source, target, reversed)`: scans target positions
(left-to-right, or right-to-left when `reversed`) relocating out-of-place
items; returns the moves and the final list (`moves.result`). -/
def calculateIndexChanges [DecidableEq K] (source target : List K)
    (reversed : Bool) : List (Move K) × List K :=
  let idxs := if reversed then (List.range target.length).reverse else List.range target.length
  let st := idxs.foldl (moveItemIfNeeded target) (source, [])
  (st.2, st.1)

/-- Phase 1 of `Reconciler.calculateMoves`: the removals (descending original
index) followed by the insertions (ascending index), as `Move` records. -/
def phaseOneMoves [LinearOrder K] (source target : List K) : List (Move K) :=
  let before := sortBy itemKeyLe (createItems source)
  let after := sortBy itemKeyLe (createItems target)
  let (removed0, inserted0) := mergeWalk (before.length + after.length) before after
  let removed := (sortBy itemIdxLe removed0).reverse
  let inserted := sortBy itemIdxLe inserted0
  removed.map (fun it => Move.remove it.key it.index) ++
    inserted.map (fun it => Move.insert it.key it.index)

/-- The working copy `const result = [...source]` after the phase-1 moves
(`move.make(result)` for each removal and insertion) have been applied. -/
def phaseOneResult [LinearOrder K] (source target : List K) : List K :=
  (phaseOneMoves source target).foldl (fun l m => m.make l) source

/-- `Reconciler.calculateMoves(source, target, favoredToMove)`.
Returns the emitted move list together with the `result` property attached to
it. `favoredToMove = some k` models a truthy favored key. The phase-1 working
copy (`const result = [...source]` mutated by each `move.make`) is the fold of
the phase-1 moves over `source`; `Diff.deepEqual` on two key arrays is plain
list equality, so the early-exit test is `result = target`. -/
def calculateMoves [LinearOrder K] (source target : List K)
    (favoredToMove : Option K) : List (Move K) × List K :=
  let phase1 := phaseOneMoves source target
  let result := phaseOneResult source target
  if result = target then
    (phase1, result)
  else
    let d := calculateIndexChanges result target false
    let singleAltNotFavored : Bool :=
      match favoredToMove with
      | some fav => d.1.length == 1 && ((d.1.map Move.item).head? != some fav)
      | none => false
    if decide (d.1.length > 1) || singleAltNotFavored then
      let a := calculateIndexChanges result target true
      if a.1.length ≤ d.1.length then
        (phase1 ++ a.1, a.2)
      else
        (phase1 ++ d.1, d.2)
    else
      (phase1 ++ d.1, d.2)

/-! ## Support lemmas: stable sorting -/

section SortLemmas
variable {α : Type _} {le : α → α → Bool}

theorem insertBy_perm (x : α) (l : List α) : (insertBy le x l).Perm (x :: l) := by
  induction l with
  | nil => exact List.Perm.refl _
  | cons y ys ih =>
    simp only [insertBy]
    split
    · exact List.Perm.refl _
    · exact (ih.cons y).trans (List.Perm.swap x y ys)

theorem sortBy_perm (l : List α) : (sortBy le l).Perm l := by
  induction l with
  | nil => exact List.Perm.refl _
  | cons x xs ih =>
    exact (insertBy_perm x (sortBy le xs)).trans (ih.cons x)

theorem insertBy_sorted
    (htot : ∀ a b, le a b = true ∨ le b a = true)
    (htrans : ∀ a b c, le a b = true → le b c = true → le a c = true)
    (x : α) (l : List α) (h : List.Pairwise (fun a b => le a b = true) l) :
    List.Pairwise (fun a b => le a b = true) (insertBy le x l) := by
  induction l with
  | nil => simp [insertBy]
  | cons y ys ih =>
    simp only [insertBy]
    rcases h with - | ⟨hy, hys⟩
    by_cases hxy : le x y = true
    · rw [if_pos hxy]
      refine List.Pairwise.cons ?_ (List.Pairwise.cons hy hys)
      intro b hb
      rcases List.mem_cons.mp hb with rfl | hb'
      · exact hxy
      · exact htrans x y b hxy (hy b hb')
    · rw [if_neg hxy]
      have hyx : le y x = true := by
        rcases htot x y with h' | h'
        · exact absurd h' hxy
        · exact h'
      refine List.Pairwise.cons ?_ (ih hys)
      intro b hb
      have := (insertBy_perm x ys).mem_iff.mp hb
      rcases List.mem_cons.mp this with rfl | hb'
      · exact hyx
      · exact hy b hb'

theorem sortBy_sorted
    (htot : ∀ a b, le a b = true ∨ le b a = true)
    (htrans : ∀ a b c, le a b = true → le b c = true → le a c = true)
    (l : List α) :
    List.Pairwise (fun a b => le a b = true) (sortBy le l) := by
  induction l with
  | nil => simp [sortBy]
  | cons x xs ih => exact insertBy_sorted htot htrans x _ ih

end SortLemmas

/-! ## Support lemmas: items, comparator, merge walk -/

section WalkLemmas
variable {K : Type _} [LinearOrder K]

theorem itemKeyLe_total (a b : Item K) : itemKeyLe a b = true ∨ itemKeyLe b a = true := by
  simp only [itemKeyLe, decide_eq_true_eq]
  exact le_total a.key b.key

theorem itemKeyLe_trans (a b c : Item K) :
    itemKeyLe a b = true → itemKeyLe b c = true → itemKeyLe a c = true := by
  simp only [itemKeyLe, decide_eq_true_eq]
  exact le_trans

theorem itemIdxLe_total (a b : Item K) : itemIdxLe a b = true ∨ itemIdxLe b a = true := by
  simp only [itemIdxLe, decide_eq_true_eq]
  exact Nat.le_total a.index b.index

theorem itemIdxLe_trans (a b c : Item K) :
    itemIdxLe a b = true → itemIdxLe b c = true → itemIdxLe a c = true := by
  simp only [itemIdxLe, decide_eq_true_eq]
  exact Nat.le_trans

theorem createItems_map_key (l : List K) : (createItems l).map Item.key = l := by
  simp only [createItems, List.mapIdx_eq_enum_map, List.map_map]
  have : (Item.key ∘ Function.uncurry fun i k => (⟨k, i⟩ : Item K)) = Prod.snd := by
    funext p; cases p; rfl
  rw [this, List.enum_map_snd]

theorem createItems_map_index (l : List K) : (createItems l).map Item.index = List.range l.length := by
  simp only [createItems, List.mapIdx_eq_enum_map, List.map_map]
  have : (Item.index ∘ Function.uncurry fun i k => (⟨k, i⟩ : Item K)) = Prod.fst := by
    funext p; cases p; rfl
  rw [this, List.enum_map_fst]

theorem createItems_index_strict (l : List K) :
    List.Pairwise (fun a b : Item K => a.index < b.index) (createItems l) := by
  have h := List.pairwise_lt_range l.length
  rw [← createItems_map_index l, List.pairwise_map] at h
  exact h

/-- With duplicate-free keys, sorting by the comparator yields strictly
increasing keys. -/
theorem sortBy_key_strict {l : List K} (hnd : l.Nodup) :
    List.Pairwise (fun a b : Item K => a.key < b.key)
      (sortBy itemKeyLe (createItems l)) := by
  have hle := sortBy_sorted itemKeyLe_total itemKeyLe_trans (createItems l)
  have hperm : ((sortBy itemKeyLe (createItems l)).map Item.key).Perm l := by
    have := (@sortBy_perm _ itemKeyLe (createItems l)).map Item.key
    rwa [createItems_map_key] at this
  have hnd' : ((sortBy itemKeyLe (createItems l)).map Item.key).Nodup :=
    hperm.nodup_iff.mpr hnd
  have hne : List.Pairwise (fun a b : Item K => a.key ≠ b.key)
      (sortBy itemKeyLe (createItems l)) := (List.pairwise_map).mp hnd'
  have := hle.and hne
  exact this.imp fun h => lt_of_le_of_ne (by simpa [itemKeyLe] using h.1) h.2

theorem comparator_eq_zero_iff (a b : Item K) : comparator a b = 0 ↔ a.key = b.key := by
  unfold comparator
  rcases eq_or_ne a.key b.key with heq | hne
  · rw [if_pos heq]; simp [heq]
  · rw [if_neg hne]
    by_cases hgt : a.key > b.key
    · rw [if_pos hgt]
      constructor
      · intro h; exact absurd h (by decide)
      · intro h; exact absurd h hne
    · rw [if_neg hgt]
      constructor
      · intro h; exact absurd h (by decide)
      · intro h; exact absurd h hne

theorem comparator_eq_one_iff (a b : Item K) : comparator a b = 1 ↔ b.key < a.key := by
  unfold comparator
  rcases eq_or_ne a.key b.key with heq | hne
  · rw [if_pos heq]
    constructor
    · intro h; exact absurd h (by decide)
    · intro h; rw [heq] at h; exact absurd h (lt_irrefl _)
  · rw [if_neg hne]
    by_cases hgt : a.key > b.key
    · rw [if_pos hgt]; simp [hgt]
    · rw [if_neg hgt]
      constructor
      · intro h; exact absurd h (by decide)
      · intro h; exact absurd h hgt

theorem filter_key_cons_irrel {l : List (Item K)} (hd : Item K)
    (rest : List (Item K)) (hne : ∀ it ∈ l, it.key ≠ hd.key) :
    List.filter (fun it => decide (it.key ∉ (hd :: rest).map Item.key)) l =
      List.filter (fun it => decide (it.key ∉ rest.map Item.key)) l := by
  refine List.filter_congr ?_
  intro it hit
  simp only [List.map_cons, List.mem_cons, decide_eq_decide]
  constructor
  · intro h hmem; exact h (Or.inr hmem)
  · intro h hmem
    rcases hmem with heq | hmem
    · exact hne it hit heq
    · exact h hmem

/-- On strictly key-sorted inputs the merge walk computes exactly the items
whose key is missing from the other sequence (given enough fuel). -/
theorem mergeWalk_eq_filter :
    ∀ (fuel : Nat) (before after : List (Item K)),
    List.Pairwise (fun a b : Item K => a.key < b.key) before →
    List.Pairwise (fun a b : Item K => a.key < b.key) after →
    before.length + after.length ≤ fuel →
    mergeWalk fuel before after =
      (before.filter (fun it => decide (it.key ∉ after.map Item.key)),
       after.filter (fun it => decide (it.key ∉ before.map Item.key)))
  | 0, before, after => by
    intro _ _ hfuel
    have hb0 : before.length = 0 := by omega
    have ha0 : after.length = 0 := by omega
    have hb : before = [] := List.length_eq_zero.mp hb0
    have ha : after = [] := List.length_eq_zero.mp ha0
    subst hb; subst ha
    simp [mergeWalk]
  | fuel + 1, [], after => by
    intro _ _ _
    simp [mergeWalk, List.filter_eq_self]
  | fuel + 1, b :: bs, [] => by
    intro _ _ _
    simp [mergeWalk, List.filter_eq_self]
  | fuel + 1, b :: bs, a :: ys => by
    intro hb ha hfuel
    rcases hb with - | ⟨hbhead, hbs⟩
    rcases ha with - | ⟨hahead, hys⟩
    have hfuel' : bs.length + ys.length ≤ fuel := by simp at hfuel; omega
    have hfuelb : bs.length + (a :: ys).length ≤ fuel := by simp at hfuel ⊢; omega
    have hfuela : (b :: bs).length + ys.length ≤ fuel := by simp at hfuel ⊢; omega
    simp only [mergeWalk]
    by_cases h0 : comparator a b = 0
    · rw [if_pos h0]
      have hkey : a.key = b.key := (comparator_eq_zero_iff a b).mp h0
      rw [mergeWalk_eq_filter fuel bs ys hbs hys hfuel']
      have h1 : List.filter (fun it => decide (it.key ∉ (a :: ys).map Item.key)) (b :: bs) =
          List.filter (fun it => decide (it.key ∉ ys.map Item.key)) bs := by
        rw [List.filter_cons]
        have hbmem : b.key ∈ (a :: ys).map Item.key := by
          rw [List.map_cons, ← hkey]; exact List.mem_cons_self _ _
        rw [if_neg (by simp only [decide_eq_true_eq, not_not]; exact hbmem)]
        exact filter_key_cons_irrel a ys fun it hit =>
          ne_of_gt (hkey ▸ hbhead it hit)
      have h2 : List.filter (fun it => decide (it.key ∉ (b :: bs).map Item.key)) (a :: ys) =
          List.filter (fun it => decide (it.key ∉ bs.map Item.key)) ys := by
        rw [List.filter_cons]
        have hamem : a.key ∈ (b :: bs).map Item.key := by
          rw [List.map_cons, hkey]; exact List.mem_cons_self _ _
        rw [if_neg (by simp only [decide_eq_true_eq, not_not]; exact hamem)]
        exact filter_key_cons_irrel b bs fun it hit =>
          ne_of_gt (hkey ▸ hahead it hit)
      rw [h1, h2]
    · rw [if_neg h0]
      by_cases h1 : comparator a b = 1
      · rw [if_pos h1]
        have hkey : b.key < a.key := (comparator_eq_one_iff a b).mp h1
        rw [mergeWalk_eq_filter fuel bs (a :: ys) hbs
          (List.Pairwise.cons hahead hys) hfuelb]
        have hbnot : b.key ∉ (a :: ys).map Item.key := by
          simp only [List.map_cons, List.mem_cons, not_or]
          constructor
          · exact fun h => absurd (h ▸ hkey) (lt_irrefl _)
          · intro hmem
            simp only [List.mem_map] at hmem
            obtain ⟨it, hit, heq⟩ := hmem
            have := hahead it hit
            rw [heq] at this
            exact absurd (lt_trans hkey this) (lt_irrefl _)
        have h1' : List.filter (fun it => decide (it.key ∉ (a :: ys).map Item.key)) (b :: bs) =
            b :: List.filter (fun it => decide (it.key ∉ (a :: ys).map Item.key)) bs := by
          rw [List.filter_cons, if_pos (by simp only [decide_eq_true_eq]; exact hbnot)]
        have h2' : List.filter (fun it => decide (it.key ∉ (b :: bs).map Item.key)) (a :: ys) =
            List.filter (fun it => decide (it.key ∉ bs.map Item.key)) (a :: ys) := by
          refine filter_key_cons_irrel b bs ?_
          intro it hit
          rcases List.mem_cons.mp hit with rfl | hmem
          · exact ne_of_gt hkey
          · exact ne_of_gt (lt_trans hkey (hahead it hmem))
        rw [h1', h2']
      · rw [if_neg h1]
        have hkey : a.key < b.key := by
          rcases lt_trichotomy a.key b.key with h | h | h
          · exact h
          · exact absurd ((comparator_eq_zero_iff a b).mpr h) h0
          · exact absurd ((comparator_eq_one_iff a b).mpr h) h1
        rw [mergeWalk_eq_filter fuel (b :: bs) ys
          (List.Pairwise.cons hbhead hbs) hys hfuela]
        have hanot : a.key ∉ (b :: bs).map Item.key := by
          simp only [List.map_cons, List.mem_cons, not_or]
          constructor
          · exact fun h => absurd (h ▸ hkey) (lt_irrefl _)
          · intro hmem
            simp only [List.mem_map] at hmem
            obtain ⟨it, hit, heq⟩ := hmem
            have := hbhead it hit
            rw [heq] at this
            exact absurd (lt_trans hkey this) (lt_irrefl _)
        have h1' : List.filter (fun it => decide (it.key ∉ (a :: ys).map Item.key)) (b :: bs) =
            List.filter (fun it => decide (it.key ∉ ys.map Item.key)) (b :: bs) := by
          refine filter_key_cons_irrel a ys ?_
          intro it hit
          rcases List.mem_cons.mp hit with rfl | hmem
          · exact ne_of_gt hkey
          · exact ne_of_gt (lt_trans hkey (hbhead it hmem))
        have h2' : List.filter (fun it => decide (it.key ∉ (b :: bs).map Item.key)) (a :: ys) =
            a :: List.filter (fun it => decide (it.key ∉ (b :: bs).map Item.key)) ys := by
          rw [List.filter_cons, if_pos (by simp only [decide_eq_true_eq]; exact hanot)]
        rw [h1', h2']

end WalkLemmas

/-! ## Support lemmas: phase 1 characterization -/
section PhaseOne
variable {K : Type _} [LinearOrder K]

theorem eq_of_perm_of_idx_strict {l₁ l₂ : List (Item K)}
    (hp : l₁.Perm l₂)
    (h₁ : List.Pairwise (fun a b : Item K => a.index < b.index) l₁)
    (h₂ : List.Pairwise (fun a b : Item K => a.index < b.index) l₂) :
    l₁ = l₂ := by
  haveI : IsAntisymm (Item K) (fun a b : Item K => a.index < b.index) :=
    ⟨fun a b hab hba => absurd (Nat.lt_trans hab hba) (Nat.lt_irrefl _)⟩
  exact List.eq_of_perm_of_sorted hp h₁ h₂

theorem removedItems_idx_strict (source target : List K) :
    List.Pairwise (fun a b : Item K => a.index < b.index)
      (removedItems source target) :=
  List.Pairwise.sublist (List.filter_sublist _) (createItems_index_strict source)

theorem insertedItems_idx_strict (source target : List K) :
    List.Pairwise (fun a b : Item K => a.index < b.index)
      (insertedItems source target) :=
  List.Pairwise.sublist (List.filter_sublist _) (createItems_index_strict target)

/-- The idx-sort of any permutation of an idx-strictly-sorted item list gives
back that list (sorting uniqueness; indexes are then duplicate-free). -/
theorem sortBy_idx_of_perm {l m : List (Item K)} (hperm : l.Perm m)
    (hm : List.Pairwise (fun a b : Item K => a.index < b.index) m) :
    sortBy itemIdxLe l = m := by
  refine eq_of_perm_of_idx_strict ((sortBy_perm l).trans hperm) ?_ hm
  have hle := sortBy_sorted itemIdxLe_total itemIdxLe_trans l
  have hndidx : (m.map Item.index).Nodup := by
    refine List.Pairwise.imp ?_ ((List.pairwise_map).mpr hm)
    exact fun h => Nat.ne_of_lt h
  have hnd' : ((sortBy itemIdxLe l).map Item.index).Nodup :=
    ((((sortBy_perm l).trans hperm).map Item.index).nodup_iff).mpr hndidx
  have hne := (List.pairwise_map).mp hnd'
  have := hle.and hne
  exact this.imp fun h => Nat.lt_of_le_of_ne (by simpa [itemIdxLe] using h.1) h.2

/-- Phase 1 of `calculateMoves` emits exactly the removals,
by descending original index, followed by the insertions, by ascending
index, provided both key sequences are duplicate-free. -/
theorem phaseOneMoves_eq (source target : List K)
    (hs : source.Nodup) (ht : target.Nodup) :
    phaseOneMoves source target =
      ((removedItems source target).reverse.map fun it => Move.remove it.key it.index) ++
        ((insertedItems source target).map fun it => Move.insert it.key it.index) := by
  simp only [phaseOneMoves]
  rw [mergeWalk_eq_filter _ _ _ (sortBy_key_strict hs) (sortBy_key_strict ht) (le_refl _)]
  have hsmem : (sortBy itemKeyLe (createItems source)).map Item.key |>.Perm source := by
    have := (@sortBy_perm _ itemKeyLe (createItems source)).map Item.key
    rwa [createItems_map_key] at this
  have htmem : (sortBy itemKeyLe (createItems target)).map Item.key |>.Perm target := by
    have := (@sortBy_perm _ itemKeyLe (createItems target)).map Item.key
    rwa [createItems_map_key] at this
  have hremolem :
      (sortBy itemKeyLe (createItems source)).filter
          (fun it => decide (it.key ∉ (sortBy itemKeyLe (createItems target)).map Item.key)) =
        (sortBy itemKeyLe (createItems source)).filter
          (fun it => decide (it.key ∉ target)) := by
    refine List.filter_congr ?_
    intro it _
    simp only [decide_eq_decide]
    rw [htmem.mem_iff]
  have hinslem :
      (sortBy itemKeyLe (createItems target)).filter
          (fun it => decide (it.key ∉ (sortBy itemKeyLe (createItems source)).map Item.key)) =
        (sortBy itemKeyLe (createItems target)).filter
          (fun it => decide (it.key ∉ source)) := by
    refine List.filter_congr ?_
    intro it _
    simp only [decide_eq_decide]
    rw [hsmem.mem_iff]
  simp only [hremolem, hinslem]
  rw [sortBy_idx_of_perm
      (((@sortBy_perm _ itemKeyLe (createItems source))).filter _)
      (removedItems_idx_strict source target),
    sortBy_idx_of_perm
      (((@sortBy_perm _ itemKeyLe (createItems target))).filter _)
      (insertedItems_idx_strict source target)]
  simp only [removedItems, insertedItems]

end PhaseOne
/-! ## Support lemmas: phase 1 application -/
section Apply
variable {K : Type _} [LinearOrder K]

theorem jsSplice_nat_remove (l : List α) (i : Nat) :
    jsSplice l (i : Int) 1 [] = l.take i ++ l.drop (i + 1) := by
  simp only [jsSplice]
  rw [if_neg (by omega), Int.toNat_natCast]
  rcases Nat.le_total i l.length with h | h
  · rw [min_eq_left h]; simp
  · rw [min_eq_right h,
      List.take_of_length_le h, List.take_of_length_le (le_refl _),
      List.drop_eq_nil_of_le (by omega), List.drop_eq_nil_of_le (by omega)]
    simp

theorem jsSplice_nat_insert (l : List α) (i : Nat) (x : α) :
    jsSplice l (i : Int) 0 [x] = l.take i ++ x :: l.drop i := by
  simp only [jsSplice]
  rw [if_neg (by omega), Int.toNat_natCast]
  rcases Nat.le_total i l.length with h | h
  · rw [min_eq_left h]; simp
  · rw [min_eq_right h,
      List.take_of_length_le h, List.take_of_length_le (le_refl _),
      List.drop_eq_nil_of_le h, List.drop_eq_nil_of_le (by omega)]
    simp

theorem jsSplice_insert_perm (l : List α) (i : Nat) (x : α) :
    (jsSplice l (i : Int) 0 [x]).Perm (x :: l) := by
  rw [jsSplice_nat_insert]
  have h1 : (l.take i ++ x :: l.drop i).Perm (x :: (l.take i ++ l.drop i)) :=
    List.perm_middle
  rwa [List.take_append_drop] at h1

theorem jsSplice_remove_snoc (l : List α) (x : α) {i : Nat} (h : i < l.length) :
    jsSplice (l ++ [x]) (i : Int) 1 [] = jsSplice l (i : Int) 1 [] ++ [x] := by
  rw [jsSplice_nat_remove, jsSplice_nat_remove,
    List.take_append_of_le_length (by omega),
    List.drop_append_of_le_length (by omega)]
  simp

theorem jsSplice_remove_last (l : List α) (x : α) :
    jsSplice (l ++ [x]) (l.length : Int) 1 [] = l := by
  rw [jsSplice_nat_remove, List.take_left,
    List.drop_eq_nil_of_le (by simp), List.append_nil]

theorem length_jsSplice_nat_remove (l : List α) {i : Nat} (h : i < l.length) :
    (jsSplice l (i : Int) 1 []).length = l.length - 1 := by
  rw [jsSplice_nat_remove]
  simp
  omega

/-- Applying remove-moves whose (descending) indices stay below `l.length`
never touches a trailing appended element. -/
theorem foldl_removes_snoc (its : List (Item K)) (l : List K) (x : K)
    (hdesc : List.Pairwise (fun a b : Item K => b.index < a.index) its)
    (hlt : ∀ it ∈ its, it.index < l.length) :
    ((its.map fun it => Move.remove it.key it.index).foldl
        (fun l m => m.make l) (l ++ [x])) =
      ((its.map fun it => Move.remove it.key it.index).foldl
        (fun l m => m.make l) l) ++ [x] := by
  induction its generalizing l with
  | nil => simp
  | cons it rest ih =>
    rcases hdesc with - | ⟨hhead, hdesc'⟩
    have hi : it.index < l.length := hlt it (List.mem_cons_self _ _)
    simp only [List.map_cons, List.foldl_cons, Move.make]
    rw [jsSplice_remove_snoc l x hi]
    refine ih _ hdesc' ?_
    intro it' hit'
    rw [length_jsSplice_nat_remove l hi]
    have h1 : it'.index < it.index := hhead it' hit'
    omega

theorem createItems_snoc (l : List K) (a : K) :
    createItems (l ++ [a]) = createItems l ++ [⟨a, l.length⟩] := by
  unfold createItems
  rw [List.mapIdx_append]
  simp

theorem removedItems_snoc (l : List K) (a : K) (target : List K) :
    removedItems (l ++ [a]) target =
      removedItems l target ++
        (if a ∈ target then [] else [⟨a, l.length⟩]) := by
  unfold removedItems
  rw [createItems_snoc, List.filter_append]
  congr 1
  by_cases h : a ∈ target
  · rw [if_pos h]
    simp [h]
  · rw [if_neg h]
    simp [h]

theorem removedItems_index_lt (source target : List K) :
    ∀ it ∈ removedItems source target, it.index < source.length := by
  intro it hit
  have hsub : List.Sublist (removedItems source target) (createItems source) :=
    List.filter_sublist _
  have h1 : it ∈ createItems source := hsub.mem hit
  have h2 : it.index ∈ (createItems source).map Item.index := List.mem_map_of_mem _ h1
  rw [createItems_map_index] at h2
  exact List.mem_range.mp h2

/-- Applying the removal moves (descending original index) to the source list
keeps exactly the elements whose key occurs in the target. -/
theorem foldl_removedItems (source target : List K) :
    ((removedItems source target).reverse.map fun it => Move.remove it.key it.index).foldl
        (fun l m => m.make l) source =
      source.filter fun k => decide (k ∈ target) := by
  induction source using List.reverseRecOn with
  | nil => simp [removedItems, createItems]
  | append_singleton l a ih =>
    rw [removedItems_snoc]
    by_cases h : a ∈ target
    · rw [if_pos h, List.append_nil]
      have hdesc : List.Pairwise (fun x y : Item K => y.index < x.index)
          (removedItems l target).reverse := by
        rw [List.pairwise_reverse]
        exact removedItems_idx_strict l target
      rw [foldl_removes_snoc _ _ _ hdesc (fun it hit =>
        removedItems_index_lt l target it (List.mem_reverse.mp hit))]
      rw [ih, List.filter_append]
      simp [h]
    · rw [if_neg h, List.reverse_append]
      simp only [List.reverse_singleton, List.singleton_append, List.map_cons,
        List.foldl_cons]
      have hstep : (Move.remove a l.length).make (l ++ [a]) = l := by
        simp only [Move.make]
        exact jsSplice_remove_last l a
      rw [hstep, ih, List.filter_append]
      simp [h]

end Apply

section Apply2
variable {K : Type _} [LinearOrder K]

/-- Applying insert-moves prepends (as a multiset) the inserted keys. -/
theorem foldl_inserts_perm (its : List (Item K)) (l : List K) :
    (((its.map fun it => Move.insert it.key it.index).foldl
        (fun l m => m.make l) l)).Perm (its.map Item.key ++ l) := by
  induction its generalizing l with
  | nil => simp
  | cons it rest ih =>
    simp only [List.map_cons, List.foldl_cons]
    have hstep : (Move.insert it.key it.index).make l = jsSplice l (it.index : Int) 0 [it.key] := rfl
    rw [hstep]
    refine (ih _).trans ?_
    refine (List.Perm.append_left _ (jsSplice_insert_perm l it.index it.key)).trans ?_
    exact List.perm_middle

theorem map_key_filter (p : Item K → Bool) (q : K → Bool)
    (h : ∀ it, p it = q it.key) (its : List (Item K)) :
    ((its.filter p).map Item.key) = (its.map Item.key).filter q := by
  induction its with
  | nil => rfl
  | cons it rest ih =>
    rw [List.filter_cons, List.map_cons, List.filter_cons, h it]
    by_cases hq : q it.key
    · rw [if_pos (by simp [hq]), if_pos (by simp [hq]), List.map_cons, ih]
    · rw [if_neg (by simp [hq]), if_neg (by simp [hq]), ih]

/-- The phase-1 working copy after removals and insertions, as a multiset:
the target-only keys plus the source keys shared with the target. -/
theorem phaseOneResult_perm' (source target : List K)
    (hs : source.Nodup) (ht : target.Nodup) :
    (phaseOneResult source target).Perm
      ((target.filter fun k => decide (k ∉ source)) ++
        (source.filter fun k => decide (k ∈ target))) := by
  unfold phaseOneResult
  rw [phaseOneMoves_eq source target hs ht, List.foldl_append, foldl_removedItems]
  refine (foldl_inserts_perm _ _).trans ?_
  have h1 : (insertedItems source target).map Item.key =
      target.filter fun k => decide (k ∉ source) := by
    unfold insertedItems
    rw [map_key_filter _ (fun k => decide (k ∉ source)) (fun it => rfl),
      createItems_map_key]
  rw [h1]

/-- Membership in the phase-1 intermediate sequence: exactly the common keys
plus the inserted keys. -/
theorem phaseOneResult_mem (source target : List K)
    (hs : source.Nodup) (ht : target.Nodup) (k : K) :
    k ∈ phaseOneResult source target ↔
      (k ∈ source ∧ k ∈ target) ∨ (k ∈ target ∧ k ∉ source) := by
  rw [(phaseOneResult_perm' source target hs ht).mem_iff]
  simp only [List.mem_append, List.mem_filter, decide_eq_true_eq]
  tauto

/-- With duplicate-free inputs the phase-1 intermediate is a permutation of
the target keys. -/
theorem phaseOneResult_perm (source target : List K)
    (hs : source.Nodup) (ht : target.Nodup) :
    (phaseOneResult source target).Perm target := by
  refine (phaseOneResult_perm' source target hs ht).trans ?_
  have h1 : (source.filter fun k => decide (k ∈ target)).Perm
      (target.filter fun k => decide (k ∈ source)) := by
    refine List.perm_of_nodup_nodup_toFinset_eq (hs.filter _) (ht.filter _) ?_
    ext x
    simp only [List.mem_toFinset, List.mem_filter, decide_eq_true_eq]
    tauto
  refine (List.Perm.append_left _ h1).trans ?_
  refine (List.perm_append_comm).trans ?_
  have h2 := List.filter_append_perm (fun k => decide (k ∈ source)) target
  refine List.Perm.trans ?_ h2
  refine List.Perm.append_left _ (List.Perm.of_eq ?_)
  refine List.filter_congr ?_
  intro x _
  simp

end Apply2

/-! ## Support lemmas: phase 2 (reordering scans) -/
section Pass
variable {K : Type _} [DecidableEq K]

theorem jsIndexOf_of_mem {x : K} {l : List K} (h : x ∈ l) :
    jsIndexOf l x = (l.indexOf x : Int) := by
  unfold jsIndexOf
  rcases hio : l.indexOf? x with _ | j
  · rw [List.indexOf?_eq_none_iff] at hio
    exact absurd (by simp : (x == x) = true) (by simpa using hio x h)
  · have h2 := List.indexOf_eq_indexOf? x l
    rw [hio] at h2
    simp [h2]

/-- The single-step effect of `moveItemIfNeeded` when a relocation happens:
the element is deleted at its current position `j` and reinserted at `i`. -/
theorem moveItem_splice (l : List K) (item : K) (i j : Nat)
    (hj : j < l.length) (hlj : l[j] = item) :
    (Move.move item (j : Int) i).make l =
      (l.take j ++ l.drop (j + 1)).take i ++
        item :: (l.take j ++ l.drop (j + 1)).drop i := by
  simp only [Move.make]
  rw [jsSplice_nat_remove, jsSplice_nat_insert]

/-- Deleting the occurrence of `item` at `j` and reinserting it anywhere
preserves the multiset. -/
theorem moveItem_perm (l : List K) (item : K) (i j : Nat)
    (hj : j < l.length) (hlj : l[j] = item) :
    ((Move.move item (j : Int) i).make l).Perm l := by
  rw [moveItem_splice l item i j hj hlj]
  have h1 : ((l.take j ++ l.drop (j + 1)).take i ++
      item :: (l.take j ++ l.drop (j + 1)).drop i).Perm
      (item :: (l.take j ++ l.drop (j + 1))) := by
    have h0 := @List.perm_middle _ item ((l.take j ++ l.drop (j + 1)).take i)
      ((l.take j ++ l.drop (j + 1)).drop i)
    rwa [List.take_append_drop] at h0
  refine h1.trans ?_
  have h2 : l = l.take j ++ item :: l.drop (j + 1) := by
    conv_lhs => rw [← List.take_append_drop j l]
    rw [List.drop_eq_getElem_cons hj, hlj]
  have h3 : (l.take j ++ item :: l.drop (j + 1)).Perm
      (item :: (l.take j ++ l.drop (j + 1))) := List.perm_middle
  conv_rhs => rw [h2]
  exact h3.symm

end Pass

section Pass2
variable {K : Type _} [DecidableEq K]

/-- Forward-scan invariant step: if the working list agrees with the target on
the first `i` positions and is a permutation of it, one `moveItemIfNeeded`
step extends the agreement to `i + 1` positions. -/
theorem step_forward (target : List K) (ht : target.Nodup)
    (l : List K) (mvs : List (Move K)) (i : Nat)
    (hperm : l.Perm target) (hi : i < target.length)
    (htake : l.take i = target.take i) :
    (moveItemIfNeeded target (l, mvs) i).1.Perm target ∧
      (moveItemIfNeeded target (l, mvs) i).1.take (i + 1) = target.take (i + 1) := by
  have hlen : l.length = target.length := hperm.length_eq
  have hil : i < l.length := by omega
  have hitem : target.get? i = some target[i] := by
    rw [List.get?_eq_getElem?, List.getElem?_eq_getElem hi]
  unfold moveItemIfNeeded
  rw [hitem]
  dsimp only
  by_cases hskip : l.get? i = some target[i]
  · rw [if_neg (by simpa using hskip)]
    refine ⟨hperm, ?_⟩
    rw [List.take_succ, List.take_succ, htake,
      List.getElem?_eq_getElem hi, List.getElem?_eq_getElem hil]
    rw [List.get?_eq_getElem?, List.getElem?_eq_getElem hil] at hskip
    simp only [Option.some.injEq] at hskip
    rw [hskip]
  · rw [if_pos (by simpa using hskip)]
    have hmem : target[i] ∈ l := hperm.mem_iff.mpr (List.getElem_mem hi)
    set j := l.indexOf target[i] with hj
    have hjlt : j < l.length := List.indexOf_lt_length.mpr hmem
    have hlj : l[j] = target[i] := List.getElem_indexOf hjlt
    have hlj? : l[j]? = some target[i] := by
      rw [List.getElem?_eq_getElem hjlt, hlj]
    have hji : j ≠ i := by
      intro h
      apply hskip
      rw [List.get?_eq_getElem?]
      conv_lhs => rw [← h]
      exact hlj?
    have hjgt : i < j := by
      rcases Nat.lt_or_ge j i with hlt | hge
      · exfalso
        have e2 : (l.take i)[j]? = (target.take i)[j]? := by rw [htake]
        rw [List.getElem?_take, if_pos hlt, List.getElem?_take, if_pos hlt] at e2
        have e3 : target[j]? = some target[i] := by rw [← e2, hlj?]
        have hjt : j < target.length := by omega
        have e4 : (getElem target j hjt) = target[i] := by
          apply Option.some_inj.mp
          rw [← List.getElem?_eq_getElem hjt]
          exact e3
        exact hji (ht.getElem_inj_iff.mp e4)
      · omega
    rw [jsIndexOf_of_mem hmem, ← hj]
    constructor
    · exact (moveItem_perm l target[i] i j hjlt hlj).trans hperm
    · rw [moveItem_splice l target[i] i j hjlt hlj]
      have hlen1 : (l.take j ++ l.drop (j + 1)).length = l.length - 1 := by
        simp [List.length_take, List.length_drop]
        omega
      have hitake : (l.take j ++ l.drop (j + 1)).take i = l.take i := by
        rw [List.take_append_of_le_length (by simp [List.length_take]; omega),
          List.take_take, min_eq_left (by omega)]
      have hilen : ((l.take j ++ l.drop (j + 1)).take i).length = i := by
        rw [hitake, List.length_take]
        omega
      calc ((l.take j ++ l.drop (j + 1)).take i ++
              target[i] :: (l.take j ++ l.drop (j + 1)).drop i).take (i + 1)
          = (l.take j ++ l.drop (j + 1)).take i ++ [target[i]] := by
            have h5 := @List.take_append _ ((l.take j ++ l.drop (j + 1)).take i)
              (target[i] :: (l.take j ++ l.drop (j + 1)).drop i) 1
            have h6 : i + 1 = ((l.take j ++ l.drop (j + 1)).take i).length + 1 := by
              rw [hilen]
            rw [h6]
            simpa using h5
        _ = target.take i ++ [target[i]] := by rw [hitake, htake]
        _ = target.take (i + 1) := by
            rw [List.take_succ, List.getElem?_eq_getElem hi]
            rfl

end Pass2

section Pass3
variable {K : Type _} [DecidableEq K]

/-- Reverse-scan invariant step: if the working list agrees with the target
from position `i + 1` on and is a permutation of it, one `moveItemIfNeeded`
step extends the agreement to position `i`. -/
theorem step_reverse (target : List K) (ht : target.Nodup)
    (l : List K) (mvs : List (Move K)) (i : Nat)
    (hperm : l.Perm target) (hi : i < target.length)
    (hdrop : l.drop (i + 1) = target.drop (i + 1)) :
    (moveItemIfNeeded target (l, mvs) i).1.Perm target ∧
      (moveItemIfNeeded target (l, mvs) i).1.drop i = target.drop i := by
  have hlen : l.length = target.length := hperm.length_eq
  have hil : i < l.length := by omega
  have hitem : target.get? i = some target[i] := by
    rw [List.get?_eq_getElem?, List.getElem?_eq_getElem hi]
  unfold moveItemIfNeeded
  rw [hitem]
  dsimp only
  by_cases hskip : l.get? i = some target[i]
  · rw [if_neg (by simpa using hskip)]
    refine ⟨hperm, ?_⟩
    rw [List.get?_eq_getElem?, List.getElem?_eq_getElem hil] at hskip
    have hski : l[i] = target[i] := by simpa using hskip
    rw [List.drop_eq_getElem_cons hil, List.drop_eq_getElem_cons hi, hski, hdrop]
  · rw [if_pos (by simpa using hskip)]
    have hmem : target[i] ∈ l := hperm.mem_iff.mpr (List.getElem_mem hi)
    set j := l.indexOf target[i] with hj
    have hjlt : j < l.length := List.indexOf_lt_length.mpr hmem
    have hlj : l[j] = target[i] := List.getElem_indexOf hjlt
    have hlj? : l[j]? = some target[i] := by
      rw [List.getElem?_eq_getElem hjlt, hlj]
    have hji : j ≠ i := by
      intro h
      apply hskip
      rw [List.get?_eq_getElem?]
      conv_lhs => rw [← h]
      exact hlj?
    have hjlt' : j < i := by
      rcases Nat.lt_or_ge j i with hlt | hge
      · exact hlt
      · exfalso
        have hgt : i + 1 ≤ j := by omega
        have e2 : l[j]? = target[j]? := by
          have e3 : (l.drop (i + 1))[j - (i + 1)]? = (target.drop (i + 1))[j - (i + 1)]? := by
            rw [hdrop]
          rw [List.getElem?_drop, List.getElem?_drop] at e3
          have e4 : i + 1 + (j - (i + 1)) = j := by omega
          rwa [e4] at e3
        have hjt : j < target.length := by omega
        have e5 : (getElem target j hjt) = target[i] := by
          apply Option.some_inj.mp
          rw [← List.getElem?_eq_getElem hjt, ← e2]
          exact hlj?
        exact hji (ht.getElem_inj_iff.mp e5)
    rw [jsIndexOf_of_mem hmem, ← hj]
    constructor
    · exact (moveItem_perm l target[i] i j hjlt hlj).trans hperm
    · rw [moveItem_splice l target[i] i j hjlt hlj]
      have hjtake : (l.take j).length = j := by
        rw [List.length_take]
        omega
      have hdrop1 : (l.take j ++ l.drop (j + 1)).drop i = l.drop (i + 1) := by
        have e6 : i = (l.take j).length + (i - j) := by omega
        rw [e6, List.drop_append]
        rw [List.drop_drop]
        congr 1
        omega
      have hilen1 : i ≤ (l.take j ++ l.drop (j + 1)).length := by
        rw [List.length_append, List.length_take, List.length_drop]
        omega
      have hitake1 : ((l.take j ++ l.drop (j + 1)).take i).length = i := by
        rw [List.length_take]
        omega
      show List.drop i ((l.take j ++ l.drop (j + 1)).take i ++
          target[i] :: (l.take j ++ l.drop (j + 1)).drop i) = List.drop i target
      rw [List.drop_left' hitake1, hdrop1, hdrop, List.drop_eq_getElem_cons hi]

end Pass3

section Pass4
variable {K : Type _} [DecidableEq K]

/-- The left-to-right scan, started anywhere with the prefix invariant,
drives the working list to the target. -/
theorem forward_pass (target : List K) (ht : target.Nodup) :
    ∀ (k i : Nat) (st : List K × List (Move K)), i + k = target.length →
    st.1.Perm target → st.1.take i = target.take i →
    ((List.range' i k).foldl (moveItemIfNeeded target) st).1 = target := by
  intro k
  induction k with
  | zero =>
    intro i st hik hperm htake
    simp only [List.range', List.foldl_nil]
    have hlen : st.1.length = target.length := hperm.length_eq
    have h1 : st.1.take i = st.1 := List.take_of_length_le (by omega)
    have h2 : target.take i = target := List.take_of_length_le (by omega)
    rw [h1, h2] at htake
    exact htake
  | succ k ih =>
    intro i st hik hperm htake
    rw [List.range'_succ, List.foldl_cons]
    have hi : i < target.length := by omega
    obtain ⟨hp', ht'⟩ := step_forward target ht st.1 st.2 i hperm hi htake
    exact ih (i + 1) _ (by omega) hp' ht'

/-- The right-to-left scan, started anywhere with the suffix invariant,
drives the working list to the target. -/
theorem reverse_pass (target : List K) (ht : target.Nodup) :
    ∀ (k : Nat) (st : List K × List (Move K)), k ≤ target.length →
    st.1.Perm target → st.1.drop k = target.drop k →
    (((List.range' 0 k).reverse).foldl (moveItemIfNeeded target) st).1 = target := by
  intro k
  induction k with
  | zero =>
    intro st _ hperm hdrop
    simpa using hdrop
  | succ k ih =>
    intro st hk hperm hdrop
    have hconcat : List.range' 0 (k + 1) = List.range' 0 k ++ [k] := by
      have h0 := @List.range'_concat 1 0 k
      simpa using h0
    rw [hconcat, List.reverse_append, List.reverse_singleton, List.singleton_append,
      List.foldl_cons]
    have hi : k < target.length := by omega
    obtain ⟨hp', ht'⟩ := step_reverse target ht st.1 st.2 k hperm hi hdrop
    exact ih _ (by omega) hp' ht'

/-- A `moveItemIfNeeded` step either leaves the state alone or performs one
`move` operation, recording it. -/
theorem moveItemIfNeeded_cases (target : List K) (st : List K × List (Move K)) (i : Nat) :
    moveItemIfNeeded target st i = st ∨
      ∃ mv : Move K, mv.isMove = true ∧
        moveItemIfNeeded target st i = (mv.make st.1, st.2 ++ [mv]) := by
  unfold moveItemIfNeeded
  rcases target.get? i with _ | item
  · exact Or.inl rfl
  · dsimp only
    by_cases h : st.1.get? i ≠ some item
    · rw [if_pos h]
      exact Or.inr ⟨Move.move item (jsIndexOf st.1 item) i, rfl, rfl⟩
    · rw [if_neg h]
      exact Or.inl rfl

/-- Replay: the moves accumulated by a scan, applied in order to the initial
working list, reproduce the scan's final working list, and all of them are
`move` operations. -/
theorem foldl_step_replay (target : List K) (idxs : List Nat) :
    ∀ (st : List K × List (Move K)),
    ∃ t, (idxs.foldl (moveItemIfNeeded target) st).2 = st.2 ++ t ∧
      t.foldl (fun l m => m.make l) st.1 = (idxs.foldl (moveItemIfNeeded target) st).1 ∧
      ∀ m ∈ t, m.isMove = true := by
  induction idxs with
  | nil =>
    intro st
    exact ⟨[], by simp, by simp, by simp⟩
  | cons i rest ih =>
    intro st
    rw [List.foldl_cons]
    rcases moveItemIfNeeded_cases target st i with hid | ⟨mv, hmv, hstep⟩
    · rw [hid]
      exact ih st
    · rw [hstep]
      obtain ⟨t, h1, h2, h3⟩ := ih (mv.make st.1, st.2 ++ [mv])
      refine ⟨mv :: t, ?_, ?_, ?_⟩
      · rw [h1]
        simp
      · rw [List.foldl_cons]
        exact h2
      · intro m hm
        rcases List.mem_cons.mp hm with rfl | hm'
        · exact hmv
        · exact h3 m hm'

end Pass4

section Pass5
variable {K : Type _} [DecidableEq K]

/-- Either scan, run on a permutation of the target, ends exactly at the
target (`moves.result` of `calculateIndexChanges`). -/
theorem calculateIndexChanges_result (source target : List K) (ht : target.Nodup)
    (hp : source.Perm target) (rev : Bool) :
    (calculateIndexChanges source target rev).2 = target := by
  unfold calculateIndexChanges
  cases rev
  · dsimp only
    rw [if_neg (by simp), List.range_eq_range']
    exact forward_pass target ht target.length 0 (source, []) (by omega) hp (by simp)
  · dsimp only
    rw [if_pos rfl, List.range_eq_range']
    refine reverse_pass target ht target.length (source, []) (le_refl _) hp ?_
    show List.drop target.length source = List.drop target.length target
    have hlen : source.length = target.length := hp.length_eq
    rw [List.drop_eq_nil_of_le (by omega), List.drop_eq_nil_of_le (le_refl _)]

/-- The move list of `calculateIndexChanges`, replayed from the initial list,
gives its result, and contains only `move` operations. -/
theorem calculateIndexChanges_replay (source target : List K) (rev : Bool) :
    ((calculateIndexChanges source target rev).1.foldl (fun l m => m.make l) source =
      (calculateIndexChanges source target rev).2) ∧
    ∀ m ∈ (calculateIndexChanges source target rev).1, m.isMove = true := by
  unfold calculateIndexChanges
  obtain ⟨t, h1, h2, h3⟩ := foldl_step_replay target
    (if rev then (List.range target.length).reverse else List.range target.length)
    (source, [])
  dsimp only
  simp only at h1
  rw [List.nil_append] at h1
  rw [h1]
  exact ⟨h2, h3⟩

end Pass5

section Main
variable {K : Type _} [LinearOrder K]

/-- Branch analysis of `calculateMoves`: the emitted list is always the
phase-1 moves followed by pure `move` operations; the attached result is the
target; replaying the move suffix from the phase-1 intermediate gives the
target; and if the intermediate already equals the target the suffix is
empty. -/
theorem calculateMoves_spec (source target : List K) (fav : Option K)
    (hs : source.Nodup) (ht : target.Nodup) :
    ∃ movs, (calculateMoves source target fav).1 = phaseOneMoves source target ++ movs ∧
      (∀ m ∈ movs, m.isMove = true) ∧
      (calculateMoves source target fav).2 = target ∧
      movs.foldl (fun l m => m.make l) (phaseOneResult source target) = target ∧
      (phaseOneResult source target = target → movs = []) := by
  have hperm := phaseOneResult_perm source target hs ht
  unfold calculateMoves
  by_cases heq : phaseOneResult source target = target
  · rw [if_pos heq]
    exact ⟨[], by simp, by simp, heq, by simpa using heq, fun _ => rfl⟩
  · rw [if_neg heq]
    dsimp only
    by_cases hcond : (decide ((calculateIndexChanges (phaseOneResult source target) target false).1.length > 1) ||
        match fav with
        | some f => (calculateIndexChanges (phaseOneResult source target) target false).1.length == 1 &&
            (((calculateIndexChanges (phaseOneResult source target) target false).1.map Move.item).head? != some f)
        | none => false) = true
    · rw [if_pos hcond]
      by_cases hlen : (calculateIndexChanges (phaseOneResult source target) target true).1.length ≤
          (calculateIndexChanges (phaseOneResult source target) target false).1.length
      · rw [if_pos hlen]
        obtain ⟨hrep, hmv⟩ := calculateIndexChanges_replay (phaseOneResult source target) target true
        refine ⟨_, rfl, hmv, ?_, ?_, fun h => absurd h heq⟩
        · exact calculateIndexChanges_result _ _ ht hperm true
        · rw [hrep]
          exact calculateIndexChanges_result _ _ ht hperm true
      · rw [if_neg hlen]
        obtain ⟨hrep, hmv⟩ := calculateIndexChanges_replay (phaseOneResult source target) target false
        refine ⟨_, rfl, hmv, ?_, ?_, fun h => absurd h heq⟩
        · exact calculateIndexChanges_result _ _ ht hperm false
        · rw [hrep]
          exact calculateIndexChanges_result _ _ ht hperm false
    · rw [if_neg hcond]
      obtain ⟨hrep, hmv⟩ := calculateIndexChanges_replay (phaseOneResult source target) target false
      refine ⟨_, rfl, hmv, ?_, ?_, fun h => absurd h heq⟩
      · exact calculateIndexChanges_result _ _ ht hperm false
      · rw [hrep]
        exact calculateIndexChanges_result _ _ ht hperm false

end Main

/-! ## Claims about the keyed reconciler (C2, C3, C5, C10) -/
section Claims1
variable {K : Type _} [LinearOrder K]

/-- Longest common subsequence length (order-preserving), used to state the
reconciliation minimality bound of C5. Fuel-based so that it evaluates; fuel
`xs.length + ys.length` is exact. -/
def lcsLengthAux [DecidableEq A] : Nat → List A → List A → Nat
  | 0, _, _ => 0
  | _ + 1, [], _ => 0
  | _ + 1, _, [] => 0
  | fuel + 1, a :: l, b :: m =>
    if a = b then lcsLengthAux fuel l m + 1
    else max (lcsLengthAux fuel (a :: l) m) (lcsLengthAux fuel l (b :: m))

/-- Longest common subsequence length of two sequences. -/
def lcsLength [DecidableEq A] (l m : List A) : Nat :=
  lcsLengthAux (l.length + m.length) l m

/-- C10: for duplicate-free key sequences, replaying every returned move's
`make` transformation on a fresh copy of the source yields the target, and
the attached `result` equals the target. -/
theorem calculateMoves_apply_eq_target (source target : List K)
    (fav : Option K) (hs : source.Nodup) (ht : target.Nodup) :
    ((calculateMoves source target fav).1.foldl (fun l m => m.make l) source = target) ∧
      (calculateMoves source target fav).2 = target := by
  obtain ⟨movs, hshape, _, hres, happly, _⟩ := calculateMoves_spec source target fav hs ht
  refine ⟨?_, hres⟩
  rw [hshape, List.foldl_append]
  exact happly

theorem calculateMoves_apply_eq_target_witness :
    (([0, 1, 2, 3] : List Nat).Nodup ∧ ([1, 3, 0, 2] : List Nat).Nodup) ∧
      (((calculateMoves ([0, 1, 2, 3] : List Nat) [1, 3, 0, 2] none).1.foldl
          (fun l m => m.make l) [0, 1, 2, 3] = [1, 3, 0, 2]) ∧
        (calculateMoves ([0, 1, 2, 3] : List Nat) [1, 3, 0, 2] none).2 = [1, 3, 0, 2]) :=
  ⟨⟨by decide, by decide⟩,
    calculateMoves_apply_eq_target [0, 1, 2, 3] [1, 3, 0, 2] none (by decide) (by decide)⟩

/-- C3: for duplicate-free key sequences the emitted list starts with all
removals in strictly descending original-index order, then all insertions in
strictly ascending index order, then only `move` operations; the intermediate
sequence holds exactly the common-plus-inserted keys; and when it already
equals the target no `move` operation is emitted. -/
theorem calculateMoves_phase_structure (source target : List K)
    (fav : Option K) (hs : source.Nodup) (ht : target.Nodup) :
    (∃ movs, (calculateMoves source target fav).1 =
        ((removedItems source target).reverse.map fun it => Move.remove it.key it.index) ++
          ((insertedItems source target).map fun it => Move.insert it.key it.index) ++ movs ∧
        ∀ m ∈ movs, m.isMove = true) ∧
      List.Pairwise (fun a b : Nat => a > b)
        (((removedItems source target).reverse).map Item.index) ∧
      List.Pairwise (fun a b : Nat => a < b)
        ((insertedItems source target).map Item.index) ∧
      (∀ k : K, k ∈ phaseOneResult source target ↔
        (k ∈ source ∧ k ∈ target) ∨ (k ∈ target ∧ k ∉ source)) ∧
      (phaseOneResult source target = target →
        (calculateMoves source target fav).1 =
          ((removedItems source target).reverse.map fun it => Move.remove it.key it.index) ++
            ((insertedItems source target).map fun it => Move.insert it.key it.index)) := by
  obtain ⟨movs, hshape, hmv, _, _, hearly⟩ := calculateMoves_spec source target fav hs ht
  have hp1 := phaseOneMoves_eq source target hs ht
  refine ⟨⟨movs, ?_, hmv⟩, ?_, ?_, phaseOneResult_mem source target hs ht, ?_⟩
  · rw [hshape, hp1, List.append_assoc]
  · rw [List.map_reverse, List.pairwise_reverse]
    have h1 := removedItems_idx_strict source target
    exact (List.pairwise_map).mpr h1
  · have h1 := insertedItems_idx_strict source target
    exact (List.pairwise_map).mpr h1
  · intro h
    rw [hshape, hearly h, List.append_nil, hp1]

theorem calculateMoves_phase_structure_witness :
    (([0, 1, 2, 3] : List Nat).Nodup ∧ ([9, 1, 3, 8] : List Nat).Nodup) ∧
      ((∃ movs, (calculateMoves ([0, 1, 2, 3] : List Nat) [9, 1, 3, 8] none).1 =
          ((removedItems ([0, 1, 2, 3] : List Nat) [9, 1, 3, 8]).reverse.map
            fun it => Move.remove it.key it.index) ++
            ((insertedItems ([0, 1, 2, 3] : List Nat) [9, 1, 3, 8]).map
              fun it => Move.insert it.key it.index) ++ movs ∧
          ∀ m ∈ movs, m.isMove = true) ∧
        List.Pairwise (fun a b : Nat => a > b)
          (((removedItems ([0, 1, 2, 3] : List Nat) [9, 1, 3, 8]).reverse).map Item.index) ∧
        List.Pairwise (fun a b : Nat => a < b)
          ((insertedItems ([0, 1, 2, 3] : List Nat) [9, 1, 3, 8]).map Item.index) ∧
        (∀ k : Nat, k ∈ phaseOneResult ([0, 1, 2, 3] : List Nat) [9, 1, 3, 8] ↔
          (k ∈ ([0, 1, 2, 3] : List Nat) ∧ k ∈ ([9, 1, 3, 8] : List Nat)) ∨
            (k ∈ ([9, 1, 3, 8] : List Nat) ∧ k ∉ ([0, 1, 2, 3] : List Nat))) ∧
        (phaseOneResult ([0, 1, 2, 3] : List Nat) [9, 1, 3, 8] = [9, 1, 3, 8] →
          (calculateMoves ([0, 1, 2, 3] : List Nat) [9, 1, 3, 8] none).1 =
            ((removedItems ([0, 1, 2, 3] : List Nat) [9, 1, 3, 8]).reverse.map
              fun it => Move.remove it.key it.index) ++
              ((insertedItems ([0, 1, 2, 3] : List Nat) [9, 1, 3, 8]).map
                fun it => Move.insert it.key it.index))) :=
  ⟨⟨by decide, by decide⟩,
    calculateMoves_phase_structure [0, 1, 2, 3] [9, 1, 3, 8] none (by decide) (by decide)⟩

/-- C5: for source `[a,b,c,d]` (as keys `0,1,2,3`) and target `[b,d,a,c]`,
the number of emitted operations is bounded by
`|source \ target| + |target \ source| + (n - lcs)` `= 0 + 0 + (4 - 2) = 2`. -/
theorem calculateMoves_abcd_bound :
    (calculateMoves ([0, 1, 2, 3] : List Nat) [1, 3, 0, 2] none).1.length ≤
      (removedItems ([0, 1, 2, 3] : List Nat) [1, 3, 0, 2]).length +
        (insertedItems ([0, 1, 2, 3] : List Nat) [1, 3, 0, 2]).length +
        (([0, 1, 2, 3] : List Nat).length -
          lcsLength ([0, 1, 2, 3] : List Nat) [1, 3, 0, 2]) := by
  decide

end Claims1
section ClaimsC2
variable {K : Type _} [LinearOrder K]

/-- C2 counterexample: with keys `x = 0`, `y = 1`, `z = 2` and `x` favored,
the reconciler emits exactly one move and it relocates `x` (the favored key),
not `y`. -/
theorem calculateMoves_favored_counterexample :
    (calculateMoves ([0, 1, 2] : List Nat) [1, 0, 2] (some 0)).1 = [Move.move 0 0 1] ∧
      (calculateMoves ([0, 1, 2] : List Nat) [1, 0, 2] (some 0)).1.map Move.item ≠ [1] := by
  decide

theorem phaseOne_xyz (x y z : K)
    (hxy : x ≠ y) (hyz : y ≠ z) (hxz : x ≠ z) :
    phaseOneMoves [x, y, z] [y, x, z] = [] := by
  have hs : ([x, y, z] : List K).Nodup := by simp [hxy, hyz, hxz]
  have ht : ([y, x, z] : List K).Nodup := by
    simp [hxy.symm, hyz, hxz]
  rw [phaseOneMoves_eq _ _ hs ht]
  have h1 : removedItems [x, y, z] [y, x, z] = [] := by
    unfold removedItems createItems
    simp
  have h2 : insertedItems [x, y, z] [y, x, z] = [] := by
    unfold insertedItems createItems
    simp
  rw [h1, h2]
  rfl

end ClaimsC2
section ClaimsC2b
variable {K : Type _} [LinearOrder K]

theorem jsIndexOf_xyz_y (x y z : K) (hxy : x ≠ y) :
    jsIndexOf [x, y, z] y = ((1 : Nat) : Int) := by
  have hmem : y ∈ ([x, y, z] : List K) := by simp
  rw [jsIndexOf_of_mem hmem]
  have h1 : List.indexOf y [x, y, z] = 1 := by
    simp [List.indexOf_cons, hxy]
  rw [h1]

theorem jsIndexOf_xyz_x (x y z : K) :
    jsIndexOf [x, y, z] x = ((0 : Nat) : Int) := by
  have hmem : x ∈ ([x, y, z] : List K) := by simp
  rw [jsIndexOf_of_mem hmem]
  have h1 : List.indexOf x [x, y, z] = 0 := by
    simp [List.indexOf_cons]
  rw [h1]

/-- A `moveItemIfNeeded` step at an index where the working list already
matches the target is a no-op. -/
theorem moveItemIfNeeded_skip {K : Type _} [DecidableEq K] (target : List K)
    (st : List K × List (Move K)) (i : Nat)
    (h : st.1.get? i = target.get? i) : moveItemIfNeeded target st i = st := by
  unfold moveItemIfNeeded
  rcases hti : target.get? i with _ | item
  · rfl
  · dsimp only
    rw [hti] at h
    rw [if_neg (by rw [h]; simp)]

/-- A `moveItemIfNeeded` step at a mismatched index performs one relocation. -/
theorem moveItemIfNeeded_move {K : Type _} [DecidableEq K] (target : List K)
    (st : List K × List (Move K)) (i : Nat) (item : K)
    (hti : target.get? i = some item) (hne : st.1.get? i ≠ some item) :
    moveItemIfNeeded target st i =
      ((Move.move item (jsIndexOf st.1 item) i).make st.1,
        st.2 ++ [Move.move item (jsIndexOf st.1 item) i]) := by
  unfold moveItemIfNeeded
  rw [hti]
  dsimp only
  rw [if_pos hne]

/-- The forward scan on `[x,y,z] → [y,x,z]` relocates `y` (one move). -/
theorem calcIdx_fwd_xyz (x y z : K) (hxy : x ≠ y) :
    calculateIndexChanges [x, y, z] [y, x, z] false =
      ([Move.move y ((1 : Nat) : Int) 0], [y, x, z]) := by
  unfold calculateIndexChanges
  rw [if_neg (by simp)]
  have hrange : List.range ([y, x, z] : List K).length = [0, 1, 2] := rfl
  rw [hrange]
  dsimp only
  have hmake : (Move.move y ((1 : Nat) : Int) 0).make [x, y, z] = [y, x, z] := by
    simp only [Move.make]
    rw [jsSplice_nat_remove, jsSplice_nat_insert]
    rfl
  have s0 : moveItemIfNeeded ([y, x, z] : List K) ([x, y, z], []) 0 =
      ([y, x, z], [Move.move y ((1 : Nat) : Int) 0]) := by
    rw [moveItemIfNeeded_move ([y, x, z] : List K) ([x, y, z], []) 0 y rfl (by simp [hxy])]
    rw [jsIndexOf_xyz_y x y z hxy]
    rw [hmake]
    rfl
  have s1 : moveItemIfNeeded ([y, x, z] : List K)
      ([y, x, z], [Move.move y ((1 : Nat) : Int) 0]) 1 =
      ([y, x, z], [Move.move y ((1 : Nat) : Int) 0]) :=
    moveItemIfNeeded_skip _ _ _ rfl
  have s2 : moveItemIfNeeded ([y, x, z] : List K)
      ([y, x, z], [Move.move y ((1 : Nat) : Int) 0]) 2 =
      ([y, x, z], [Move.move y ((1 : Nat) : Int) 0]) :=
    moveItemIfNeeded_skip _ _ _ rfl
  rw [List.foldl_cons, s0, List.foldl_cons, s1, List.foldl_cons, s2, List.foldl_nil]

/-- The reverse scan on `[x,y,z] → [y,x,z]` relocates `x` (one move). -/
theorem calcIdx_rev_xyz (x y z : K) (hxy : x ≠ y) :
    calculateIndexChanges [x, y, z] [y, x, z] true =
      ([Move.move x ((0 : Nat) : Int) 1], [y, x, z]) := by
  unfold calculateIndexChanges
  rw [if_pos rfl]
  have hrange : (List.range ([y, x, z] : List K).length).reverse = [2, 1, 0] := rfl
  rw [hrange]
  dsimp only
  have hmake : (Move.move x ((0 : Nat) : Int) 1).make [x, y, z] = [y, x, z] := by
    simp only [Move.make]
    rw [jsSplice_nat_remove, jsSplice_nat_insert]
    rfl
  have s2 : moveItemIfNeeded ([y, x, z] : List K) ([x, y, z], []) 2 =
      ([x, y, z], []) :=
    moveItemIfNeeded_skip _ _ _ rfl
  have s1 : moveItemIfNeeded ([y, x, z] : List K) ([x, y, z], []) 1 =
      ([y, x, z], [Move.move x ((0 : Nat) : Int) 1]) := by
    rw [moveItemIfNeeded_move ([y, x, z] : List K) ([x, y, z], []) 1 x rfl (by simp [hxy.symm])]
    rw [jsIndexOf_xyz_x x y z]
    rw [hmake]
    rfl
  have s0 : moveItemIfNeeded ([y, x, z] : List K)
      ([y, x, z], [Move.move x ((0 : Nat) : Int) 1]) 0 =
      ([y, x, z], [Move.move x ((0 : Nat) : Int) 1]) :=
    moveItemIfNeeded_skip _ _ _ rfl
  rw [List.foldl_cons, s2, List.foldl_cons, s1, List.foldl_cons, s0, List.foldl_nil]

end ClaimsC2b
section ClaimsC2c
variable {K : Type _} [LinearOrder K]

/-- C2 amended: for source `[x,y,z]` with `x` the favored key and target
`[y,x,z]`, the reconciler emits exactly one move operation and it relocates
the favored key `x` (the tie-break prefers the reverse scan, which moves the
favored key, rather than leaving it stationary). -/
theorem calculateMoves_favored_moves_favored (x y z : K)
    (hxy : x ≠ y) (hyz : y ≠ z) (hxz : x ≠ z) :
    (calculateMoves [x, y, z] [y, x, z] (some x)).1 =
        [Move.move x ((0 : Nat) : Int) 1] ∧
      (calculateMoves [x, y, z] [y, x, z] (some x)).1.map Move.item = [x] := by
  have hp1 : phaseOneMoves [x, y, z] [y, x, z] = [] := phaseOne_xyz x y z hxy hyz hxz
  have hres : phaseOneResult [x, y, z] [y, x, z] = [x, y, z] := by
    unfold phaseOneResult
    rw [hp1]
    rfl
  have hmain : (calculateMoves [x, y, z] [y, x, z] (some x)) =
      ([Move.move x ((0 : Nat) : Int) 1], [y, x, z]) := by
    unfold calculateMoves
    rw [hres, hp1]
    dsimp only
    rw [if_neg (by simp [hxy]), calcIdx_fwd_xyz x y z hxy, calcIdx_rev_xyz x y z hxy]
    dsimp only
    rw [if_pos (by simp [Move.item, Ne.symm hxy]), if_pos (by simp)]
    rfl
  rw [hmain]
  exact ⟨rfl, rfl⟩

end ClaimsC2c

theorem calculateMoves_favored_moves_favored_witness :
    ((0 : Nat) ≠ 1 ∧ (1 : Nat) ≠ 2 ∧ (0 : Nat) ≠ 2) ∧
      ((calculateMoves ([0, 1, 2] : List Nat) [1, 0, 2] (some 0)).1 =
          [Move.move 0 ((0 : Nat) : Int) 1] ∧
        (calculateMoves ([0, 1, 2] : List Nat) [1, 0, 2] (some 0)).1.map Move.item = [0]) :=
  ⟨⟨by decide, by decide, by decide⟩,
    calculateMoves_favored_moves_favored 0 1 2 (by decide) (by decide) (by decide)⟩



/-! ## Component child-slot operations (C8, C9) -/

/-- The child/placeholder slot of a `Component` (and `Root`, which inherits
these methods): `this.child` and `this.comment`, with virtual nodes and
comments identified by numeric ids. -/
structure ComponentSlot where
  child : Option Nat
  comment : Option Nat
deriving DecidableEq, Repr

/-- `console.assert` (which `opr.Toolkit.assert` aliases in the `Toolkit`
constructor): appends the message to the console log when the condition is
false, and never throws. -/
def consoleAssert (cond : Bool) (msg : String) : List String :=
  if cond then [] else [msg]

/-- Outcome of a slot operation: the slot fields after the statements that
executed, the `console.assert` log, and whether a `TypeError` aborted the
method part-way (dereferencing `null`). -/
inductive OpResult where
  | ok (state : ComponentSlot) (assertLog : List String)
  | crashed (state : ComponentSlot) (assertLog : List String)
deriving DecidableEq, Repr

/-- `Component.appendChild(child)`: sets `this.child`, reparents it, clears
the comment's parent and drops the comment. Dereferencing `this.comment`
throws when it is `null`, leaving `this.child` already overwritten. -/
def ComponentSlot.appendChild (s : ComponentSlot) (child : Nat) : OpResult :=
  match s.comment with
  | none => OpResult.crashed ⟨some child, s.comment⟩ []
  | some _ => OpResult.ok ⟨some child, none⟩ []

/-- `Component.removeChild(child)`: `console.assert`s that the argument is
the current child, then clears the child slot and recreates the placeholder
comment (`freshComment`). Dereferencing `this.child` throws when it is
`null`; the assert has already logged by then. -/
def ComponentSlot.removeChild (s : ComponentSlot) (child : Nat)
    (freshComment : Nat) : OpResult :=
  let log := consoleAssert (decide (s.child = some child))
    "Specified node is not a child of this node"
  match s.child with
  | none => OpResult.crashed s log
  | some _ => OpResult.ok ⟨none, some freshComment⟩ log

/-- `Component.replaceChild(child, node)`: `console.assert`s that `child` is
the current child, then installs `node` as the child (the comment slot is
untouched). -/
def ComponentSlot.replaceChild (s : ComponentSlot) (child node : Nat) : OpResult :=
  let log := consoleAssert (decide (s.child = some child))
    "Specified node is not a child of this node"
  match s.child with
  | none => OpResult.crashed s log
  | some _ => OpResult.ok ⟨some node, s.comment⟩ log

/-- The `Component` constructor slot state: `this.comment = this.createComment()`
and `this.child = null`. -/
def ComponentSlot.initial (commentId : Nat) : ComponentSlot :=
  ⟨none, some commentId⟩

/-- Exactly one of {has child, has placeholder comment} holds. -/
def slotInvariant (s : ComponentSlot) : Prop :=
  (s.child.isSome = true ∧ s.comment = none) ∨
    (s.child = none ∧ s.comment.isSome = true)

instance (s : ComponentSlot) : Decidable (slotInvariant s) := by
  unfold slotInvariant
  infer_instance


/-- C8 counterexample: on a component whose current child is node `1`,
`removeChild(2)` with the stale node `2` logs the assertion message but the
operation is not aborted: the call returns normally (no throw) and the
mutation proceeds, clearing the actual child and recreating a placeholder. -/
theorem removeChild_stale_counterexample :
    ComponentSlot.removeChild ⟨some 1, none⟩ 2 3 =
        OpResult.ok ⟨none, some 3⟩ ["Specified node is not a child of this node"] ∧
      (⟨none, some 3⟩ : ComponentSlot) ≠ ⟨some 1, none⟩ := by
  decide

/-- C8 amended: passing a node that is not the current child to
`removeChild`/`replaceChild` produces a `console.assert` failure log entry
(`opr.Toolkit.assert` is `console.assert`, which reports but never throws),
and the mutation still proceeds against the actual current child: the
violation is reported but not fatal and not silently recovered. -/
theorem childSlot_assert_reports_but_mutates (s : ComponentSlot)
    (c n fresh node : Nat) (hc : s.child = some c) (hne : n ≠ c) :
    s.removeChild n fresh =
        OpResult.ok ⟨none, some fresh⟩ ["Specified node is not a child of this node"] ∧
      s.replaceChild n node =
        OpResult.ok ⟨some node, s.comment⟩ ["Specified node is not a child of this node"] := by
  have hlog : consoleAssert (decide (s.child = some n))
      "Specified node is not a child of this node" =
      ["Specified node is not a child of this node"] := by
    have : s.child ≠ some n := by
      rw [hc]
      intro h
      exact hne (Option.some_inj.mp h).symm
    simp [consoleAssert, this]
  constructor
  · unfold ComponentSlot.removeChild
    rw [hlog, hc]
  · unfold ComponentSlot.replaceChild
    rw [hlog, hc]

theorem childSlot_assert_reports_but_mutates_witness :
    ((⟨some 1, none⟩ : ComponentSlot).child = some 1 ∧ (2 : Nat) ≠ 1) ∧
      ((⟨some 1, none⟩ : ComponentSlot).removeChild 2 3 =
          OpResult.ok ⟨none, some 3⟩ ["Specified node is not a child of this node"] ∧
        (⟨some 1, none⟩ : ComponentSlot).replaceChild 2 4 =
          OpResult.ok ⟨some 4, none⟩ ["Specified node is not a child of this node"]) :=
  ⟨⟨by decide, by decide⟩,
    childSlot_assert_reports_but_mutates ⟨some 1, none⟩ 1 2 3 4 (by decide) (by decide)⟩

/-- C9: the component constructor establishes the exclusive-or invariant
(placeholder comment, no child), and every successfully completing child-slot
operation preserves it: `appendChild` installs the child and clears the
comment, `removeChild` clears the child and recreates the comment,
`replaceChild` keeps a child installed. -/
theorem childSlot_xor_invariant (s : ComponentSlot) (h : slotInvariant s) :
    (∀ c : Nat, slotInvariant (ComponentSlot.initial c)) ∧
      (∀ child s' log, s.appendChild child = OpResult.ok s' log →
        s' = ⟨some child, none⟩ ∧ slotInvariant s') ∧
      (∀ child fresh s' log, s.removeChild child fresh = OpResult.ok s' log →
        s' = ⟨none, some fresh⟩ ∧ slotInvariant s') ∧
      (∀ child node s' log, s.replaceChild child node = OpResult.ok s' log →
        s' = ⟨some node, none⟩ ∧ slotInvariant s') := by
  obtain ⟨sc, scm⟩ := s
  refine ⟨fun c => by simp [slotInvariant, ComponentSlot.initial], ?_, ?_, ?_⟩
  · intro child s' log hop
    unfold ComponentSlot.appendChild at hop
    rcases scm with _ | cm
    · simp at hop
    · simp only [OpResult.ok.injEq] at hop
      obtain ⟨h1, -⟩ := hop
      subst h1
      exact ⟨rfl, by simp [slotInvariant]⟩
  · intro child fresh s' log hop
    unfold ComponentSlot.removeChild at hop
    rcases sc with _ | c
    · simp at hop
    · simp only [OpResult.ok.injEq] at hop
      obtain ⟨h1, -⟩ := hop
      subst h1
      exact ⟨rfl, by simp [slotInvariant]⟩
  · intro child node s' log hop
    unfold ComponentSlot.replaceChild at hop
    rcases sc with _ | c
    · simp at hop
    · simp only [OpResult.ok.injEq] at hop
      obtain ⟨h1, -⟩ := hop
      subst h1
      have h2 : scm = none := by
        rcases h with ⟨-, h2⟩ | ⟨h2, -⟩
        · exact h2
        · simp at h2
      subst h2
      exact ⟨rfl, by simp [slotInvariant]⟩


theorem childSlot_xor_invariant_witness :
    slotInvariant (⟨some 1, none⟩ : ComponentSlot) ∧
      ((∀ c : Nat, slotInvariant (ComponentSlot.initial c)) ∧
        (∀ child s' log, (⟨some 1, none⟩ : ComponentSlot).appendChild child =
            OpResult.ok s' log → s' = ⟨some child, none⟩ ∧ slotInvariant s') ∧
        (∀ child fresh s' log, (⟨some 1, none⟩ : ComponentSlot).removeChild child fresh =
            OpResult.ok s' log → s' = ⟨none, some fresh⟩ ∧ slotInvariant s') ∧
        (∀ child node s' log, (⟨some 1, none⟩ : ComponentSlot).replaceChild child node =
            OpResult.ok s' log → s' = ⟨some node, none⟩ ∧ slotInvariant s')) :=
  ⟨by decide, childSlot_xor_invariant ⟨some 1, none⟩ (by decide)⟩


/-! ## Patch application and lifecycle hooks (C6) -/

/-- Observable events of one `Diff.apply` run over a patch batch `P`:
a lifecycle "before" hook invocation (`Lifecycle.beforePatchApplied`),
a patch mutation (`patch.apply()`), or a lifecycle "after" hook invocation
(`Lifecycle.afterPatchApplied`). -/
inductive LifecycleEvent (P : Type) where
  | beforeHook (p : P)
  | applied (p : P)
  | afterHook (p : P)
deriving DecidableEq, Repr

/-- `Lifecycle.beforeUpdate(patches)`: `beforePatchApplied` once per patch,
in batch order (`for (const patch of patches)`). -/
def beforeUpdate (patches : List P) : List (LifecycleEvent P) :=
  patches.foldl (fun tr p => tr ++ [LifecycleEvent.beforeHook p]) []

/-- `Lifecycle.afterUpdate(patches)`: the batch is copied and reversed
(`[...patches].reverse()`), then `afterPatchApplied` runs once per patch. -/
def afterUpdate (patches : List P) : List (LifecycleEvent P) :=
  patches.reverse.foldl (fun tr p => tr ++ [LifecycleEvent.afterHook p]) []

/-- `Diff.apply()`: when the batch is non-empty, the before hooks run, then
every patch applies in order, then the after hooks run. The value is the
event trace in execution order. -/
def diffApply (patches : List P) : List (LifecycleEvent P) :=
  if patches.length ≠ 0 then
    beforeUpdate patches ++
      patches.foldl (fun tr p => tr ++ [LifecycleEvent.applied p]) [] ++
      afterUpdate patches
  else
    []

theorem foldl_append_singleton (f : α → β) (l : List α) (acc : List β) :
    l.foldl (fun tr p => tr ++ [f p]) acc = acc ++ l.map f := by
  induction l generalizing acc with
  | nil => simp
  | cons x xs ih =>
    rw [List.foldl_cons, ih, List.map_cons]
    simp

/-- C6: for a non-empty batch, the trace of `Diff.apply` is exactly all
"before" hooks in forward batch order, then every patch application in batch
order, then all "after" hooks in reverse batch order; positionally, the i-th
event is the hook/application stated by the claim. -/
theorem diffApply_hook_order (patches : List P) (h : patches ≠ []) :
    diffApply patches =
        patches.map LifecycleEvent.beforeHook ++ patches.map LifecycleEvent.applied ++
          patches.reverse.map LifecycleEvent.afterHook ∧
      (∀ i, (hi : i < patches.length) →
        (diffApply patches).get? i = some (LifecycleEvent.beforeHook (patches.get ⟨i, hi⟩))) ∧
      (∀ i, (hi : i < patches.length) →
        (diffApply patches).get? (patches.length + i) =
          some (LifecycleEvent.applied (patches.get ⟨i, hi⟩))) ∧
      (∀ i, (hi : i < patches.length) →
        (diffApply patches).get? (2 * patches.length + i) =
          some (LifecycleEvent.afterHook (patches.reverse.get ⟨i, by simp [hi]⟩))) := by
  have hlen : patches.length ≠ 0 := by
    intro h0
    exact h (List.length_eq_zero.mp h0)
  have heq : diffApply patches =
      patches.map LifecycleEvent.beforeHook ++ patches.map LifecycleEvent.applied ++
        patches.reverse.map LifecycleEvent.afterHook := by
    unfold diffApply beforeUpdate afterUpdate
    rw [if_pos hlen, foldl_append_singleton, foldl_append_singleton,
      foldl_append_singleton]
    simp
  refine ⟨heq, ?_, ?_, ?_⟩
  · intro i hi
    rw [heq, List.get?_eq_getElem?,
      List.getElem?_append_left (by simp; omega),
      List.getElem?_append_left (by simp [hi]),
      List.getElem?_map, List.getElem?_eq_getElem hi]
    rfl
  · intro i hi
    rw [heq, List.get?_eq_getElem?,
      List.getElem?_append_left (by simp; omega),
      List.getElem?_append_right (by simp)]
    have e1 : patches.length + i - (patches.map LifecycleEvent.beforeHook).length = i := by
      simp
    rw [e1, List.getElem?_map, List.getElem?_eq_getElem hi]
    rfl
  · intro i hi
    rw [heq, List.get?_eq_getElem?,
      List.getElem?_append_right (by simp; omega)]
    have e1 : 2 * patches.length + i -
        (patches.map LifecycleEvent.beforeHook ++ patches.map LifecycleEvent.applied).length = i := by
      simp
      omega
    rw [e1, List.getElem?_map, List.getElem?_eq_getElem (by simp [hi])]
    rfl


theorem diffApply_hook_order_witness :
    ([10, 20] : List Nat) ≠ [] ∧
      (diffApply ([10, 20] : List Nat) =
          ([10, 20] : List Nat).map LifecycleEvent.beforeHook ++
            ([10, 20] : List Nat).map LifecycleEvent.applied ++
            ([10, 20] : List Nat).reverse.map LifecycleEvent.afterHook ∧
        (∀ i, (hi : i < ([10, 20] : List Nat).length) →
          (diffApply ([10, 20] : List Nat)).get? i =
            some (LifecycleEvent.beforeHook (([10, 20] : List Nat).get ⟨i, hi⟩))) ∧
        (∀ i, (hi : i < ([10, 20] : List Nat).length) →
          (diffApply ([10, 20] : List Nat)).get? (([10, 20] : List Nat).length + i) =
            some (LifecycleEvent.applied (([10, 20] : List Nat).get ⟨i, hi⟩))) ∧
        (∀ i, (hi : i < ([10, 20] : List Nat).length) →
          (diffApply ([10, 20] : List Nat)).get? (2 * ([10, 20] : List Nat).length + i) =
            some (LifecycleEvent.afterHook (([10, 20] : List Nat).reverse.get ⟨i, by simpa using hi⟩)))) :=
  ⟨by decide, diffApply_hook_order [10, 20] (by decide)⟩


/-! ## Listener diffing (C7) -/

/-- A listener entry of a description: a JS function object, identified by
`identity`, optionally carrying the `source` property that
`createBoundListener` sets to the original listener it wraps. -/
structure Listener where
  identity : Nat
  source : Option Nat
deriving DecidableEq, Repr

/-- `createBoundListener(listener, component, context)`: returns a fresh
wrapper function (`listener.bind(context)`, a new object identity) whose
`source` property is the original listener. -/
def createBoundListener (listener : Listener) (freshId : Nat) : Listener :=
  ⟨freshId, some listener.identity⟩

/-- The original identity a listener entry stands for: the wrapper's
`source` when present, otherwise the entry itself. -/
def Listener.originalIdentity (l : Listener) : Nat :=
  l.source.getD l.identity

/-- Listener patches emitted by `Diff.listenerPatches`. -/
inductive ListenerPatch where
  | addListener (event : String) (listener : Listener)
  | removeListener (event : String) (listener : Listener)
  | replaceListener (event : String) (removed added : Listener)
deriving DecidableEq, Repr

/-- The event name a listener patch addresses. -/
def ListenerPatch.event : ListenerPatch → String
  | .addListener e _ => e
  | .removeListener e _ => e
  | .replaceListener e _ _ => e

/-- A listener map of a description: a JS object, i.e. an ordered list of
key/value properties (`Object.keys` order). -/
abbrev ListenerMap : Type := List (String × Listener)

/-- JS property read `m[event]` (used only on present keys). -/
def objGet (m : ListenerMap) (event : String) : Listener :=
  (List.lookup event m).getD ⟨0, none⟩

/-- The `changed` predicate of `Diff.listenerPatches`:
`current[event] !== next[event] && (current[event].source === undefined &&
next[event].source === undefined || current[event].source !== next[event].source)`. -/
def listenerChanged (cur nxt : Listener) : Bool :=
  decide (cur ≠ nxt) &&
    (decide (cur.source = none) && decide (nxt.source = none) ||
      decide (cur.source ≠ nxt.source))

/-- `Diff.listenerPatches(current, next)`: added listeners, then removed
ones, then replacements for events whose listener changed. -/
def listenerPatches (current next : ListenerMap) : List ListenerPatch :=
  let listeners := current.map Prod.fst
  let nextListeners := next.map Prod.fst
  let added := nextListeners.filter fun e => decide (e ∉ listeners)
  let removed := listeners.filter fun e => decide (e ∉ nextListeners)
  let changed := listeners.filter fun e =>
    decide (e ∈ nextListeners) && listenerChanged (objGet current e) (objGet next e)
  (added.map fun e => ListenerPatch.addListener e (objGet next e)) ++
    (removed.map fun e => ListenerPatch.removeListener e (objGet current e)) ++
    (changed.map fun e => ListenerPatch.replaceListener e (objGet current e) (objGet next e))


theorem lookup_some_mem_keys {m : ListenerMap} {e : String} {v : Listener}
    (h : List.lookup e m = some v) : e ∈ m.map Prod.fst := by
  induction m with
  | nil => simp [List.lookup] at h
  | cons p rest ih =>
    rcases p with ⟨k, w⟩
    rw [List.lookup_cons] at h
    cases hbeq : (e == k) with
    | true =>
      simp only [List.map_cons, List.mem_cons]
      exact Or.inl (by simpa using hbeq)
    | false =>
      rw [hbeq] at h
      simp only [List.map_cons, List.mem_cons]
      exact Or.inr (ih h)

theorem objGet_eq {m : ListenerMap} {e : String} {v : Listener}
    (h : List.lookup e m = some v) : objGet m e = v := by
  unfold objGet
  rw [h]
  rfl

/-- C7 counterexample: a raw listener (identity 5) in the current description
and a dispatch wrapper of that same listener (identity 9, `source` 5) in the
next description share the same original identity and are not both unwrapped,
yet `listenerPatches` emits a replace-listener patch for the event. -/
theorem listenerPatches_mixed_counterexample :
    listenerPatches [("click", ⟨5, none⟩)] [("click", ⟨9, some 5⟩)] =
        [ListenerPatch.replaceListener "click" ⟨5, none⟩ ⟨9, some 5⟩] ∧
      Listener.originalIdentity ⟨5, none⟩ = Listener.originalIdentity ⟨9, some 5⟩ ∧
      ¬((⟨5, none⟩ : Listener).source = none ∧ (⟨9, some 5⟩ : Listener).source = none) := by
  decide


/-- C7 amended: listener diffing compares the `source` fields, not the
wrapper objects. For an event present in both descriptions: distinct wrapper
objects sharing the same original listener (`source`) produce no patch at
all for that event; and a replace-listener patch for the event is emitted
exactly when the two entries are distinct objects and either both lack a
`source` or their `source` fields differ (so an unwrapped listener against
a wrapper of that same listener does produce a patch). -/
theorem listenerPatches_source_comparison (current next : ListenerMap)
    (e : String) (cur nxt : Listener)
    (hc : List.lookup e current = some cur) (hn : List.lookup e next = some nxt) :
    ((∃ s, cur.source = some s ∧ nxt.source = some s) →
      (listenerPatches current next).filter (fun p => p.event == e) = []) ∧
    (ListenerPatch.replaceListener e cur nxt ∈ listenerPatches current next ↔
      cur ≠ nxt ∧ (cur.source = none ∧ nxt.source = none ∨ cur.source ≠ nxt.source)) := by
  have hkc : e ∈ current.map Prod.fst := lookup_some_mem_keys hc
  have hkn : e ∈ next.map Prod.fst := lookup_some_mem_keys hn
  have hgc : objGet current e = cur := objGet_eq hc
  have hgn : objGet next e = nxt := objGet_eq hn
  constructor
  · rintro ⟨s, hcs, hns⟩
    rw [List.filter_eq_nil_iff]
    intro p hp
    unfold listenerPatches at hp
    rcases List.mem_append.mp hp with hab | hcg
    · rcases List.mem_append.mp hab with ha | hb
      · obtain ⟨ev, hev, hpe⟩ := List.mem_map.mp ha
        obtain ⟨-, hcond⟩ := List.mem_filter.mp hev
        subst hpe
        simp only [ListenerPatch.event, beq_iff_eq]
        intro he
        rw [he] at hcond
        exact absurd hkc (by simpa using hcond)
      · obtain ⟨ev, hev, hpe⟩ := List.mem_map.mp hb
        obtain ⟨-, hcond⟩ := List.mem_filter.mp hev
        subst hpe
        simp only [ListenerPatch.event, beq_iff_eq]
        intro he
        rw [he] at hcond
        exact absurd hkn (by simpa using hcond)
    · obtain ⟨ev, hev, hpe⟩ := List.mem_map.mp hcg
      obtain ⟨-, hcond⟩ := List.mem_filter.mp hev
      subst hpe
      simp only [ListenerPatch.event, beq_iff_eq]
      intro he
      rw [he, hgc, hgn] at hcond
      unfold listenerChanged at hcond
      rw [hcs, hns] at hcond
      simp at hcond
  · constructor
    · intro hp
      unfold listenerPatches at hp
      rcases List.mem_append.mp hp with hab | hcg
      · rcases List.mem_append.mp hab with ha | hb
        · obtain ⟨ev, -, hpe⟩ := List.mem_map.mp ha
          exact absurd hpe (by simp)
        · obtain ⟨ev, -, hpe⟩ := List.mem_map.mp hb
          exact absurd hpe (by simp)
      · obtain ⟨ev, hev, hpe⟩ := List.mem_map.mp hcg
        obtain ⟨-, hcond⟩ := List.mem_filter.mp hev
        have hev_eq : ev = e := by
          have h0 := congrArg ListenerPatch.event hpe
          simpa [ListenerPatch.event] using h0
        rw [hev_eq, hgc, hgn] at hcond
        simp only [Bool.and_eq_true, decide_eq_true_eq] at hcond
        obtain ⟨-, hch⟩ := hcond
        unfold listenerChanged at hch
        simp only [Bool.and_eq_true, Bool.or_eq_true, decide_eq_true_eq] at hch
        obtain ⟨h1, h2⟩ := hch
        refine ⟨h1, ?_⟩
        rcases h2 with ⟨h3, h4⟩ | h3
        · exact Or.inl ⟨h3, h4⟩
        · exact Or.inr h3
    · intro hyp
      obtain ⟨hne, hsrc⟩ := hyp
      unfold listenerPatches
      refine List.mem_append.mpr (Or.inr ?_)
      refine List.mem_map.mpr ⟨e, ?_, by rw [hgc, hgn]⟩
      refine List.mem_filter.mpr ⟨hkc, ?_⟩
      rw [hgc, hgn]
      simp only [Bool.and_eq_true, decide_eq_true_eq]
      refine ⟨hkn, ?_⟩
      unfold listenerChanged
      simp only [Bool.and_eq_true, Bool.or_eq_true, decide_eq_true_eq]
      refine ⟨hne, ?_⟩
      rcases hsrc with ⟨h1, h2⟩ | h1
      · exact Or.inl ⟨h1, h2⟩
      · exact Or.inr h1


theorem listenerPatches_source_comparison_witness :
    (List.lookup "click" ([("click", ⟨7, some 3⟩)] : ListenerMap) = some ⟨7, some 3⟩ ∧
      List.lookup "click" ([("click", ⟨8, some 3⟩)] : ListenerMap) = some ⟨8, some 3⟩) ∧
      (((∃ s, (⟨7, some 3⟩ : Listener).source = some s ∧
            (⟨8, some 3⟩ : Listener).source = some s) →
          (listenerPatches [("click", ⟨7, some 3⟩)] [("click", ⟨8, some 3⟩)]).filter
            (fun p => p.event == "click") = []) ∧
        (ListenerPatch.replaceListener "click" ⟨7, some 3⟩ ⟨8, some 3⟩ ∈
            listenerPatches [("click", ⟨7, some 3⟩)] [("click", ⟨8, some 3⟩)] ↔
          (⟨7, some 3⟩ : Listener) ≠ ⟨8, some 3⟩ ∧
            ((⟨7, some 3⟩ : Listener).source = none ∧
                (⟨8, some 3⟩ : Listener).source = none ∨
              (⟨7, some 3⟩ : Listener).source ≠ (⟨8, some 3⟩ : Listener).source))) :=
  ⟨⟨by decide, by decide⟩,
    listenerPatches_source_comparison [("click", ⟨7, some 3⟩)] [("click", ⟨8, some 3⟩)]
      "click" ⟨7, some 3⟩ ⟨8, some 3⟩ (by decide) (by decide)⟩



/-! JS values as inspected by `Diff.deepEqual` / `Diff.getType`. -/
mutual
/-- JS values: `null`, booleans, numbers (integers; `NaN`/`-0` excluded),
strings, functions (compared by object identity, represented by a `Listener`
record), arrays, and plain objects (ordered key/value properties with unique
keys). Mutual with its own element/field list types so that every function
over values is a plain structural or fuel recursion. -/
inductive Value where
  | vNull
  | vBool (b : Bool)
  | vNum (n : Int)
  | vStr (s : String)
  | vFun (f : Listener)
  | vArr (elems : ValueElems)
  | vObj (fields : ValueFields)
deriving DecidableEq, Repr
inductive ValueElems where
  | nil
  | cons (v : Value) (tl : ValueElems)
deriving DecidableEq, Repr
inductive ValueFields where
  | nil
  | cons (key : String) (v : Value) (tl : ValueFields)
deriving DecidableEq, Repr
end

/-- Array elements as an ordinary list. -/
def ValueElems.toList : ValueElems → List Value
  | .nil => []
  | .cons v tl => v :: tl.toList

/-- Object fields as an ordinary association list. -/
def ValueFields.toList : ValueFields → List (String × Value)
  | .nil => []
  | .cons k v tl => (k, v) :: tl.toList

mutual
/-- Structural size of a value (an executable `sizeOf`). -/
def Value.size : Value → Nat
  | .vNull => 1
  | .vBool _ => 1
  | .vNum _ => 1
  | .vStr _ => 1
  | .vFun _ => 1
  | .vArr es => es.size + 1
  | .vObj fs => fs.size + 1
def ValueElems.size : ValueElems → Nat
  | .nil => 1
  | .cons v tl => v.size + tl.size + 1
def ValueFields.size : ValueFields → Nat
  | .nil => 1
  | .cons _ v tl => v.size + tl.size + 1
end

/-- JS truthiness (the `!currentState` test of `rootPatches`). -/
def jsFalsy : Value → Bool
  | .vNull => true
  | .vBool b => !b
  | .vNum n => n == 0
  | .vStr s => s == ""
  | .vFun _ => false
  | .vArr _ => false
  | .vObj _ => false

/-- JS property read `obj[key]` (used only on present keys). -/
def objValue (fields : List (String × Value)) (key : String) : Value :=
  (List.lookup key fields).getD Value.vNull

/-- Code-unit comparison of character lists, the order behind the default JS
`Array.prototype.sort()` on string arrays. -/
def charsLe : List Char → List Char → Bool
  | [], _ => true
  | _ :: _, [] => false
  | c :: cs, d :: ds =>
    if c.toNat < d.toNat then true
    else if d.toNat < c.toNat then false
    else charsLe cs ds

/-- String order for the default JS `Array.prototype.sort()` on key arrays. -/
def strLe (a b : String) : Bool := charsLe a.data b.data

/-- `Diff.deepEqual`, fuelled so that it evaluates; each recursive call
descends at least one constructor level, so the fuel
`Value.size a + Value.size b` supplied by the wrapper is always enough and
fuel `0` is never reached. Branches mirror the source: `Object.is` equality
on primitives and functions, `getType` mismatch gives `false`, arrays
compare length then elementwise in order, objects compare key count, the
sorted key sequences, and the value at each key (insertion order
irrelevant). -/
def deepEqualAux : Nat → Value → Value → Bool
  | 0, _, _ => false
  | _ + 1, .vNull, .vNull => true
  | _ + 1, .vBool a, .vBool b => a == b
  | _ + 1, .vNum a, .vNum b => a == b
  | _ + 1, .vStr a, .vStr b => a == b
  | _ + 1, .vFun f, .vFun g => f == g
  | fuel + 1, .vArr xs, .vArr ys =>
    let xl := xs.toList
    let yl := ys.toList
    xl.length == yl.length &&
      (List.zip xl yl).all fun p => deepEqualAux fuel p.1 p.2
  | fuel + 1, .vObj fs, .vObj gs =>
    let fl := fs.toList
    let gl := gs.toList
    let keys := sortBy strLe (fl.map Prod.fst)
    let nextKeys := sortBy strLe (gl.map Prod.fst)
    fl.length == gl.length &&
      (List.zip keys nextKeys).all fun p =>
        p.1 == p.2 && deepEqualAux fuel (objValue fl p.1) (objValue gl p.2)
  | _ + 1, _, _ => false

/-- `Diff.deepEqual(current, next)`. -/
def deepEqual (a b : Value) : Bool :=
  deepEqualAux (a.size + b.size) a b


/-- Patch tags recorded by `Diff.addPatch` at the root level.
`initRootComponent` is `Patch.initRootComponent(this.root)`; `updateNode` is
the `Patch.updateNode(component, description)` closing `componentPatches`. -/
inductive RootPatch where
  | initRootComponent
  | updateNode
deriving DecidableEq, Repr

/-- `Diff.rootPatches(currentState, nextState)`. The instance starts with
`this.patches = []`; `!currentState` (JS truthiness) appends the
`initRootComponent` patch; a deep-equal state pair returns `[]` right away,
leaving `this.patches` as they are; otherwise `componentPatches` runs, adding
its patches (`rest` stands for whatever it appends; the claim under proof
never reaches that branch, so the theorems below hold for every `rest`) and
the full `this.patches` is returned. The first component is `this.patches`
after the call (what `Diff.apply` will apply), the second the returned list. -/
def rootPatches (currentState nextState : Value) (rest : List RootPatch) :
    List RootPatch × List RootPatch :=
  let patches := if jsFalsy currentState then [RootPatch.initRootComponent] else []
  if deepEqual currentState nextState then (patches, [])
  else (patches ++ rest, patches ++ rest)

/-- The skip decision of `Diff.componentPatches(component, description)`:
`if (Diff.deepEqual(component.description, description)) { if
(component.isRoot()) { if (component.state !== null) return; } else return; }`.
When the method does not return early it renders the child, diffs it
(`inner` stands for the patches that adds) and appends
`Patch.updateNode(component, description)`. -/
def componentPatches (isRoot : Bool) (state : Option Value)
    (curDesc nextDesc : Value) (inner : List RootPatch) : List RootPatch :=
  if deepEqual curDesc nextDesc && (!isRoot || state.isSome) then []
  else inner ++ [RootPatch.updateNode]

/-- **C1**: for a root holding a current state deep-value-equal (recursive,
order-sensitive for arrays, key-order-insensitive for objects) to the next
state, `Diff.rootPatches` leaves the patch list empty — except a root forced
to (re-)initialize (falsy current state, i.e. no prior state), for which the
patch list holds exactly the Init-Root patch — and returns the empty list; and
`Diff.componentPatches` on a component whose description is deep-equal to the
incoming description adds no patch at all, unless the component is a root with
`state === null`. -/
theorem diff_deepEqual_short_circuit (current next curDesc nextDesc : Value)
    (rest inner : List RootPatch) (isRoot : Bool) (state : Option Value)
    (hstate : deepEqual current next = true)
    (hdesc : deepEqual curDesc nextDesc = true)
    (hroot : isRoot = false ∨ state.isSome = true) :
    (rootPatches current next rest).1 =
        (if jsFalsy current then [RootPatch.initRootComponent] else []) ∧
    (rootPatches current next rest).2 = [] ∧
    componentPatches isRoot state curDesc nextDesc inner = [] := by
  refine ⟨?_, ?_, ?_⟩ <;>
    simp [rootPatches, componentPatches, hstate, hdesc, hroot]

/-- Closed instance of `diff_deepEqual_short_circuit`: a falsy current state
(`null`, forced re-initialization) deep-equal to the next state yields exactly
the Init-Root patch and an empty return; an object state pair equal up to
property order yields no patch; a non-root component with a deep-equal
description contributes nothing even with pending inner patches. -/
theorem diff_deepEqual_short_circuit_witness :
    deepEqual Value.vNull Value.vNull = true ∧
    (rootPatches Value.vNull Value.vNull [RootPatch.updateNode]).1 =
      [RootPatch.initRootComponent] ∧
    (rootPatches Value.vNull Value.vNull [RootPatch.updateNode]).2 = [] ∧
    componentPatches false (some Value.vNull)
      (Value.vObj (.cons "a" (.vNum 1) (.cons "b" .vNull .nil)))
      (Value.vObj (.cons "b" .vNull (.cons "a" (.vNum 1) .nil)))
      [RootPatch.updateNode] = [] := by
  have h := diff_deepEqual_short_circuit Value.vNull Value.vNull
    (Value.vObj (.cons "a" (.vNum 1) (.cons "b" .vNull .nil)))
    (Value.vObj (.cons "b" .vNull (.cons "a" (.vNum 1) .nil)))
    [RootPatch.updateNode] [RootPatch.updateNode] false (some Value.vNull)
    (by decide) (by decide) (Or.inl rfl)
  exact ⟨by decide, by simpa using h.1, h.2.1, h.2.2⟩

section ValueLemmas

/-- Every value has positive structural size. -/
theorem Value.vsize_pos (a : Value) : 1 ≤ a.size := by
  cases a <;> simp [Value.size]

/-- An array member is structurally smaller than the element list. -/
theorem ValueElems.vsize_lt_of_mem :
    ∀ {es : ValueElems} {v : Value}, v ∈ es.toList → v.size < es.size
  | .nil, v, h => by simp [ValueElems.toList] at h
  | .cons w tl, v, h => by
    simp only [ValueElems.toList, List.mem_cons] at h
    rcases h with h | h
    · subst h; simp [ValueElems.size]; omega
    · have := ValueElems.vsize_lt_of_mem h
      simp [ValueElems.size]; omega

/-- A field value is structurally smaller than the field list. -/
theorem ValueFields.fsize_lt_of_mem :
    ∀ {fs : ValueFields} {k : String} {v : Value}, (k, v) ∈ fs.toList → v.size < fs.size
  | .nil, _, v, h => by simp [ValueFields.toList] at h
  | .cons k' w tl, k, v, h => by
    simp only [ValueFields.toList, List.mem_cons, Prod.mk.injEq] at h
    rcases h with ⟨_, h⟩ | h
    · subst h; simp [ValueFields.size]; omega
    · have := ValueFields.fsize_lt_of_mem h
      simp [ValueFields.size]; omega

/-- A key present in an association list has a `lookup` hit. -/
theorem lookup_isSome_of_mem_keys {V : Type _} {m : List (String × V)} {k : String}
    (h : k ∈ m.map Prod.fst) : ∃ v, List.lookup k m = some v := by
  induction m with
  | nil => simp at h
  | cons p rest ih =>
    rcases p with ⟨k', w⟩
    rw [List.lookup_cons]
    by_cases hk : k = k'
    · exact ⟨w, by simp [hk]⟩
    · have hbeq : (k == k') = false := by simpa using hk
      rw [hbeq]
      simp only [List.map_cons, List.mem_cons] at h
      exact ih (h.resolve_left hk)

/-- A `lookup` hit comes from a member pair. -/
theorem mem_of_lookup_eq_some {V : Type _} {m : List (String × V)} {k : String} {v : V}
    (h : List.lookup k m = some v) : (k, v) ∈ m := by
  induction m with
  | nil => simp [List.lookup] at h
  | cons p rest ih =>
    rcases p with ⟨k', w⟩
    rw [List.lookup_cons] at h
    by_cases hk : k = k'
    · subst hk
      simp only [beq_self_eq_true] at h
      cases h
      exact List.mem_cons_self _ _
    · have hbeq : (k == k') = false := by simpa using hk
      rw [hbeq] at h
      exact List.mem_cons_of_mem _ (ih h)

/-- Members of a `zip` of a list with itself are reflexive pairs. -/
theorem mem_zip_self {α : Type _} {l : List α} {p : α × α}
    (h : p ∈ List.zip l l) : p.1 = p.2 ∧ p.1 ∈ l := by
  induction l with
  | nil => simp at h
  | cons x xs ih =>
    simp only [List.zip_cons_cons, List.mem_cons] at h
    rcases h with h | h
    · subst h; exact ⟨rfl, List.mem_cons_self _ _⟩
    · have := ih h
      exact ⟨this.1, List.mem_cons_of_mem _ this.2⟩

/-- `deepEqualAux` is reflexive given enough fuel. -/
theorem deepEqualAux_refl :
    ∀ (fuel : Nat) (a : Value), a.size ≤ fuel → deepEqualAux fuel a a = true := by
  intro fuel
  induction fuel with
  | zero =>
    intro a ha
    have := Value.vsize_pos a
    omega
  | succ n ih =>
    intro a ha
    cases a with
    | vNull => rfl
    | vBool b => simp [deepEqualAux]
    | vNum i => simp [deepEqualAux]
    | vStr s => simp [deepEqualAux]
    | vFun f => simp [deepEqualAux]
    | vArr es =>
      simp only [deepEqualAux, beq_self_eq_true, Bool.true_and]
      rw [List.all_eq_true]
      intro p hp
      obtain ⟨hpe, hpm⟩ := mem_zip_self hp
      have hsz : p.1.size < es.size := ValueElems.vsize_lt_of_mem hpm
      have hes : es.size ≤ n := by simp [Value.size] at ha; omega
      rw [← hpe]
      exact ih p.1 (by omega)
    | vObj fs =>
      simp only [deepEqualAux, beq_self_eq_true, Bool.true_and]
      rw [List.all_eq_true]
      intro p hp
      obtain ⟨hpe, hpm⟩ := mem_zip_self hp
      have hkm : p.1 ∈ fs.toList.map Prod.fst :=
        (sortBy_perm (fs.toList.map Prod.fst)).mem_iff.mp hpm
      obtain ⟨v, hv⟩ := lookup_isSome_of_mem_keys hkm
      have hsz : v.size < fs.size := ValueFields.fsize_lt_of_mem (mem_of_lookup_eq_some hv)
      have hfs : fs.size ≤ n := by simp [Value.size] at ha; omega
      rw [← hpe]
      simp only [beq_self_eq_true, Bool.true_and, objValue, hv, Option.getD_some]
      exact ih v (by omega)

/-- `==` is symmetric for any lawful `BEq`. -/
theorem beqComm {α : Type _} [BEq α] [LawfulBEq α] (a b : α) : (a == b) = (b == a) := by
  by_cases h : a = b
  · subst h; rfl
  · have h1 : (a == b) = false := by simpa using h
    have h2 : (b == a) = false := by simpa using fun e => h e.symm
    rw [h1, h2]

/-- `deepEqualAux` is symmetric in its two value arguments. -/
theorem deepEqualAux_symm :
    ∀ (fuel : Nat) (a b : Value), deepEqualAux fuel a b = deepEqualAux fuel b a := by
  intro fuel
  induction fuel with
  | zero => intro a b; rfl
  | succ n ih =>
    intro a b
    cases a <;> cases b <;> try rfl
    case vBool.vBool x y => simp only [deepEqualAux]; exact beqComm x y
    case vNum.vNum x y => simp only [deepEqualAux]; exact beqComm x y
    case vStr.vStr x y => simp only [deepEqualAux]; exact beqComm x y
    case vFun.vFun x y => simp only [deepEqualAux]; exact beqComm x y
    case vArr.vArr xs ys =>
      simp only [deepEqualAux]
      by_cases hl : xs.toList.length = ys.toList.length
      · have h1 : (xs.toList.length == ys.toList.length) = true := by simpa using hl
        have h2 : (ys.toList.length == xs.toList.length) = true := by simpa using hl.symm
        rw [h1, h2, Bool.true_and, Bool.true_and]
        rw [← List.zip_swap, List.all_map]
        rw [Bool.eq_iff_iff, List.all_eq_true, List.all_eq_true]
        constructor
        · intro h p hp
          simpa [Function.comp, ih] using h p hp
        · intro h p hp
          simpa [Function.comp, ih] using h p hp
      · have h1 : (xs.toList.length == ys.toList.length) = false := by simpa using hl
        have h2 : (ys.toList.length == xs.toList.length) = false := by
          simpa using fun e => hl e.symm
        rw [h1, h2, Bool.false_and, Bool.false_and]
    case vObj.vObj fs gs =>
      simp only [deepEqualAux]
      by_cases hl : fs.toList.length = gs.toList.length
      · have h1 : (fs.toList.length == gs.toList.length) = true := by simpa using hl
        have h2 : (gs.toList.length == fs.toList.length) = true := by simpa using hl.symm
        rw [h1, h2, Bool.true_and, Bool.true_and]
        rw [← List.zip_swap, List.all_map]
        rw [Bool.eq_iff_iff, List.all_eq_true, List.all_eq_true]
        constructor
        · intro h p hp
          have := h p hp
          simpa [Function.comp, beqComm, ih] using this
        · intro h p hp
          have := h p hp
          simpa [Function.comp, beqComm, ih] using this
      · have h1 : (fs.toList.length == gs.toList.length) = false := by simpa using hl
        have h2 : (gs.toList.length == fs.toList.length) = false := by
          simpa using fun e => hl e.symm
        rw [h1, h2, Bool.false_and, Bool.false_and]

/-- `Diff.deepEqual` is reflexive. -/
theorem deepEqual_refl (a : Value) : deepEqual a a = true :=
  deepEqualAux_refl _ a (Nat.le_add_right _ _)

/-- `Diff.deepEqual` is symmetric. -/
theorem deepEqual_symm (a b : Value) : deepEqual a b = deepEqual b a := by
  unfold deepEqual
  rw [Nat.add_comm]
  exact deepEqualAux_symm _ a b

end ValueLemmas

theorem char_toNat_inj {c d : Char} (h : c.toNat = d.toNat) : c = d := by
  apply Char.ext
  apply UInt32.ext
  exact h

theorem str_data_inj {a b : String} (h : a.data = b.data) : a = b := by
  cases a; cases b
  exact congrArg String.mk h

/-- A child key as computed by `elementChildrenPatches`:
`description.key || index` is the explicit key when it is a truthy (non-empty)
string, and the child position otherwise. -/
inductive NodeKey where
  | str (s : String)
  | idx (i : Nat)
deriving DecidableEq, Repr

/-- `description.key || index`. -/
def jsKeyOr (key : Option String) (index : Nat) : NodeKey :=
  match key with
  | some s => if s = "" then .idx index else .str s
  | none => .idx index

/-- `description.key || null`, the `key` property a `VirtualNode` constructor
stores (`super(description.key || null, parentNode)`). -/
def jsKeyOrNull (key : Option String) : Option NodeKey :=
  match key with
  | some s => if s = "" then none else some (.str s)
  | none => none

theorem charsLe_refl : ∀ l : List Char, charsLe l l = true
  | [] => rfl
  | c :: cs => by
    simp only [charsLe, lt_irrefl, if_false]
    exact charsLe_refl cs

theorem charsLe_total : ∀ l m : List Char, charsLe l m = true ∨ charsLe m l = true
  | [], _ => Or.inl rfl
  | _ :: _, [] => Or.inr rfl
  | c :: cs, d :: ds => by
    simp only [charsLe]
    rcases Nat.lt_trichotomy c.toNat d.toNat with h | h | h
    · left; simp [h]
    · have h1 : ¬c.toNat < d.toNat := by omega
      have h2 : ¬d.toNat < c.toNat := by omega
      simp only [h1, h2, if_false]
      exact charsLe_total cs ds
    · right; simp [h]

theorem charsLe_trans :
    ∀ {l m n : List Char}, charsLe l m = true → charsLe m n = true → charsLe l n = true
  | [], _, _, _, _ => rfl
  | c :: cs, [], _, h, _ => by simp [charsLe] at h
  | _ :: _, _ :: _, [], _, h => by simp [charsLe] at h
  | c :: cs, d :: ds, e :: es, h1, h2 => by
    simp only [charsLe] at h1 h2 ⊢
    by_cases hdc : d.toNat < c.toNat
    · exfalso
      simp only [if_neg (by omega : ¬c.toNat < d.toNat), if_pos hdc] at h1
      exact Bool.false_ne_true h1
    by_cases hed : e.toNat < d.toNat
    · exfalso
      simp only [if_neg (by omega : ¬d.toNat < e.toNat), if_pos hed] at h2
      exact Bool.false_ne_true h2
    by_cases hce : c.toNat < e.toNat
    · simp [hce]
    have hcd : ¬c.toNat < d.toNat := by omega
    have hde : ¬d.toNat < e.toNat := by omega
    simp only [if_neg hcd, if_neg hdc, if_false] at h1
    simp only [if_neg hde, if_neg hed, if_false] at h2
    simp only [if_neg hce, if_neg (by omega : ¬e.toNat < c.toNat), if_false]
    exact charsLe_trans h1 h2

theorem charsLe_antisymm :
    ∀ {l m : List Char}, charsLe l m = true → charsLe m l = true → l = m
  | [], [], _, _ => rfl
  | [], _ :: _, _, h2 => by simp [charsLe] at h2
  | _ :: _, [], h1, _ => by simp [charsLe] at h1
  | c :: cs, d :: ds, h1, h2 => by
    simp only [charsLe] at h1 h2
    by_cases hcd : c.toNat < d.toNat
    · exfalso
      simp only [if_neg (by omega : ¬d.toNat < c.toNat), if_pos hcd] at h2
      exact Bool.false_ne_true h2
    by_cases hdc : d.toNat < c.toNat
    · exfalso
      simp only [if_neg hcd, if_pos hdc] at h1
      exact Bool.false_ne_true h1
    have h : c.toNat = d.toNat := by omega
    simp only [if_neg hcd, if_neg hdc, if_false] at h1 h2
    have := charsLe_antisymm h1 h2
    rw [char_toNat_inj h, this]

/-- The boolean key order behind `Reconciler.comparator`’s `a.key > b.key`
branch, at the `NodeKey` type: string keys compare lexicographically by code
unit (the JS `>` on strings), positional keys numerically (the JS `>` on
numbers). The JS comparison of a string against a number is not a consistent
order; `elementChildrenPatches` only reaches it for sibling lists mixing keyed
and unkeyed children, which wellformedness excludes, so the embedding fixes an
arbitrary order across the two constructors. -/
def nodeKeyLe : NodeKey → NodeKey → Bool
  | .str a, .str b => charsLe a.data b.data
  | .str _, .idx _ => true
  | .idx _, .str _ => false
  | .idx a, .idx b => decide (a ≤ b)

instance : LinearOrder NodeKey where
  le a b := nodeKeyLe a b = true
  le_refl a := by cases a with
    | str s => exact charsLe_refl s.data
    | idx i => simp [nodeKeyLe]
  le_trans a b c hab hbc := by
    cases a <;> cases b <;> cases c <;>
      simp only [nodeKeyLe] at hab hbc ⊢ <;>
      first
        | rfl
        | exact charsLe_trans hab hbc
        | exact (Bool.false_ne_true hab).elim
        | exact (Bool.false_ne_true hbc).elim
        | (simp only [decide_eq_true_eq] at hab hbc ⊢; omega)
  le_antisymm a b hab hba := by
    cases a <;> cases b <;> simp only [nodeKeyLe] at hab hba <;>
      first
        | exact congrArg NodeKey.str (str_data_inj (charsLe_antisymm hab hba))
        | exact (Bool.false_ne_true hba).elim
        | exact (Bool.false_ne_true hab).elim
        | (simp only [decide_eq_true_eq] at hab hba
           exact congrArg NodeKey.idx (by omega))
  le_total a b := by
    cases a <;> cases b <;> simp only [nodeKeyLe] <;>
      first
        | exact charsLe_total _ _
        | exact Or.inl trivial
        | exact Or.inr trivial
        | (simp only [decide_eq_true_eq]; omega)
  decidableLE a b := inferInstanceAs (Decidable (nodeKeyLe a b = true))
  decidableEq a b := inferInstanceAs (Decidable (a = b))


/-- The `custom` block of a normalized `ElementDescription` (custom-element
attributes and listeners). The normalizer only assigns non-empty objects
(`getCustomAttributes` / `getCustomListeners` return `null` otherwise), so the
empty list models an absent sub-object. -/
structure CustomBlock where
  attrs : List (String × String)
  listeners : List (String × Listener)
deriving DecidableEq, Repr

/-! ### Element descriptions -/
mutual
/-- A normalized `ElementDescription` as produced by `Template.describe` /
`assignPropsToElement`: `key`, `name`, `class`, `style`, `attrs`, `dataset`,
`properties` (arbitrary values, compared with `Diff.deepEqual`), `listeners`
(function values, compared by object identity), the `custom` block, `text`
and `children`. The normalizer assigns `class`, `style`, `attrs`, `dataset`,
`properties`, `listeners`, `text` and `children` only when non-empty, so the
empty list / `none` models an absent property (which is exactly what
`Object.keys`-based deep equality observes). `type` is the constant
`'element'` and is omitted. Mutual with its own children-array types so that
every function over descriptions is a plain structural recursion. -/
inductive Desc where
  | mk (key : Option String) (name : String) (className : Option String)
       (style : List (String × String)) (attrs : List (String × String))
       (dataset : List (String × String)) (properties : List (String × Value))
       (listeners : List (String × Listener)) (custom : Option CustomBlock)
       (text : Option String) (children : DescChildren)
deriving DecidableEq, Repr
inductive DescChildren where
  | noChildren
  | withChildren (l : DescList)
deriving DecidableEq, Repr
inductive DescList where
  | nil
  | cons (d : Desc) (tl : DescList)
deriving DecidableEq, Repr
end

def Desc.key : Desc → Option String
  | .mk k _ _ _ _ _ _ _ _ _ _ => k

def Desc.name : Desc → String
  | .mk _ n _ _ _ _ _ _ _ _ _ => n

def Desc.className : Desc → Option String
  | .mk _ _ c _ _ _ _ _ _ _ _ => c

def Desc.style : Desc → List (String × String)
  | .mk _ _ _ s _ _ _ _ _ _ _ => s

def Desc.attrs : Desc → List (String × String)
  | .mk _ _ _ _ a _ _ _ _ _ _ => a

def Desc.dataset : Desc → List (String × String)
  | .mk _ _ _ _ _ d _ _ _ _ _ => d

def Desc.properties : Desc → List (String × Value)
  | .mk _ _ _ _ _ _ p _ _ _ _ => p

def Desc.listeners : Desc → List (String × Listener)
  | .mk _ _ _ _ _ _ _ l _ _ _ => l

def Desc.custom : Desc → Option CustomBlock
  | .mk _ _ _ _ _ _ _ _ c _ _ => c

def Desc.text : Desc → Option String
  | .mk _ _ _ _ _ _ _ _ _ t _ => t

def Desc.children : Desc → DescChildren
  | .mk _ _ _ _ _ _ _ _ _ _ ch => ch

def DescList.toList : DescList → List Desc
  | .nil => []
  | .cons d tl => d :: tl.toList

/-- Child descriptions as an ordinary list ( `description.children`, with
`undefined` and `[]` both giving the empty list — `elementChildrenPatches`
defaults a missing array to `[]`). -/
def DescChildren.toList : DescChildren → List Desc
  | .noChildren => []
  | .withChildren l => l.toList

mutual
/-- Structural size of a description, the fuel measure for the diff. -/
def Desc.size : Desc → Nat
  | .mk _ _ _ _ _ _ _ _ _ _ ch => ch.size + 1
def DescChildren.size : DescChildren → Nat
  | .noChildren => 1
  | .withChildren l => l.size + 1
def DescList.size : DescList → Nat
  | .nil => 1
  | .cons d tl => d.size + tl.size + 1
end

/-- The DOM state of a `VirtualElement`'s `ref` node, as far as the patch
functions touch it: `className`, the style map, the attribute map (holding
both standard attributes — the fixed `getAttributeName` renaming is modelled
as the identity — and custom attributes, which share `element.setAttribute`),
the `dataset` map, direct DOM properties, the `addEventListener` registry
(standard — `getEventName` likewise modelled as the identity — and custom
events share it), and `textContent`. -/
structure Backing where
  className : String
  style : List (String × String)
  attrs : List (String × String)
  dataset : List (String × String)
  properties : List (String × Value)
  listeners : List (String × Listener)
  text : String
deriving DecidableEq, Repr

/-! ### Virtual element nodes -/
mutual
/-- A `VirtualElement`: its current description, the state of its DOM `ref`,
and its children (`undefined` until `insertChild` materializes the array).
The `parentNode` back-pointer and the `ref` child-node list (which mirrors
`children` through `insertBefore`/`removeChild`/`replaceWith`) are derivable
and not tracked. -/
inductive Elem where
  | mk (description : Desc) (backing : Backing) (children : ElemChildren)
deriving DecidableEq, Repr
inductive ElemChildren where
  | noChildren
  | withChildren (l : ElemList)
deriving DecidableEq, Repr
inductive ElemList where
  | nil
  | cons (e : Elem) (tl : ElemList)
deriving DecidableEq, Repr
end

def Elem.description : Elem → Desc
  | .mk d _ _ => d

def Elem.backing : Elem → Backing
  | .mk _ b _ => b

def Elem.children : Elem → ElemChildren
  | .mk _ _ c => c

def ElemList.toList : ElemList → List Elem
  | .nil => []
  | .cons e tl => e :: tl.toList

def ElemList.ofList : List Elem → ElemList
  | [] => .nil
  | e :: tl => .cons e (ElemList.ofList tl)

/-- `this.children` of a `VirtualElement` as an option: `none` when the
constructor saw no `description.children` and no `insertChild` ran yet. -/
def ElemChildren.toOption : ElemChildren → Option (List Elem)
  | .noChildren => none
  | .withChildren l => some l.toList

/-- `addEventListener(event, listener)`: registering an already-registered
pair is a no-op, otherwise the pair is appended. -/
def addEventListener (m : List (String × Listener)) (e : String) (l : Listener) :
    List (String × Listener) :=
  if m.contains (e, l) then m else m ++ [(e, l)]

/-- `removeEventListener(event, listener)`: removes the first matching
registration, no-op when the pair is not registered. -/
def removeEventListener (m : List (String × Listener)) (e : String) (l : Listener) :
    List (String × Listener) :=
  m.erase (e, l)

/-- JS property write `obj[key] = value` on a map object: update in place or
append a new property. -/
def objSet {V : Type _} (m : List (String × V)) (k : String) (v : V) :
    List (String × V) :=
  if (m.map Prod.fst).contains k then
    m.map fun p => if p.1 = k then (k, v) else p
  else m ++ [(k, v)]

/-- JS property delete `delete obj[key]` (also `style[prop] = null`, which
clears the style property). -/
def objDelete {V : Type _} (m : List (String × V)) (k : String) :
    List (String × V) :=
  m.filter fun p => p.1 ≠ k

/-- JS property read `obj[key]` with the type's blank default (the callers
below only read present keys). -/
def objGetD {V : Type _} (m : List (String × V)) (k : String) (default : V) : V :=
  (List.lookup k m).getD default

/-- `Renderer.createElement(description)`: a fresh DOM node with `textContent`
(skipped for a falsy text, leaving `''`), `className` (likewise), and the
style, listener, attribute, dataset, property and custom entries applied in
description order onto blank maps. -/
def createBacking (d : Desc) : Backing :=
  { className := d.className.getD ""
    style := d.style.foldl (fun m p => objSet m p.1 p.2) []
    attrs :=
      ((d.custom.map CustomBlock.attrs).getD []).foldl
        (fun m p => objSet m p.1 p.2)
        (d.attrs.foldl (fun m p => objSet m p.1 p.2) [])
    dataset := d.dataset.foldl (fun m p => objSet m p.1 p.2) []
    properties := d.properties.foldl (fun m p => objSet m p.1 p.2) []
    listeners :=
      ((d.custom.map CustomBlock.listeners).getD []).foldl
        (fun m p => addEventListener m p.1 p.2)
        (d.listeners.foldl (fun m p => addEventListener m p.1 p.2) [])
    text := d.text.getD "" }

mutual
/-- `VirtualDOM.createFromDescription` restricted to element descriptions:
a `VirtualElement` whose constructor stores the description, creates the
children recursively (only when `description.children` is assigned) and
attaches the DOM node built by `Renderer.createElement`. -/
def createElem : Desc → Elem
  | d@(.mk _ _ _ _ _ _ _ _ _ _ ch) => .mk d (createBacking d) (createElemChildren ch)
def createElemChildren : DescChildren → ElemChildren
  | .noChildren => .noChildren
  | .withChildren l => .withChildren (createElemList l)
def createElemList : DescList → ElemList
  | .nil => .nil
  | .cons d tl => .cons (createElem d) (createElemList tl)
end


/-- The object branch of `Diff.deepEqual` specialized to a flat property map
whose values are compared with `eq`: equal property count, equal sorted key
sequences, and per-key equal values (`keys.sort()` / `nextKeys.sort()` and the
pairwise loop of `deepEqual`). -/
def objEqBy {V : Type _} (eq : V → V → Bool) (default : V)
    (fl gl : List (String × V)) : Bool :=
  let keys := sortBy strLe (fl.map Prod.fst)
  let nextKeys := sortBy strLe (gl.map Prod.fst)
  fl.length == gl.length &&
    (List.zip keys nextKeys).all fun p =>
      p.1 == p.2 &&
        eq ((List.lookup p.1 fl).getD default) ((List.lookup p.2 gl).getD default)

/-- `Diff.deepEqual` on the `custom` sub-object: present in both (recursing
into the `attrs` and `listeners` maps; function values compare by object
identity) or absent in both. -/
def customEqual : Option CustomBlock → Option CustomBlock → Bool
  | none, none => true
  | some c, some c' =>
    objEqBy (fun x y : String => x == y) "" c.attrs c'.attrs &&
      objEqBy (fun x y : Listener => x == y) ⟨0, none⟩ c.listeners c'.listeners
  | _, _ => false

mutual
/-- `Diff.deepEqual` on two normalized element descriptions: both are
`ElementDescription` instances (equal constructors), so the comparison is the
object branch over the assigned fields — `key`, `name`, `class` and `text` as
primitives, the `style`/`attrs`/`dataset` string maps, `properties` compared
value-deep, `listeners` compared by function object identity (`deepEqual` on
two distinct function objects is `false`), the `custom` block, and the
`children` array elementwise in order. A field assigned on one side only makes
the `Object.keys` sets differ, which the absent-field encodings (`none`, `[]`)
capture. -/
def descEqual : Desc → Desc → Bool
  | .mk k n c s a ds pr ls cu tx ch, .mk k' n' c' s' a' ds' pr' ls' cu' tx' ch' =>
    k == k' && n == n' && c == c' &&
    objEqBy (fun x y : String => x == y) "" s s' &&
    objEqBy (fun x y : String => x == y) "" a a' &&
    objEqBy (fun x y : String => x == y) "" ds ds' &&
    objEqBy deepEqual Value.vNull pr pr' &&
    objEqBy (fun x y : Listener => x == y) ⟨0, none⟩ ls ls' &&
    customEqual cu cu' &&
    tx == tx' &&
    descChildrenEqual ch ch'
def descChildrenEqual : DescChildren → DescChildren → Bool
  | .noChildren, .noChildren => true
  | .withChildren l, .withChildren m => descListEqual l m
  | _, _ => false
def descListEqual : DescList → DescList → Bool
  | .nil, .nil => true
  | .cons d tl, .cons d' tl' => descEqual d d' && descListEqual tl tl'
  | _, _ => false
end

/-- Duplicate-free key set of a property map (JS objects cannot carry two
properties of the same name — the representation invariant of the assoc-list
encoding). -/
def keysNodupB {V : Type _} (m : List (String × V)) : Bool :=
  decide (m.map Prod.fst).Nodup

/-- Disjointness of two property-key sets. -/
def keysDisjointB {V W : Type _} (m : List (String × V)) (m' : List (String × W)) : Bool :=
  m.all fun p => !(m'.map Prod.fst).contains p.1

/-- The child keys `sourceNodes.map((node, index) => node.description.key ||
index)` / `targetDescriptions.map((description, index) => description.key ||
index)` of `elementChildrenPatches`. -/
def descChildKeys (l : List Desc) : List NodeKey :=
  l.mapIdx fun i d => jsKeyOr d.key i

/-- Ditto for element nodes. -/
def elemChildKeys (l : List Elem) : List NodeKey :=
  l.mapIdx fun i e => jsKeyOr e.description.key i

mutual
/-- Wellformedness of a normalized element description, the domain of the
round-trip theorem: every property map is duplicate-free; custom keys do not
collide with the standard ones they share a DOM store with; a text element has
no children (`Template.describe` throws on the mix) and a present children
array is non-empty (the normalizer only assigns pushed-to arrays); children
are explicitly keyed by distinct non-empty string keys (the debug
`assertUniqueKeys` throws on duplicates; uniform explicit keys also keep
`Reconciler.comparator` — and `indexOf` on sibling nodes — consistent); and
children are recursively wellformed. -/
def wfDesc : Desc → Bool
  | .mk _ _ _ s a ds pr ls cu tx ch =>
    keysNodupB s && keysNodupB a && keysNodupB ds && keysNodupB pr &&
    keysNodupB ls &&
    (match cu with
     | none => true
     | some c =>
       keysNodupB c.attrs && keysNodupB c.listeners &&
       keysDisjointB c.attrs a && keysDisjointB c.listeners ls) &&
    (tx.isNone || decide (ch.toList = [])) &&
    (match ch with
     | .noChildren => true
     | .withChildren l =>
       !decide (l.toList = []) &&
       l.toList.all (fun d => (jsKeyOrNull d.key).isSome) &&
       decide (descChildKeys l.toList).Nodup &&
       wfDescList l)
def wfDescList : DescList → Bool
  | .nil => true
  | .cons d tl => wfDesc d && wfDescList tl
end

/-- Pointwise (lookup) equality of two property maps: what two DOM maps being
the same state means, independent of entry order. Quantifying over the keys
of both sides decides it. -/
def mapEqv {V : Type _} [DecidableEq V] (m m' : List (String × V)) : Bool :=
  (m.map Prod.fst ++ m'.map Prod.fst).all fun k =>
    List.lookup k m == List.lookup k m'

/-- Two DOM backings carry the same rendered state: equal class name and text,
and pointwise equal style/attribute/dataset/property maps and listener
registries. -/
def backingEqv (b b' : Backing) : Bool :=
  b.className == b'.className &&
  mapEqv b.style b'.style &&
  mapEqv b.attrs b'.attrs &&
  mapEqv b.dataset b'.dataset &&
  mapEqv b.properties b'.properties &&
  mapEqv b.listeners b'.listeners &&
  b.text == b'.text

/-- Emptiness of an element-children list. -/
def ElemList.isNil : ElemList → Bool
  | .nil => true
  | .cons _ _ => false

mutual
/-- Structural equality of two virtual elements up to DOM-map entry order:
identical descriptions, equivalent backings and pointwise equivalent children
(an absent children array and an empty one render identically). -/
def elemEqv : Elem → Elem → Bool
  | .mk d b c, .mk d' b' c' =>
    d == d' && backingEqv b b' && elemChildrenEqv c c'
def elemChildrenEqv : ElemChildren → ElemChildren → Bool
  | .noChildren, .noChildren => true
  | .noChildren, .withChildren m => m.isNil
  | .withChildren l, .noChildren => l.isNil
  | .withChildren l, .withChildren m => elemListEqv l m
def elemListEqv : ElemList → ElemList → Bool
  | .nil, .nil => true
  | .cons e tl, .cons e' tl' => elemEqv e e' && elemListEqv tl tl'
  | _, _ => false
end


/-- The patches `Diff.elementPatches` and its helpers emit, as recorded by
`Diff.addPatch`. The target element is the node the fused application below
is currently positioned at, so it is not repeated in the record; child-node
patches carry their index payloads (`removeChildNode` additionally resolves
its node by identity at application time, see `childNodeRemove`). -/
inductive DomPatch where
  | setClassName (className : String)
  | setStyleProperty (prop value : String)
  | removeStyleProperty (prop : String)
  | setAttribute (name value : String) (isCustom : Bool)
  | removeAttribute (name : String) (isCustom : Bool)
  | addListener (event : String) (listener : Listener) (isCustom : Bool)
  | removeListener (event : String) (listener : Listener) (isCustom : Bool)
  | replaceListener (event : String) (removed added : Listener) (isCustom : Bool)
  | setDataAttribute (name value : String)
  | removeDataAttribute (name : String)
  | setProperty (key : String) (value : Value)
  | deleteProperty (key : String)
  | removeTextContent
  | setTextContent (text : String)
  | insertChildNode (atIdx : Nat)
  | moveChildNode (fromIdx : Int) (toIdx : Nat)
  | removeChildNode (atIdx : Nat)
  | replaceChildNode
  | updateNode
deriving DecidableEq, Repr

/-- The `patch.apply()` action of each backing-level patch on the target
element's DOM node, combining the `Patch` type definitions with the
`VirtualElement` methods they call: `setClassName` writes `ref.className`,
style patches write/clear `ref.style[prop]`, attribute patches call
`ref.setAttribute`/`removeAttribute` (standard and custom names share the
store), dataset patches write `ref.dataset`, property patches write/delete
direct DOM properties, listener patches call
`addEventListener`/`removeEventListener` (a replacement removes the old
listener then adds the new one), and the text patches write `ref.textContent`.
Child-node patches and `updateNode` act on the `children` array and the
`description` pointer instead and are applied by the fused diff itself, so
they leave the backing unchanged here. -/
def applyDomPatch (b : Backing) : DomPatch → Backing
  | .setClassName c => { b with className := c }
  | .setStyleProperty k v => { b with style := objSet b.style k v }
  | .removeStyleProperty k => { b with style := objDelete b.style k }
  | .setAttribute k v _ => { b with attrs := objSet b.attrs k v }
  | .removeAttribute k _ => { b with attrs := objDelete b.attrs k }
  | .addListener e l _ => { b with listeners := addEventListener b.listeners e l }
  | .removeListener e l _ => { b with listeners := removeEventListener b.listeners e l }
  | .replaceListener e old added _ =>
    { b with listeners := addEventListener (removeEventListener b.listeners e old) e added }
  | .setDataAttribute k v => { b with dataset := objSet b.dataset k v }
  | .removeDataAttribute k => { b with dataset := objDelete b.dataset k }
  | .setProperty k v => { b with properties := objSet b.properties k v }
  | .deleteProperty k => { b with properties := objDelete b.properties k }
  | .setTextContent t => { b with text := t }
  | .removeTextContent => { b with text := "" }
  | .insertChildNode _ => b
  | .moveChildNode _ _ => b
  | .removeChildNode _ => b
  | .replaceChildNode => b
  | .updateNode => b

/-- `Diff.classNamePatches(current = '', next = '', target)`. -/
def classNamePatches (current next : String) : List DomPatch :=
  if current ≠ next then [DomPatch.setClassName next] else []

/-- `Diff.stylePatches(current = {}, next = {}, target)`: set patches for the
added properties, remove patches for the removed ones, then set patches for
the changed ones, each group in key order. -/
def stylePatches (current next : List (String × String)) : List DomPatch :=
  let props := current.map Prod.fst
  let nextProps := next.map Prod.fst
  let added := nextProps.filter fun p => !props.contains p
  let removed := props.filter fun p => !nextProps.contains p
  let changed := props.filter fun p =>
    nextProps.contains p && decide (objGetD current p "" ≠ objGetD next p "")
  (added.map fun p => DomPatch.setStyleProperty p (objGetD next p "")) ++
    (removed.map fun p => DomPatch.removeStyleProperty p) ++
    (changed.map fun p => DomPatch.setStyleProperty p (objGetD next p ""))

/-- `Diff.attributePatches(current = {}, next = {}, target, isCustom)`. -/
def attributePatches (current next : List (String × String)) (isCustom : Bool) :
    List DomPatch :=
  let attrs := current.map Prod.fst
  let nextAttrs := next.map Prod.fst
  let added := nextAttrs.filter fun a => !attrs.contains a
  let removed := attrs.filter fun a => !nextAttrs.contains a
  let changed := attrs.filter fun a =>
    nextAttrs.contains a && decide (objGetD current a "" ≠ objGetD next a "")
  (added.map fun a => DomPatch.setAttribute a (objGetD next a "") isCustom) ++
    (removed.map fun a => DomPatch.removeAttribute a isCustom) ++
    (changed.map fun a => DomPatch.setAttribute a (objGetD next a "") isCustom)

/-- `Diff.listenerPatches(current = {}, next = {}, target, isCustom)`: the
`changed` test is `current[event] !== next[event] && (both sources undefined
|| current[event].source !== next[event].source)` — see `listenerChanged`. -/
def listenerDomPatches (current next : List (String × Listener)) (isCustom : Bool) :
    List DomPatch :=
  let listeners := current.map Prod.fst
  let nextListeners := next.map Prod.fst
  let added := nextListeners.filter fun e => !listeners.contains e
  let removed := listeners.filter fun e => !nextListeners.contains e
  let changed := listeners.filter fun e =>
    nextListeners.contains e &&
      listenerChanged (objGetD current e ⟨0, none⟩) (objGetD next e ⟨0, none⟩)
  (added.map fun e => DomPatch.addListener e (objGetD next e ⟨0, none⟩) isCustom) ++
    (removed.map fun e => DomPatch.removeListener e (objGetD current e ⟨0, none⟩) isCustom) ++
    (changed.map fun e =>
      DomPatch.replaceListener e (objGetD current e ⟨0, none⟩) (objGetD next e ⟨0, none⟩)
        isCustom)

/-- `Diff.datasetPatches(current = {}, next = {}, target)`. -/
def datasetPatches (current next : List (String × String)) : List DomPatch :=
  let attrs := current.map Prod.fst
  let nextAttrs := next.map Prod.fst
  let added := nextAttrs.filter fun a => !attrs.contains a
  let removed := attrs.filter fun a => !nextAttrs.contains a
  let changed := attrs.filter fun a =>
    nextAttrs.contains a && decide (objGetD current a "" ≠ objGetD next a "")
  (added.map fun a => DomPatch.setDataAttribute a (objGetD next a "")) ++
    (removed.map fun a => DomPatch.removeDataAttribute a) ++
    (changed.map fun a => DomPatch.setDataAttribute a (objGetD next a ""))

/-- `Diff.propertiesPatches(current = {}, next = {}, target)`: the `changed`
test is `!Diff.deepEqual(current[key], next[key])`. -/
def propertiesPatches (current next : List (String × Value)) : List DomPatch :=
  let keys := current.map Prod.fst
  let nextKeys := next.map Prod.fst
  let added := nextKeys.filter fun k => !keys.contains k
  let removed := keys.filter fun k => !nextKeys.contains k
  let changed := keys.filter fun k =>
    nextKeys.contains k &&
      !deepEqual (objGetD current k Value.vNull) (objGetD next k Value.vNull)
  (added.map fun k => DomPatch.setProperty k (objGetD next k Value.vNull)) ++
    (removed.map fun k => DomPatch.deleteProperty k) ++
    (changed.map fun k => DomPatch.setProperty k (objGetD next k Value.vNull))

/-- All backing patches of one `elementPatches` call in emission order:
class name, style, attributes, listeners, dataset, properties, and — when
either side carries a `custom` block — the custom attributes and listeners
(`custom && custom.attrs` etc. defaulting absent sub-objects to `{}`). -/
def categoryPatches (cur nxt : Desc) : List DomPatch :=
  classNamePatches (cur.className.getD "") (nxt.className.getD "") ++
    stylePatches cur.style nxt.style ++
    attributePatches cur.attrs nxt.attrs false ++
    listenerDomPatches cur.listeners nxt.listeners false ++
    datasetPatches cur.dataset nxt.dataset ++
    propertiesPatches cur.properties nxt.properties ++
    (if cur.custom.isSome || nxt.custom.isSome then
      attributePatches ((cur.custom.map CustomBlock.attrs).getD [])
          ((nxt.custom.map CustomBlock.attrs).getD []) true ++
        listenerDomPatches ((cur.custom.map CustomBlock.listeners).getD [])
          ((nxt.custom.map CustomBlock.listeners).getD []) true
    else [])


/-- `parent.removeChild(child)` on the children array: the child is located
by identity (`indexOf`), the occupancy assertion only logs, and the entry is
spliced out — `splice(-1, 1)`, removing the last entry, when the node is
absent, faithful to the JS index clamping. -/
def childNodeRemove (cs : List Elem) (n : Elem) : List Elem :=
  jsSplice cs (jsIndexOf cs n) 1 []

/-- `parent.replaceChild(child, node)` on the children array:
`splice(children.indexOf(child), 1, node)` (the index assertion only logs). -/
def replaceChildInList (cs : List Elem) (child node : Elem) : List Elem :=
  jsSplice cs (jsIndexOf cs child) 1 [node]

/-- In-place mutation of a child object: the array cell holding the node (by
identity) shows the updated node afterwards; an absent node mutates only the
object, not the array. -/
def substChild (cs : List Elem) (old upd : Elem) : List Elem :=
  match cs.indexOf? old with
  | some i => cs.set i upd
  | none => cs

/-- The mutable context of one `elementChildrenPatches` run: the local
bookkeeping copy `children = [...sourceNodes]` that each `move.make` updates,
the parent's actual children array as the applied child-node patches leave it
(`none` while `this.children` is still undefined), the `created` node list,
`createdNodesMap`, and the patches emitted so far. -/
structure ChildDiffState where
  book : List Elem
  real : Option (List Elem)
  created : List Elem
  createdMap : List (NodeKey × Elem)
  patches : List DomPatch
deriving Repr

/-- `getNode(key, isMove)` of `elementChildrenPatches`: a key present in
`from` resolves to the original source node; a moved key otherwise resolves
through `createdNodesMap`; any other key creates a node from its target
description (`createNode`, which also records it — the `Bool` tells the
caller to do so). `none` models the crash paths that the `calculateMoves`
contract makes unreachable (a moved key never inserted, an `indexOf` miss). -/
def getNode? (sourceNodes : List Elem) (fromKeys toKeys : List NodeKey)
    (targets : List Desc) (createdMap : List (NodeKey × Elem))
    (key : NodeKey) (isMove : Bool) : Option (Elem × Bool) :=
  if fromKeys.contains key then
    match sourceNodes.get? (fromKeys.indexOf key) with
    | some n => some (n, false)
    | none => none
  else if isMove then
    match createdMap.lookup key with
    | some n => some (n, false)
    | none => none
  else
    match targets.get? (toKeys.indexOf key) with
    | some d => some (createElem d, true)
    | none => none

/-- One iteration of the `for (const move of moves)` loop of
`elementChildrenPatches`: resolve the node, emit the child-node patch, apply
it to the parent's children array (`insertChild` materializes an undefined
array; `removeChild` drops on an undefined one, which is unreachable), and
replay `move.make` on the bookkeeping copy. -/
def childMoveStep (sourceNodes : List Elem) (fromKeys toKeys : List NodeKey)
    (targets : List Desc) (st : ChildDiffState) (mv : Move NodeKey) :
    Option ChildDiffState :=
  match getNode? sourceNodes fromKeys toKeys targets st.createdMap mv.item mv.isMove with
  | none => none
  | some (node, wasCreated) =>
    let st' :=
      if wasCreated then
        { st with created := st.created ++ [node]
                  createdMap := st.createdMap ++ [(mv.item, node)] }
      else st
    match mv with
    | .remove _ a =>
      match st'.real with
      | none => none
      | some cs =>
        some { st' with
          patches := st'.patches ++ [DomPatch.removeChildNode a]
          book := (Move.remove node a).make st'.book
          real := some (childNodeRemove cs node) }
    | .insert _ a =>
      some { st' with
        patches := st'.patches ++ [DomPatch.insertChildNode a]
        book := (Move.insert node a).make st'.book
        real := some (jsSplice (st'.real.getD []) (a : Int) 0 [node]) }
    | .move _ f t =>
      match st'.real with
      | none => none
      | some cs =>
        some { st' with
          patches := st'.patches ++ [DomPatch.moveChildNode f t]
          book := (Move.move node f t).make st'.book
          real := some ((Move.move node f t).make cs) }

/-- `elementChildPatches(child, description, parent)` fused with the
application of what it adds: a compatible (same-`name` element) and deep-equal
description is a no-op; a compatible changed one recursively diffs the child
in place; an incompatible one replaces the child with a node freshly created
from the description. `none` when `targetDescriptions[i]` is out of range
(`undefined.constructor` would throw). -/
def elementChildStep (diffFn : Elem → Desc → Option (List DomPatch × Elem))
    (child : Elem) (target? : Option Desc) (real : List Elem) :
    Option (List DomPatch × List Elem) :=
  match target? with
  | none => none
  | some tdesc =>
    if child.description.name = tdesc.name then
      if descEqual child.description tdesc then some ([], real)
      else
        match diffFn child tdesc with
        | none => none
        | some (p, child') => some (p, substChild real child child')
    else
      some ([DomPatch.replaceChildNode], replaceChildInList real child (createElem tdesc))

/-- The post-move `for (let i = 0; i < children.length; i++)` loop of
`elementChildrenPatches` over the (fixed) bookkeeping array: children created
in this pass are skipped, every other child is processed by
`elementChildPatches` against the target description at its index. -/
def childRecLoop (diffFn : Elem → Desc → Option (List DomPatch × Elem))
    (targets : List Desc) (created : List Elem) :
    List Elem → Nat → List Elem → Option (List DomPatch × List Elem)
  | [], _, real => some ([], real)
  | child :: rest, i, real =>
    if created.contains child then
      childRecLoop diffFn targets created rest (i + 1) real
    else
      match elementChildStep diffFn child (targets.get? i) real with
      | none => none
      | some (p, real') =>
        match childRecLoop diffFn targets created rest (i + 1) real' with
        | none => none
        | some (p', real'') => some (p ++ p', real'')

/-- `elementChildrenPatches(sourceNodes = [], targetDescriptions = [],
parent)` fused with the application of the child-node patches it emits: the
child keys are `description.key || index` on both sides (`favoredToMove` is
always `null` here: element descriptions carry no `props` object, so the
`beingDragged` search never matches an element child), duplicate keys throw
in debug mode (`assertUniqueKeys`, modelled as `none`),
`Reconciler.calculateMoves` plans the reorder, each move is applied, and the
surviving children are recursively diffed in place. -/
def elementChildrenDiff (diffFn : Elem → Desc → Option (List DomPatch × Elem))
    (sourceNodes : List Elem) (targets : List Desc) (real0 : Option (List Elem)) :
    Option (List DomPatch × Option (List Elem)) :=
  let fromKeys := elemChildKeys sourceNodes
  let toKeys := descChildKeys targets
  if !decide fromKeys.Nodup || !decide toKeys.Nodup then none
  else
    let moves := (calculateMoves fromKeys toKeys none).1
    match moves.foldlM (childMoveStep sourceNodes fromKeys toKeys targets)
        ⟨sourceNodes, real0, [], [], []⟩ with
    | none => none
    | some st =>
      match st.real with
      | none => if st.book = [] then some (st.patches, none) else none
      | some cs =>
        match childRecLoop diffFn targets st.created st.book 0 cs with
        | none => none
        | some (p, cs') => some (st.patches ++ p, some cs')

/-- `Diff.elementPatches(element, description)` fused with `Diff.apply()` on
the patches it emits: the action of one update cycle on an element subtree.
The fusion is sound because the diff reads only descriptions while the
application writes only backings, children arrays and `description` pointers,
and patches of distinct nodes touch disjoint state; patches are listed in
emission order. A deep-equal description returns immediately with no patches.
Otherwise: the category patches (class name, style, attributes, listeners,
dataset, properties, custom) are emitted and applied to the backing; a
defined current text with an undefined next text emits `removeTextContent`;
the children pass runs when either side has a children array
(`element.children || description.children`); a defined next text differing
from the current emits `setTextContent`; `updateNode` finally swaps in the
new description. Fuel `0` is `none`; `Desc.size` of the description always
suffices. -/
def elementDiff : Nat → Elem → Desc → Option (List DomPatch × Elem)
  | 0, _, _ => none
  | fuel + 1, e, d =>
    if descEqual e.description d then some ([], e)
    else
      let cat := categoryPatches e.description d
      let b1 := cat.foldl applyDomPatch e.backing
      let textRemove : List DomPatch :=
        if e.description.text.isSome ∧ d.text = none then
          [DomPatch.removeTextContent]
        else []
      let b2 := textRemove.foldl applyDomPatch b1
      let childrenStep : Option (List DomPatch × Option (List Elem)) :=
        if e.children ≠ ElemChildren.noChildren ∨ d.children ≠ DescChildren.noChildren then
          elementChildrenDiff (elementDiff fuel) ((e.children.toOption).getD [])
            d.children.toList (e.children.toOption)
        else some ([], e.children.toOption)
      match childrenStep with
      | none => none
      | some (pc, real') =>
        let textSet : List DomPatch :=
          match d.text with
          | some t =>
            if e.description.text ≠ some t then [DomPatch.setTextContent t] else []
          | none => []
        let b3 := textSet.foldl applyDomPatch b2
        some (cat ++ textRemove ++ pc ++ textSet ++ [DomPatch.updateNode],
          Elem.mk d b3
            (match real' with
             | none => ElemChildren.noChildren
             | some cs => ElemChildren.withChildren (ElemList.ofList cs)))


mutual
/-- Descriptions without `custom` blocks at any level. Standard and custom
attributes (and listeners) share one DOM store, so a custom key colliding with
the other description's standard key can make even the diff's own single pass
drop state; the round-trip theorem is scoped to custom-free trees. -/
def customFree : Desc → Bool
  | .mk _ _ _ _ _ _ _ _ cu _ ch => cu.isNone && customFreeChildren ch
def customFreeChildren : DescChildren → Bool
  | .noChildren => true
  | .withChildren l => customFreeList l
def customFreeList : DescList → Bool
  | .nil => true
  | .cons d tl => customFree d && customFreeList tl
end

/-- A set/delete action on one property of a map object — the common shape of
the added/removed/changed loops of the category patch functions. -/
inductive MapOp (V : Type _) where
  | set (k : String) (v : V)
  | del (k : String)
deriving DecidableEq, Repr

/-- The property a map action addresses. -/
def MapOp.key {V : Type _} : MapOp V → String
  | .set k _ => k
  | .del k => k

/-- Application of one map action. -/
def applyMapOp {V : Type _} (m : List (String × V)) : MapOp V → List (String × V)
  | .set k v => objSet m k v
  | .del k => objDelete m k

/-- The added/removed/changed plan shared by `stylePatches`,
`attributePatches`, `datasetPatches` and `propertiesPatches`: set actions for
the keys only in `next`, delete actions for the keys only in `cur`, set
actions for the common keys whose values differ under `vtest`. -/
def objDiffOps {V : Type _} (vtest : V → V → Bool) (default : V)
    (cur next : List (String × V)) : List (MapOp V) :=
  let keys := cur.map Prod.fst
  let nextKeys := next.map Prod.fst
  let added := nextKeys.filter fun k => !keys.contains k
  let removed := keys.filter fun k => !nextKeys.contains k
  let changed := keys.filter fun k =>
    nextKeys.contains k && vtest (objGetD cur k default) (objGetD next k default)
  (added.map fun k => MapOp.set k (objGetD next k default)) ++
    (removed.map MapOp.del) ++
    (changed.map fun k => MapOp.set k (objGetD next k default))

section MapOpLemmas
variable {V : Type _}

theorem lookup_cons_self {k : String} (w : V) (rest : List (String × V)) :
    List.lookup k ((k, w) :: rest) = some w := by
  rw [List.lookup_cons]
  simp

theorem lookup_cons_ne {k k0 : String} (w : V) (rest : List (String × V))
    (h : k ≠ k0) : List.lookup k ((k0, w) :: rest) = List.lookup k rest := by
  rw [List.lookup_cons]
  rw [beq_eq_false_iff_ne.mpr h]

theorem lookup_eq_none_of_not_mem_keys {m : List (String × V)} {k : String}
    (h : k ∉ m.map Prod.fst) : List.lookup k m = none := by
  induction m with
  | nil => rfl
  | cons p rest ih =>
    rcases p with ⟨k0, w⟩
    simp only [List.map_cons, List.mem_cons] at h
    push_neg at h
    rw [lookup_cons_ne w rest h.1]
    exact ih h.2

theorem lookup_map_update_self (m : List (String × V)) {k : String} (v : V)
    (h : k ∈ m.map Prod.fst) :
    List.lookup k (m.map fun p => if p.1 = k then (k, v) else p) = some v := by
  induction m with
  | nil => simp at h
  | cons p rest ih =>
    rcases p with ⟨k0, w⟩
    by_cases hk : k0 = k
    · subst hk
      simp only [List.map_cons, if_pos rfl]
      exact lookup_cons_self v _
    · simp only [List.map_cons, List.mem_cons] at h
      rcases h with h | h
      · exact absurd h.symm hk
      · simp only [List.map_cons]
        rw [if_neg (by simpa using hk)]
        rw [lookup_cons_ne w _ (Ne.symm hk)]
        exact ih h

theorem lookup_map_update_other (m : List (String × V)) {k k' : String} (v : V)
    (h : k' ≠ k) :
    List.lookup k' (m.map fun p => if p.1 = k then (k, v) else p) =
      List.lookup k' m := by
  induction m with
  | nil => simp
  | cons p rest ih =>
    rcases p with ⟨k0, w⟩
    by_cases hk : k0 = k
    · subst hk
      have hcol : (((k0, w) :: rest).map fun p => if p.1 = k0 then (k0, v) else p) =
          (k0, v) :: (rest.map fun p => if p.1 = k0 then (k0, v) else p) := by
        simp
      rw [hcol, lookup_cons_ne v _ h, lookup_cons_ne w _ h]
      exact ih
    · simp only [List.map_cons]
      rw [if_neg (by simpa using hk)]
      by_cases hk' : k' = k0
      · subst hk'
        rw [lookup_cons_self w, lookup_cons_self w]
      · rw [lookup_cons_ne w _ hk', lookup_cons_ne w _ hk']
        exact ih

theorem lookup_append_right {m l : List (String × V)} {k : String}
    (h : k ∉ m.map Prod.fst) :
    List.lookup k (m ++ l) = List.lookup k l := by
  induction m with
  | nil => rfl
  | cons p rest ih =>
    rcases p with ⟨k0, w⟩
    simp only [List.map_cons, List.mem_cons] at h
    push_neg at h
    rw [List.cons_append, lookup_cons_ne w _ h.1]
    exact ih h.2

theorem lookup_append_left {m l : List (String × V)} {k : String}
    (h : k ∈ m.map Prod.fst) :
    List.lookup k (m ++ l) = List.lookup k m := by
  induction m with
  | nil => simp at h
  | cons p rest ih =>
    rcases p with ⟨k0, w⟩
    by_cases hk : k = k0
    · subst hk
      rw [List.cons_append, lookup_cons_self w, lookup_cons_self w]
    · simp only [List.map_cons, List.mem_cons] at h
      rcases h with h | h
      · exact absurd h hk
      · rw [List.cons_append, lookup_cons_ne w _ hk, lookup_cons_ne w _ hk]
        exact ih h

theorem lookup_objSet_self (m : List (String × V)) (k : String) (v : V) :
    List.lookup k (objSet m k v) = some v := by
  unfold objSet
  by_cases h : (m.map Prod.fst).contains k
  · rw [if_pos h]
    exact lookup_map_update_self m v (by simpa using h)
  · rw [if_neg h]
    rw [lookup_append_right (by simpa using h)]
    exact lookup_cons_self v _

theorem lookup_objSet_other (m : List (String × V)) {k k' : String} (v : V)
    (h : k' ≠ k) : List.lookup k' (objSet m k v) = List.lookup k' m := by
  unfold objSet
  by_cases hc : (m.map Prod.fst).contains k
  · rw [if_pos hc]
    exact lookup_map_update_other m v h
  · rw [if_neg hc]
    by_cases hmem : k' ∈ m.map Prod.fst
    · exact lookup_append_left hmem
    · rw [lookup_append_right hmem, lookup_eq_none_of_not_mem_keys hmem,
        lookup_cons_ne v _ h]
      rfl

theorem lookup_objDelete_self (m : List (String × V)) (k : String) :
    List.lookup k (objDelete m k) = none := by
  unfold objDelete
  induction m with
  | nil => simp
  | cons p rest ih =>
    rcases p with ⟨k0, w⟩
    by_cases hk : k0 = k
    · subst hk
      simpa using ih
    · rw [List.filter_cons_of_pos (by simpa using hk), lookup_cons_ne w _ (Ne.symm hk)]
      exact ih

theorem lookup_objDelete_other (m : List (String × V)) {k k' : String}
    (h : k' ≠ k) : List.lookup k' (objDelete m k) = List.lookup k' m := by
  unfold objDelete
  induction m with
  | nil => simp
  | cons p rest ih =>
    rcases p with ⟨k0, w⟩
    by_cases hk : k0 = k
    · subst hk
      rw [List.filter_cons_of_neg (by simpa using h.symm ∘ Eq.symm), lookup_cons_ne w _ h]
      exact ih
    · by_cases hk' : k' = k0
      · subst hk'
        rw [List.filter_cons_of_pos (by simpa using hk), lookup_cons_self w,
          lookup_cons_self w]
      · rw [List.filter_cons_of_pos (by simpa using hk), lookup_cons_ne w _ hk',
          lookup_cons_ne w _ hk']
        exact ih

theorem lookup_applyMapOp_key (m : List (String × V)) (op : MapOp V) :
    List.lookup op.key (applyMapOp m op) =
      (match op with | .set _ v => some v | .del _ => none) := by
  cases op with
  | set k v => simpa [applyMapOp, MapOp.key] using lookup_objSet_self m k v
  | del k => simpa [applyMapOp, MapOp.key] using lookup_objDelete_self m k

theorem lookup_applyMapOp_other (m : List (String × V)) {k' : String}
    {op : MapOp V} (h : k' ≠ op.key) :
    List.lookup k' (applyMapOp m op) = List.lookup k' m := by
  cases op with
  | set k v => exact lookup_objSet_other m v (by simpa [MapOp.key] using h)
  | del k => exact lookup_objDelete_other m (by simpa [MapOp.key] using h)

theorem lookup_foldl_of_key_ne (ops : List (MapOp V)) (m : List (String × V))
    {k : String} (h : ∀ op ∈ ops, op.key ≠ k) :
    List.lookup k (ops.foldl applyMapOp m) = List.lookup k m := by
  induction ops generalizing m with
  | nil => rfl
  | cons op rest ih =>
    rw [List.foldl_cons, ih _ fun o ho => h o (List.mem_cons_of_mem _ ho)]
    exact lookup_applyMapOp_other m fun e => h op (List.mem_cons_self _ _) e.symm

/-- Folding the mapped actions of a duplicate-free key list: the single
action at `k` decides the lookup. -/
theorem lookup_foldl_map_of_mem (f : String → MapOp V) (ks : List String)
    (m : List (String × V)) {k : String} (hk : k ∈ ks) (hnd : ks.Nodup)
    (hf : ∀ x, (f x).key = x) :
    List.lookup k ((ks.map f).foldl applyMapOp m) =
      (match f k with | .set _ v => some v | .del _ => none) := by
  induction ks generalizing m with
  | nil => simp at hk
  | cons x rest ih =>
    rw [List.map_cons, List.foldl_cons]
    rcases List.mem_cons.mp hk with h | h
    · subst h
      rw [lookup_foldl_of_key_ne _ _ fun op hop => by
        obtain ⟨y, hy, rfl⟩ := List.mem_map.mp hop
        rw [hf y]
        exact fun e => (List.nodup_cons.mp hnd).1 (e ▸ hy)]
      have := lookup_applyMapOp_key m (f k)
      rwa [hf k] at this
    · exact ih _ h (List.nodup_cons.mp hnd).2

theorem lookup_foldl_map_of_not_mem (f : String → MapOp V) (ks : List String)
    (m : List (String × V)) {k : String} (hk : k ∉ ks)
    (hf : ∀ x, (f x).key = x) :
    List.lookup k ((ks.map f).foldl applyMapOp m) = List.lookup k m := by
  refine lookup_foldl_of_key_ne _ _ fun op hop => ?_
  obtain ⟨y, hy, rfl⟩ := List.mem_map.mp hop
  rw [hf y]
  exact fun e => hk (e ▸ hy)

theorem lookup_eq_getD_of_mem_keys {m : List (String × V)} {k : String}
    (h : k ∈ m.map Prod.fst) (default : V) :
    List.lookup k m = some (objGetD m k default) := by
  obtain ⟨v, hv⟩ := lookup_isSome_of_mem_keys h
  rw [hv]
  simp [objGetD, hv]

end MapOpLemmas
section ObjDiffLemmas
variable {V : Type _}

theorem bnot_contains_true {l : List String} {k : String} (h : k ∉ l) :
    (!l.contains k) = true := by
  simpa using h

theorem bnot_contains_false {l : List String} {k : String} (h : k ∈ l) :
    (!l.contains k) = false := by
  rw [show l.contains k = true from List.elem_eq_true_of_mem h]
  rfl

theorem contains_true_of_mem {l : List String} {k : String} (h : k ∈ l) :
    l.contains k = true :=
  List.elem_eq_true_of_mem h

/-- Per-key effect of one added/removed/changed pass (`objDiffOps`) on a map:
a key in `next` ends at `next`'s value unless it is an unchanged common key,
a key only in `cur` is deleted, and all other keys are untouched. -/
theorem objDiffOps_lookup (vtest : V → V → Bool) (default : V)
    (cur next m : List (String × V)) (k : String)
    (hcur : (cur.map Prod.fst).Nodup) (hnext : (next.map Prod.fst).Nodup) :
    List.lookup k ((objDiffOps vtest default cur next).foldl applyMapOp m) =
      if k ∈ next.map Prod.fst then
        if k ∈ cur.map Prod.fst then
          (if vtest (objGetD cur k default) (objGetD next k default) then
            some (objGetD next k default)
          else List.lookup k m)
        else some (objGetD next k default)
      else if k ∈ cur.map Prod.fst then none
      else List.lookup k m := by
  unfold objDiffOps
  rw [List.foldl_append, List.foldl_append]
  by_cases hn : k ∈ next.map Prod.fst <;> by_cases hc : k ∈ cur.map Prod.fst
  · -- common key: not added, not removed, changed decides
    rw [if_pos hn, if_pos hc]
    have hnadd : k ∉ (next.map Prod.fst).filter fun k => !(cur.map Prod.fst).contains k := by
      simp only [List.mem_filter]
      rintro ⟨-, h2⟩
      rw [bnot_contains_false hc] at h2
      exact Bool.false_ne_true h2
    have hnrem : k ∉ (cur.map Prod.fst).filter fun k => !(next.map Prod.fst).contains k := by
      simp only [List.mem_filter]
      rintro ⟨-, h2⟩
      rw [bnot_contains_false hn] at h2
      exact Bool.false_ne_true h2
    by_cases hch : vtest (objGetD cur k default) (objGetD next k default)
    · rw [if_pos hch]
      have hmem : k ∈ (cur.map Prod.fst).filter fun k =>
          (next.map Prod.fst).contains k &&
            vtest (objGetD cur k default) (objGetD next k default) := by
        simp only [List.mem_filter]
        exact ⟨hc, by rw [contains_true_of_mem hn, hch]; rfl⟩
      rw [lookup_foldl_map_of_mem
        (fun k => MapOp.set k (objGetD next k default)) _ _ hmem
        (List.Nodup.filter _ hcur) (fun x => rfl)]
    · rw [if_neg hch]
      have hnch : k ∉ (cur.map Prod.fst).filter fun k =>
          (next.map Prod.fst).contains k &&
            vtest (objGetD cur k default) (objGetD next k default) := by
        simp only [List.mem_filter]
        rintro ⟨-, h2⟩
        rw [Bool.and_eq_true] at h2
        exact hch h2.2
      rw [lookup_foldl_map_of_not_mem
          (fun k => MapOp.set k (objGetD next k default)) _ _ hnch (fun x => rfl),
        lookup_foldl_map_of_not_mem MapOp.del _ _ hnrem (fun x => rfl),
        lookup_foldl_map_of_not_mem
          (fun k => MapOp.set k (objGetD next k default)) _ _ hnadd (fun x => rfl)]
  · -- added key
    rw [if_pos hn, if_neg hc]
    have hmem : k ∈ (next.map Prod.fst).filter fun k => !(cur.map Prod.fst).contains k := by
      simp only [List.mem_filter]
      exact ⟨hn, bnot_contains_true hc⟩
    have hnrem : k ∉ (cur.map Prod.fst).filter fun k => !(next.map Prod.fst).contains k :=
      fun h => hc (List.mem_of_mem_filter h)
    have hnch : k ∉ (cur.map Prod.fst).filter fun k =>
        (next.map Prod.fst).contains k &&
          vtest (objGetD cur k default) (objGetD next k default) :=
      fun h => hc (List.mem_of_mem_filter h)
    rw [lookup_foldl_map_of_not_mem
        (fun k => MapOp.set k (objGetD next k default)) _ _ hnch (fun x => rfl),
      lookup_foldl_map_of_not_mem MapOp.del _ _ hnrem (fun x => rfl),
      lookup_foldl_map_of_mem
        (fun k => MapOp.set k (objGetD next k default)) _ _ hmem
        (List.Nodup.filter _ hnext) (fun x => rfl)]
  · -- removed key
    rw [if_neg hn, if_pos hc]
    have hnadd : k ∉ (next.map Prod.fst).filter fun k => !(cur.map Prod.fst).contains k :=
      fun h => hn (List.mem_of_mem_filter h)
    have hmem : k ∈ (cur.map Prod.fst).filter fun k => !(next.map Prod.fst).contains k := by
      simp only [List.mem_filter]
      exact ⟨hc, bnot_contains_true hn⟩
    have hnch : k ∉ (cur.map Prod.fst).filter fun k =>
        (next.map Prod.fst).contains k &&
          vtest (objGetD cur k default) (objGetD next k default) := by
      simp only [List.mem_filter]
      rintro ⟨-, h2⟩
      rw [Bool.and_eq_true] at h2
      exact hn (List.mem_of_elem_eq_true h2.1)
    rw [lookup_foldl_map_of_not_mem
        (fun k => MapOp.set k (objGetD next k default)) _ _ hnch (fun x => rfl),
      lookup_foldl_map_of_mem MapOp.del _ _ hmem
        (List.Nodup.filter _ hcur) (fun x => rfl)]
  · -- untouched key
    rw [if_neg hn, if_neg hc]
    have hnadd : k ∉ (next.map Prod.fst).filter fun k => !(cur.map Prod.fst).contains k :=
      fun h => hn (List.mem_of_mem_filter h)
    have hnrem : k ∉ (cur.map Prod.fst).filter fun k => !(next.map Prod.fst).contains k :=
      fun h => hc (List.mem_of_mem_filter h)
    have hnch : k ∉ (cur.map Prod.fst).filter fun k =>
        (next.map Prod.fst).contains k &&
          vtest (objGetD cur k default) (objGetD next k default) :=
      fun h => hc (List.mem_of_mem_filter h)
    rw [lookup_foldl_map_of_not_mem
        (fun k => MapOp.set k (objGetD next k default)) _ _ hnch (fun x => rfl),
      lookup_foldl_map_of_not_mem MapOp.del _ _ hnrem (fun x => rfl),
      lookup_foldl_map_of_not_mem
        (fun k => MapOp.set k (objGetD next k default)) _ _ hnadd (fun x => rfl)]

/-- Two added/removed/changed passes — forward with `(cur, next)`, backward
with `(next, cur)` — restore a map that started pointwise equal to `cur`,
provided the change test is symmetric. -/
theorem objDiffOps_round_trip (vtest : V → V → Bool) (default : V)
    (cur next m : List (String × V))
    (hsymm : ∀ a b, vtest a b = vtest b a)
    (hcur : (cur.map Prod.fst).Nodup) (hnext : (next.map Prod.fst).Nodup)
    (hm : ∀ k, List.lookup k m = List.lookup k cur) (k : String) :
    List.lookup k ((objDiffOps vtest default next cur).foldl applyMapOp
      ((objDiffOps vtest default cur next).foldl applyMapOp m)) =
      List.lookup k cur := by
  rw [objDiffOps_lookup vtest default next cur _ k hnext hcur,
    objDiffOps_lookup vtest default cur next m k hcur hnext]
  by_cases hn : k ∈ next.map Prod.fst <;> by_cases hc : k ∈ cur.map Prod.fst
  · rw [if_pos hc, if_pos hn, hsymm (objGetD next k default) (objGetD cur k default)]
    by_cases hch : vtest (objGetD cur k default) (objGetD next k default)
    · rw [if_pos hch]
      exact (lookup_eq_getD_of_mem_keys hc default).symm
    · rw [if_neg hch, if_pos hn, if_pos hc, if_neg hch]
      exact hm k
  · rw [if_neg hc, if_pos hn]
    exact (lookup_eq_none_of_not_mem_keys hc).symm
  · rw [if_pos hc, if_neg hn]
    exact (lookup_eq_getD_of_mem_keys hc default).symm
  · rw [if_neg hc, if_neg hn, if_neg hn, if_neg hc]
    exact hm k

end ObjDiffLemmas
section ListenerPassLemmas

/-- Adding a listener for an unregistered event appends the pair. -/
theorem addEventListener_of_lookup_none {m : List (String × Listener)} {e : String}
    (l : Listener) (h : List.lookup e m = none) :
    addEventListener m e l = m ++ [(e, l)] := by
  unfold addEventListener
  rw [if_neg]
  intro hc
  have hp : (e, l) ∈ m := by simpa using hc
  have : e ∈ m.map Prod.fst := List.mem_map.mpr ⟨(e, l), hp, rfl⟩
  obtain ⟨v, hv⟩ := lookup_isSome_of_mem_keys this
  rw [h] at hv
  cases hv

/-- Removing the single registration of an event deletes the event's entry
(`erase` of the pair equals the key filter when the event has exactly that
one registration). -/
theorem removeEventListener_eq_objDelete {m : List (String × Listener)} {e : String}
    {l : Listener} (hnd : (m.map Prod.fst).Nodup) (h : List.lookup e m = some l) :
    removeEventListener m e l = objDelete m e := by
  unfold removeEventListener objDelete
  induction m with
  | nil => rfl
  | cons p rest ih =>
    rcases p with ⟨k0, w⟩
    by_cases hk : e = k0
    · subst hk
      rw [lookup_cons_self w rest] at h
      cases h
      have hnotin : e ∉ rest.map Prod.fst := (List.nodup_cons.mp hnd).1
      have hself : rest.filter (fun p => p.1 ≠ e) = rest := by
        refine List.filter_eq_self.mpr fun p hp => ?_
        simp only [ne_eq, decide_eq_true_eq]
        intro hpe
        exact hnotin (List.mem_map.mpr ⟨p, hp, hpe⟩)
      rw [List.erase_cons_head, List.filter_cons_of_neg (by simp)]
      exact hself.symm
    · rw [lookup_cons_ne w rest hk] at h
      have hpair : ¬(((k0, w) : String × Listener) == (e, l)) = true := by
        simp only [beq_iff_eq, Prod.mk.injEq, not_and]
        intro hk0
        exact absurd hk0.symm hk
      rw [List.erase_cons, if_neg (by simpa using hpair),
        List.filter_cons_of_pos (by simpa using Ne.symm hk),
        ih (List.nodup_cons.mp hnd).2 h]

/-- Lookup misses delete nothing: removing an unregistered pair is a no-op. -/
theorem removeEventListener_of_lookup_none {m : List (String × Listener)} {e : String}
    (l : Listener) (h : List.lookup e m = none) :
    removeEventListener m e l = m := by
  unfold removeEventListener
  refine List.erase_of_not_mem fun hp => ?_
  have : e ∈ m.map Prod.fst := List.mem_map.mpr ⟨(e, l), hp, rfl⟩
  obtain ⟨v, hv⟩ := lookup_isSome_of_mem_keys this
  rw [h] at hv
  cases hv

/-- The add segment of a listener pass: registering values for a list of
unregistered events appends their pairs in order. -/
theorem foldl_addEventListener_fresh (f : String → Listener) :
    ∀ (ks : List String) (m : List (String × Listener)),
      ks.Nodup → (∀ x ∈ ks, List.lookup x m = none) →
      ks.foldl (fun acc e => addEventListener acc e (f e)) m =
        m ++ ks.map fun e => (e, f e)
  | [], m, _, _ => by simp
  | x :: rest, m, hnd, h => by
    rw [List.foldl_cons,
      addEventListener_of_lookup_none (f x) (h x (List.mem_cons_self _ _)),
      foldl_addEventListener_fresh f rest _ (List.nodup_cons.mp hnd).2 fun y hy => ?_]
    · simp
    · have hxy : y ≠ x := fun e => (List.nodup_cons.mp hnd).1 (e ▸ hy)
      have hym : y ∉ m.map Prod.fst := fun hmem => by
        obtain ⟨v, hv⟩ := lookup_isSome_of_mem_keys hmem
        rw [h y (List.mem_cons_of_mem _ hy)] at hv
        cases hv
      rw [lookup_append_right hym, lookup_cons_ne (f x) [] hxy]
      rfl

end ListenerPassLemmas
section ListenerPassLemmas2

theorem keys_objDelete_sublist {V : Type _} (m : List (String × V)) (k : String) :
    ((objDelete m k).map Prod.fst).Sublist (m.map Prod.fst) :=
  (List.filter_sublist m).map Prod.fst

theorem keys_objDelete_nodup {V : Type _} {m : List (String × V)} (k : String)
    (h : (m.map Prod.fst).Nodup) : ((objDelete m k).map Prod.fst).Nodup :=
  (keys_objDelete_sublist m k).nodup h

theorem not_mem_keys_objDelete {V : Type _} (m : List (String × V)) (k : String) :
    k ∉ (objDelete m k).map Prod.fst := by
  intro h
  obtain ⟨p, hp, hpk⟩ := List.mem_map.mp h
  have := List.of_mem_filter hp
  rw [hpk] at this
  simp at this

/-- The remove segment of a listener pass: unregistering the recorded value of
each of a list of distinct events filters their entries out. -/
theorem foldl_removeEventListener (g : String → Listener) :
    ∀ (ks : List String) (m : List (String × Listener)), ks.Nodup →
      (m.map Prod.fst).Nodup → (∀ x ∈ ks, List.lookup x m = some (g x)) →
      ks.foldl (fun acc e => removeEventListener acc e (g e)) m =
        m.filter fun p => p.1 ∉ ks
  | [], m, _, _, _ => by simp
  | x :: rest, m, hnd, hm, h => by
    rw [List.foldl_cons,
      removeEventListener_eq_objDelete hm (h x (List.mem_cons_self _ _)),
      foldl_removeEventListener g rest _ (List.nodup_cons.mp hnd).2
        (keys_objDelete_nodup x hm) fun y hy => ?_]
    · unfold objDelete
      rw [List.filter_filter]
      refine List.filter_congr fun p _ => ?_
      simp only [List.mem_cons, decide_not]
      by_cases h1 : p.1 = x <;> by_cases h2 : p.1 ∈ rest <;> simp [h1, h2]
    · have hyx : y ≠ x := fun e => (List.nodup_cons.mp hnd).1 (e ▸ hy)
      rw [lookup_objDelete_other m hyx]
      exact h y (List.mem_cons_of_mem _ hy)

/-- The replace segment of a listener pass: each replacement unregisters the
event's recorded value and appends the new pair; over distinct events the
entries are filtered out and the new pairs appended in order. -/
theorem foldl_replaceListener (g f : String → Listener) :
    ∀ (ks : List String) (m : List (String × Listener)), ks.Nodup →
      (m.map Prod.fst).Nodup → (∀ x ∈ ks, List.lookup x m = some (g x)) →
      ks.foldl (fun acc e => addEventListener (removeEventListener acc e (g e)) e (f e)) m =
        (m.filter fun p => p.1 ∉ ks) ++ ks.map fun e => (e, f e)
  | [], m, _, _, _ => by simp
  | x :: rest, m, hnd, hm, h => by
    have hdel := removeEventListener_eq_objDelete hm (h x (List.mem_cons_self _ _))
    have hnone : List.lookup x (objDelete m x) = none :=
      lookup_eq_none_of_not_mem_keys (not_mem_keys_objDelete m x)
    rw [List.foldl_cons, hdel, addEventListener_of_lookup_none (f x) hnone]
    have hnd1 : ((objDelete m x ++ [(x, f x)]).map Prod.fst).Nodup := by
      rw [List.map_append]
      refine List.Nodup.append (keys_objDelete_nodup x hm) (by simp) ?_
      intro a ha hb
      simp only [List.map_cons, List.map_nil, List.mem_singleton] at hb
      subst hb
      exact not_mem_keys_objDelete m _ ha
    rw [foldl_replaceListener g f rest _ (List.nodup_cons.mp hnd).2 hnd1 fun y hy => ?_]
    · rw [List.filter_append]
      have hx1 : List.filter (fun p => decide (p.1 ∉ rest)) [(x, f x)] = [(x, f x)] := by
        simp [List.filter_cons, (List.nodup_cons.mp hnd).1]
      rw [hx1]
      have hx2 : (objDelete m x).filter (fun p => decide (p.1 ∉ rest)) =
          m.filter fun p => decide (p.1 ∉ x :: rest) := by
        unfold objDelete
        rw [List.filter_filter]
        refine List.filter_congr fun p _ => ?_
        simp only [List.mem_cons, decide_not]
        by_cases h1 : p.1 = x <;> by_cases h2 : p.1 ∈ rest <;> simp [h1, h2]
      rw [hx2]
      simp
    · have hyx : y ≠ x := fun e => (List.nodup_cons.mp hnd).1 (e ▸ hy)
      rw [lookup_append_left, lookup_objDelete_other m hyx]
      · exact h y (List.mem_cons_of_mem _ hy)
      · have := h y (List.mem_cons_of_mem _ hy)
        rw [← lookup_objDelete_other m hyx] at this
        exact List.mem_map.mpr ⟨(y, g y), mem_of_lookup_eq_some this, rfl⟩

end ListenerPassLemmas2
section ListenerPassLemmas3

/-- The registry-level action of one `listenerPatches` pass: the added events
are registered, the removed events unregistered, and the changed events
replaced, mirroring the `patch.apply()` calls of the emitted patch list. -/
def listenerPass (cur next m : List (String × Listener)) : List (String × Listener) :=
  let listeners := cur.map Prod.fst
  let nextListeners := next.map Prod.fst
  let added := nextListeners.filter fun e => !listeners.contains e
  let removed := listeners.filter fun e => !nextListeners.contains e
  let changed := listeners.filter fun e =>
    nextListeners.contains e &&
      listenerChanged (objGetD cur e ⟨0, none⟩) (objGetD next e ⟨0, none⟩)
  let m1 := added.foldl (fun acc e => addEventListener acc e (objGetD next e ⟨0, none⟩)) m
  let m2 := removed.foldl (fun acc e => removeEventListener acc e (objGetD cur e ⟨0, none⟩)) m1
  changed.foldl
    (fun acc e =>
      addEventListener (removeEventListener acc e (objGetD cur e ⟨0, none⟩)) e
        (objGetD next e ⟨0, none⟩)) m2

theorem lookup_map_pair {V : Type _} (f : String → V) (ks : List String) (k : String) :
    List.lookup k (ks.map fun e => (e, f e)) =
      if k ∈ ks then some (f k) else none := by
  induction ks with
  | nil => simp
  | cons x rest ih =>
    by_cases hk : k = x
    · subst hk
      simp [lookup_cons_self]
    · rw [List.map_cons, lookup_cons_ne _ _ hk, ih]
      by_cases hm : k ∈ rest <;> simp [hm, hk]

theorem lookup_filter_key {V : Type _} (q : String → Bool) (m : List (String × V))
    (k : String) :
    List.lookup k (m.filter fun p => q p.1) =
      if q k then List.lookup k m else none := by
  induction m with
  | nil => simp
  | cons p rest ih =>
    rcases p with ⟨k0, w⟩
    by_cases hk : k = k0
    · subst hk
      by_cases hq : q k
      · rw [List.filter_cons_of_pos (by simpa using hq), lookup_cons_self,
          lookup_cons_self, if_pos hq]
      · rw [List.filter_cons_of_neg (by simpa using hq), if_neg hq]
        rw [if_neg hq] at ih
        exact ih
    · by_cases hq0 : q k0
      · rw [List.filter_cons_of_pos (by simpa using hq0), lookup_cons_ne w _ hk,
          lookup_cons_ne w _ hk]
        exact ih
      · rw [List.filter_cons_of_neg (by simpa using hq0), lookup_cons_ne w _ hk]
        exact ih

/-- Exact form of one listener pass on a registry whose per-event state
matches the pass's preconditions: entries of removed or changed events are
filtered out, and the added and changed events' new registrations appended. -/
theorem listenerPass_eq (cur next m : List (String × Listener))
    (hcurnd : (cur.map Prod.fst).Nodup) (hnextnd : (next.map Prod.fst).Nodup)
    (hmnd : (m.map Prod.fst).Nodup)
    (h1 : ∀ x ∈ next.map Prod.fst, x ∉ cur.map Prod.fst → List.lookup x m = none)
    (h2r : ∀ x ∈ cur.map Prod.fst, x ∉ next.map Prod.fst →
      List.lookup x m = some (objGetD cur x ⟨0, none⟩))
    (h2c : ∀ x ∈ cur.map Prod.fst,
      listenerChanged (objGetD cur x ⟨0, none⟩) (objGetD next x ⟨0, none⟩) = true →
      List.lookup x m = some (objGetD cur x ⟨0, none⟩)) :
    listenerPass cur next m =
      (m.filter fun p =>
        decide (p.1 ∉ (cur.map Prod.fst).filter fun e =>
          !(next.map Prod.fst).contains e) &&
        decide (p.1 ∉ (cur.map Prod.fst).filter fun e =>
          (next.map Prod.fst).contains e &&
            listenerChanged (objGetD cur e ⟨0, none⟩) (objGetD next e ⟨0, none⟩))) ++
      (((next.map Prod.fst).filter fun e => !(cur.map Prod.fst).contains e).map
        fun e => (e, objGetD next e ⟨0, none⟩)) ++
      (((cur.map Prod.fst).filter fun e =>
          (next.map Prod.fst).contains e &&
            listenerChanged (objGetD cur e ⟨0, none⟩) (objGetD next e ⟨0, none⟩)).map
        fun e => (e, objGetD next e ⟨0, none⟩)) := by
  unfold listenerPass
  dsimp only
  set addedK := (next.map Prod.fst).filter fun e => !(cur.map Prod.fst).contains e with haddK
  set removedK := (cur.map Prod.fst).filter fun e => !(next.map Prod.fst).contains e with hremK
  set changedK := (cur.map Prod.fst).filter fun e =>
    (next.map Prod.fst).contains e &&
      listenerChanged (objGetD cur e ⟨0, none⟩) (objGetD next e ⟨0, none⟩) with hchgK
  have haddnd : addedK.Nodup := List.Nodup.filter _ hnextnd
  have hremnd : removedK.Nodup := List.Nodup.filter _ hcurnd
  have hchgnd : changedK.Nodup := List.Nodup.filter _ hcurnd
  -- step 1: the add segment appends the added pairs
  have hstep1 : addedK.foldl
      (fun acc e => addEventListener acc e (objGetD next e ⟨0, none⟩)) m =
      m ++ addedK.map fun e => (e, objGetD next e ⟨0, none⟩) := by
    refine foldl_addEventListener_fresh _ addedK m haddnd fun x hx => ?_
    rw [haddK, List.mem_filter] at hx
    exact h1 x hx.1 (by simpa using hx.2)
  rw [hstep1]
  -- step 2: the remove segment filters out the removed entries
  have hm1nd : ((m ++ addedK.map fun e => (e, objGetD next e ⟨0, none⟩)).map Prod.fst).Nodup := by
    rw [List.map_append]
    refine List.Nodup.append hmnd ?_ ?_
    · rw [List.map_map,
        show (Prod.fst ∘ fun e => (e, objGetD next e (⟨0, none⟩ : Listener))) = id from rfl,
        List.map_id]
      exact haddnd
    · intro a ha hb
      rw [List.map_map] at hb
      simp only [Function.comp, List.mem_map] at hb
      obtain ⟨e, he, rfl⟩ := hb
      rw [haddK, List.mem_filter] at he
      obtain ⟨v, hv⟩ := lookup_isSome_of_mem_keys ha
      rw [h1 e he.1 (by simpa using he.2)] at hv
      cases hv
  have hstep2 : removedK.foldl
      (fun acc e => removeEventListener acc e (objGetD cur e ⟨0, none⟩))
      (m ++ addedK.map fun e => (e, objGetD next e ⟨0, none⟩)) =
      (m.filter fun p => decide (p.1 ∉ removedK)) ++
        addedK.map fun e => (e, objGetD next e ⟨0, none⟩) := by
    rw [foldl_removeEventListener _ removedK _ hremnd hm1nd fun x hx => ?_]
    · rw [List.filter_append]
      have : (addedK.map fun e => (e, objGetD next e ⟨0, none⟩)).filter
          (fun p => decide (p.1 ∉ removedK)) =
          addedK.map fun e => (e, objGetD next e ⟨0, none⟩) := by
        refine List.filter_eq_self.mpr fun p hp => ?_
        obtain ⟨e, he, rfl⟩ := List.mem_map.mp hp
        simp only [decide_eq_true_eq]
        intro hmem
        rw [hremK, List.mem_filter] at hmem
        rw [haddK, List.mem_filter] at he
        rw [bnot_contains_false hmem.1] at he
        exact Bool.false_ne_true he.2
      rw [this]
    · rw [hremK, List.mem_filter] at hx
      have hxc : x ∈ cur.map Prod.fst := hx.1
      have hxn : x ∉ next.map Prod.fst := by
        intro hmem
        rw [bnot_contains_false hmem] at hx
        exact Bool.false_ne_true hx.2
      rw [lookup_append_left (List.mem_map.mpr
        ⟨(x, objGetD cur x ⟨0, none⟩), mem_of_lookup_eq_some (h2r x hxc hxn), rfl⟩)]
      exact h2r x hxc hxn
  rw [hstep2]
  -- step 3: the replace segment filters out the changed entries and appends
  have hm2nd : (((m.filter fun p => decide (p.1 ∉ removedK)) ++
      addedK.map fun e => (e, objGetD next e ⟨0, none⟩)).map Prod.fst).Nodup := by
    rw [List.map_append]
    refine List.Nodup.append ((List.Sublist.map _ (List.filter_sublist m)).nodup hmnd) ?_ ?_
    · rw [List.map_map,
        show (Prod.fst ∘ fun e => (e, objGetD next e (⟨0, none⟩ : Listener))) = id from rfl,
        List.map_id]
      exact haddnd
    · intro a ha hb
      rw [List.map_map] at hb
      simp only [Function.comp, List.mem_map] at hb
      obtain ⟨e, he, rfl⟩ := hb
      have ha' : e ∈ m.map Prod.fst :=
        (List.Sublist.map Prod.fst (List.filter_sublist m)).mem ha
      rw [haddK, List.mem_filter] at he
      obtain ⟨v, hv⟩ := lookup_isSome_of_mem_keys ha'
      rw [h1 e he.1 (by simpa using he.2)] at hv
      cases hv
  rw [foldl_replaceListener _ _ changedK _ hchgnd hm2nd fun x hx => ?_]
  · rw [List.filter_append]
    have hadded : (addedK.map fun e => (e, objGetD next e ⟨0, none⟩)).filter
        (fun p => decide (p.1 ∉ changedK)) =
        addedK.map fun e => (e, objGetD next e ⟨0, none⟩) := by
      refine List.filter_eq_self.mpr fun p hp => ?_
      obtain ⟨e, he, rfl⟩ := List.mem_map.mp hp
      simp only [decide_eq_true_eq]
      intro hmem
      rw [hchgK, List.mem_filter] at hmem
      rw [haddK, List.mem_filter] at he
      rw [bnot_contains_false hmem.1] at he
      exact Bool.false_ne_true he.2
    rw [hadded, List.filter_filter]
    congr 1
    congr 1
    refine List.filter_congr fun p _ => ?_
    rw [Bool.and_comm]
  · have hxch : listenerChanged (objGetD cur x ⟨0, none⟩) (objGetD next x ⟨0, none⟩) = true := by
      rw [hchgK, List.mem_filter] at hx
      rw [Bool.and_eq_true] at hx
      exact hx.2.2
    have hxc : x ∈ cur.map Prod.fst := by
      rw [hchgK, List.mem_filter] at hx
      exact hx.1
    have hxnr : x ∉ removedK := by
      rw [hremK, List.mem_filter]
      rintro ⟨-, hc⟩
      rw [hchgK, List.mem_filter] at hx
      rw [Bool.and_eq_true] at hx
      rw [hx.2.1] at hc
      simp at hc
    rw [lookup_append_left, lookup_filter_key (fun s => decide (s ∉ removedK)) m x]
    · rw [if_pos (by simpa using hxnr)]
      exact h2c x hxc hxch
    · refine List.mem_map.mpr ?_
      have hlk : List.lookup x (m.filter fun p => decide (p.1 ∉ removedK)) =
          some (objGetD cur x ⟨0, none⟩) := by
        rw [lookup_filter_key (fun s => decide (s ∉ removedK)) m x,
          if_pos (by simpa using hxnr)]
        exact h2c x hxc hxch
      exact ⟨(x, objGetD cur x ⟨0, none⟩), mem_of_lookup_eq_some hlk, rfl⟩

end ListenerPassLemmas3
section ListenerPassLemmas4

theorem not_mem_keys_of_lookup_eq_none {V : Type _} {m : List (String × V)}
    {k : String} (h : List.lookup k m = none) : k ∉ m.map Prod.fst := by
  intro hmem
  obtain ⟨v, hv⟩ := lookup_isSome_of_mem_keys hmem
  rw [h] at hv
  cases hv

theorem lookup_append_of_none {V : Type _} {a b : List (String × V)} {k : String}
    (h : List.lookup k a = none) :
    List.lookup k (a ++ b) = List.lookup k b :=
  lookup_append_right (not_mem_keys_of_lookup_eq_none h)

theorem lookup_append_of_some {V : Type _} {a b : List (String × V)} {k : String}
    {v : V} (h : List.lookup k a = some v) :
    List.lookup k (a ++ b) = some v := by
  rw [lookup_append_left
    (List.mem_map.mpr ⟨(k, v), mem_of_lookup_eq_some h, rfl⟩)]
  exact h

/-- The `changed` test of `listenerPatches` is symmetric in the two listener
entries. -/
theorem listenerChanged_symm (a b : Listener) :
    listenerChanged a b = listenerChanged b a := by
  unfold listenerChanged
  rw [show (decide (a ≠ b)) = (decide (b ≠ a)) from decide_eq_decide.mpr ne_comm,
    show (decide (a.source ≠ b.source)) = (decide (b.source ≠ a.source)) from
      decide_eq_decide.mpr ne_comm,
    Bool.and_comm (decide (a.source = none))]

/-- Per-event effect of one listener pass: events of `next` end registered at
`next`'s entry unless unchanged, events only in `cur` end unregistered, all
other events keep their registration. -/
theorem listenerPass_lookup (cur next m : List (String × Listener))
    (hcurnd : (cur.map Prod.fst).Nodup) (hnextnd : (next.map Prod.fst).Nodup)
    (hmnd : (m.map Prod.fst).Nodup)
    (h1 : ∀ x ∈ next.map Prod.fst, x ∉ cur.map Prod.fst → List.lookup x m = none)
    (h2r : ∀ x ∈ cur.map Prod.fst, x ∉ next.map Prod.fst →
      List.lookup x m = some (objGetD cur x ⟨0, none⟩))
    (h2c : ∀ x ∈ cur.map Prod.fst,
      listenerChanged (objGetD cur x ⟨0, none⟩) (objGetD next x ⟨0, none⟩) = true →
      List.lookup x m = some (objGetD cur x ⟨0, none⟩)) (k : String) :
    List.lookup k (listenerPass cur next m) =
      if k ∈ next.map Prod.fst then
        if k ∈ cur.map Prod.fst then
          (if listenerChanged (objGetD cur k ⟨0, none⟩) (objGetD next k ⟨0, none⟩) then
            some (objGetD next k ⟨0, none⟩)
          else List.lookup k m)
        else some (objGetD next k ⟨0, none⟩)
      else if k ∈ cur.map Prod.fst then none
      else List.lookup k m := by
  rw [listenerPass_eq cur next m hcurnd hnextnd hmnd h1 h2r h2c]
  set remP := (cur.map Prod.fst).filter fun e => !(next.map Prod.fst).contains e with hremP
  set chgP := (cur.map Prod.fst).filter fun e =>
    (next.map Prod.fst).contains e &&
      listenerChanged (objGetD cur e ⟨0, none⟩) (objGetD next e ⟨0, none⟩) with hchgP
  set addP := (next.map Prod.fst).filter fun e => !(cur.map Prod.fst).contains e with haddP
  by_cases hn : k ∈ next.map Prod.fst <;> by_cases hc : k ∈ cur.map Prod.fst
  · rw [if_pos hn, if_pos hc]
    by_cases hch : listenerChanged (objGetD cur k ⟨0, none⟩) (objGetD next k ⟨0, none⟩)
    · rw [if_pos hch]
      have hkchg : k ∈ chgP := by
        rw [hchgP, List.mem_filter]
        exact ⟨hc, by rw [contains_true_of_mem hn, hch]; rfl⟩
      have hp1 : List.lookup k ((m.filter fun p =>
          decide (p.1 ∉ remP) && decide (p.1 ∉ chgP))) = none := by
        rw [lookup_filter_key (fun s => decide (s ∉ remP) && decide (s ∉ chgP)) m k]
        rw [if_neg]
        rw [Bool.and_eq_true]
        rintro ⟨-, hkc⟩
        rw [decide_eq_true_eq] at hkc
        exact hkc hkchg
      have hknadd : k ∉ addP := by
        rw [haddP, List.mem_filter, bnot_contains_false hc]
        rintro ⟨-, h⟩
        exact Bool.false_ne_true h
      have hp2 : List.lookup k (addP.map fun e => (e, objGetD next e ⟨0, none⟩)) = none := by
        rw [lookup_map_pair, if_neg hknadd]
      rw [lookup_append_of_none (by rw [lookup_append_of_none hp1, hp2]),
        lookup_map_pair, if_pos hkchg]
    · rw [if_neg hch]
      have hknr : k ∉ remP := by
        rw [hremP, List.mem_filter, bnot_contains_false hn]
        rintro ⟨-, h⟩
        exact Bool.false_ne_true h
      have hknc : k ∉ chgP := by
        rw [hchgP, List.mem_filter]
        rintro ⟨-, h⟩
        rw [Bool.and_eq_true] at h
        exact hch h.2
      have hp1 : List.lookup k ((m.filter fun p =>
          decide (p.1 ∉ remP) && decide (p.1 ∉ chgP))) = List.lookup k m := by
        rw [lookup_filter_key (fun s => decide (s ∉ remP) && decide (s ∉ chgP)) m k,
          if_pos (by simp [hknr, hknc])]
      cases hlm : List.lookup k m with
      | some v =>
        rw [lookup_append_of_some (lookup_append_of_some (hp1.trans hlm))]
      | none =>
        have hknadd : k ∉ addP := by
          rw [haddP, List.mem_filter, bnot_contains_false hc]
          rintro ⟨-, h⟩
          exact Bool.false_ne_true h
        rw [lookup_append_of_none (by
            rw [lookup_append_of_none (hp1.trans hlm), lookup_map_pair, if_neg hknadd]),
          lookup_map_pair, if_neg hknc]
  · rw [if_pos hn, if_neg hc]
    have hkadd : k ∈ addP := by
      rw [haddP, List.mem_filter]
      exact ⟨hn, bnot_contains_true hc⟩
    have hkm : List.lookup k m = none := h1 k hn hc
    have hp1 : List.lookup k ((m.filter fun p =>
        decide (p.1 ∉ remP) && decide (p.1 ∉ chgP))) = none := by
      rw [lookup_filter_key (fun s => decide (s ∉ remP) && decide (s ∉ chgP)) m k]
      by_cases h : (decide (k ∉ remP) && decide (k ∉ chgP)) = true
      · rw [if_pos h, hkm]
      · rw [if_neg h]
    rw [lookup_append_of_some (b := chgP.map fun e => (e, objGetD next e ⟨0, none⟩))
      (by rw [lookup_append_of_none hp1, lookup_map_pair, if_pos hkadd])]
  · rw [if_neg hn, if_pos hc]
    have hkrem : k ∈ remP := by
      rw [hremP, List.mem_filter]
      exact ⟨hc, bnot_contains_true hn⟩
    have hp1 : List.lookup k ((m.filter fun p =>
        decide (p.1 ∉ remP) && decide (p.1 ∉ chgP))) = none := by
      rw [lookup_filter_key (fun s => decide (s ∉ remP) && decide (s ∉ chgP)) m k]
      rw [if_neg]
      rw [Bool.and_eq_true]
      rintro ⟨hkr, -⟩
      rw [decide_eq_true_eq] at hkr
      exact hkr hkrem
    have hknadd : k ∉ addP := by
      rw [haddP, List.mem_filter, bnot_contains_false hc]
      rintro ⟨-, h⟩
      exact Bool.false_ne_true h
    have hknchg : k ∉ chgP := by
      rw [hchgP, List.mem_filter]
      rintro ⟨-, h⟩
      rw [Bool.and_eq_true] at h
      exact hn (List.mem_of_elem_eq_true h.1)
    rw [lookup_append_of_none (by
        rw [lookup_append_of_none hp1, lookup_map_pair, if_neg hknadd]),
      lookup_map_pair, if_neg hknchg]
  · rw [if_neg hn, if_neg hc]
    have hknr : k ∉ remP := fun h => hc (List.mem_of_mem_filter h)
    have hknc : k ∉ chgP := fun h => hc (List.mem_of_mem_filter h)
    have hknadd : k ∉ addP := fun h => hn (List.mem_of_mem_filter h)
    have hp1 : List.lookup k ((m.filter fun p =>
        decide (p.1 ∉ remP) && decide (p.1 ∉ chgP))) = List.lookup k m := by
      rw [lookup_filter_key (fun s => decide (s ∉ remP) && decide (s ∉ chgP)) m k,
        if_pos (by simp [hknr, hknc])]
    cases hlm : List.lookup k m with
    | some v =>
      rw [lookup_append_of_some (lookup_append_of_some (hp1.trans hlm))]
    | none =>
      rw [lookup_append_of_none (by
          rw [lookup_append_of_none (hp1.trans hlm), lookup_map_pair, if_neg hknadd]),
        lookup_map_pair, if_neg hknc]

end ListenerPassLemmas4
section ListenerPassLemmas5

/-- One listener pass keeps the registry free of duplicate events. -/
theorem listenerPass_keys_nodup (cur next m : List (String × Listener))
    (hcurnd : (cur.map Prod.fst).Nodup) (hnextnd : (next.map Prod.fst).Nodup)
    (hmnd : (m.map Prod.fst).Nodup)
    (h1 : ∀ x ∈ next.map Prod.fst, x ∉ cur.map Prod.fst → List.lookup x m = none)
    (h2r : ∀ x ∈ cur.map Prod.fst, x ∉ next.map Prod.fst →
      List.lookup x m = some (objGetD cur x ⟨0, none⟩))
    (h2c : ∀ x ∈ cur.map Prod.fst,
      listenerChanged (objGetD cur x ⟨0, none⟩) (objGetD next x ⟨0, none⟩) = true →
      List.lookup x m = some (objGetD cur x ⟨0, none⟩)) :
    ((listenerPass cur next m).map Prod.fst).Nodup := by
  rw [listenerPass_eq cur next m hcurnd hnextnd hmnd h1 h2r h2c]
  set remP := (cur.map Prod.fst).filter fun e => !(next.map Prod.fst).contains e
  set chgP := (cur.map Prod.fst).filter fun e =>
    (next.map Prod.fst).contains e &&
      listenerChanged (objGetD cur e ⟨0, none⟩) (objGetD next e ⟨0, none⟩) with hchgP
  set addP := (next.map Prod.fst).filter fun e => !(cur.map Prod.fst).contains e with haddP
  have hid1 : ∀ l : List String,
      (l.map fun e => (e, objGetD next e (⟨0, none⟩ : Listener))).map Prod.fst = l := by
    intro l
    rw [List.map_map,
      show (Prod.fst ∘ fun e => (e, objGetD next e (⟨0, none⟩ : Listener))) = id from rfl,
      List.map_id]
  have hfkeys : ((m.filter fun p =>
      decide (p.1 ∉ remP) && decide (p.1 ∉ chgP)).map Prod.fst).Sublist (m.map Prod.fst) :=
    (List.filter_sublist m).map Prod.fst
  rw [List.map_append, List.map_append, hid1 addP, hid1 chgP]
  refine List.Nodup.append (List.Nodup.append (hfkeys.nodup hmnd)
    (List.Nodup.filter _ hnextnd) ?_) (List.Nodup.filter _ hcurnd) ?_
  · intro a ha hb
    have ham : a ∈ m.map Prod.fst := hfkeys.mem ha
    rw [haddP, List.mem_filter] at hb
    obtain ⟨v, hv⟩ := lookup_isSome_of_mem_keys ham
    rw [h1 a hb.1 (by simpa using hb.2)] at hv
    cases hv
  · intro a ha hb
    rw [List.mem_append] at ha
    rcases ha with ha | ha
    · obtain ⟨p, hp, hpk⟩ := List.mem_map.mp ha
      have := List.of_mem_filter hp
      rw [Bool.and_eq_true] at this
      have h2 := this.2
      rw [decide_eq_true_eq, hpk] at h2
      exact h2 hb
    · rw [haddP, List.mem_filter] at ha
      have hbc : a ∈ cur.map Prod.fst := List.mem_of_mem_filter hb
      rw [bnot_contains_false hbc] at ha
      exact Bool.false_ne_true ha.2

/-- Two listener passes — forward then backward — restore a registry that
started pointwise equal to the current description's listener map. -/
theorem listenerPass_round_trip (cur next m : List (String × Listener))
    (hcurnd : (cur.map Prod.fst).Nodup) (hnextnd : (next.map Prod.fst).Nodup)
    (hmnd : (m.map Prod.fst).Nodup)
    (hm : ∀ k, List.lookup k m = List.lookup k cur) (k : String) :
    List.lookup k (listenerPass next cur (listenerPass cur next m)) =
      List.lookup k cur := by
  have h1 : ∀ x ∈ next.map Prod.fst, x ∉ cur.map Prod.fst → List.lookup x m = none :=
    fun x _ hxc => (hm x).trans (lookup_eq_none_of_not_mem_keys hxc)
  have h2r : ∀ x ∈ cur.map Prod.fst, x ∉ next.map Prod.fst →
      List.lookup x m = some (objGetD cur x ⟨0, none⟩) :=
    fun x hx _ => (hm x).trans (lookup_eq_getD_of_mem_keys hx _)
  have h2c : ∀ x ∈ cur.map Prod.fst,
      listenerChanged (objGetD cur x ⟨0, none⟩) (objGetD next x ⟨0, none⟩) = true →
      List.lookup x m = some (objGetD cur x ⟨0, none⟩) :=
    fun x hx _ => (hm x).trans (lookup_eq_getD_of_mem_keys hx _)
  have hlk := listenerPass_lookup cur next m hcurnd hnextnd hmnd h1 h2r h2c
  have hm1nd := listenerPass_keys_nodup cur next m hcurnd hnextnd hmnd h1 h2r h2c
  set m1 := listenerPass cur next m with hm1
  have h1' : ∀ x ∈ cur.map Prod.fst, x ∉ next.map Prod.fst → List.lookup x m1 = none := by
    intro x hx hxn
    rw [hlk x, if_neg hxn, if_pos hx]
  have h2r' : ∀ x ∈ next.map Prod.fst, x ∉ cur.map Prod.fst →
      List.lookup x m1 = some (objGetD next x ⟨0, none⟩) := by
    intro x hx hxc
    rw [hlk x, if_pos hx, if_neg hxc]
  have h2c' : ∀ x ∈ next.map Prod.fst,
      listenerChanged (objGetD next x ⟨0, none⟩) (objGetD cur x ⟨0, none⟩) = true →
      List.lookup x m1 = some (objGetD next x ⟨0, none⟩) := by
    intro x hx hch
    rw [listenerChanged_symm] at hch
    by_cases hxc : x ∈ cur.map Prod.fst
    · rw [hlk x, if_pos hx, if_pos hxc, if_pos hch]
    · rw [hlk x, if_pos hx, if_neg hxc]
  rw [listenerPass_lookup next cur m1 hnextnd hcurnd hm1nd h1' h2r' h2c' k]
  by_cases hn : k ∈ next.map Prod.fst <;> by_cases hc : k ∈ cur.map Prod.fst
  · rw [if_pos hc, if_pos hn,
      listenerChanged_symm (objGetD next k ⟨0, none⟩) (objGetD cur k ⟨0, none⟩)]
    by_cases hch : listenerChanged (objGetD cur k ⟨0, none⟩) (objGetD next k ⟨0, none⟩)
    · rw [if_pos hch]
      exact (lookup_eq_getD_of_mem_keys hc _).symm
    · rw [if_neg hch, hlk k, if_pos hn, if_pos hc, if_neg hch]
      exact hm k
  · rw [if_neg hc, if_pos hn]
    exact (lookup_eq_none_of_not_mem_keys hc).symm
  · rw [if_pos hc, if_neg hn]
    exact (lookup_eq_getD_of_mem_keys hc _).symm
  · rw [if_neg hc, if_neg hn, hlk k, if_neg hn, if_neg hc]
    exact hm k

end ListenerPassLemmas5
section BackingLift

/-- Mapping a style action to its emitted patch. -/
def styleOpPatch : MapOp String → DomPatch
  | .set k v => DomPatch.setStyleProperty k v
  | .del k => DomPatch.removeStyleProperty k

/-- Mapping an attribute action to its emitted patch. -/
def attrOpPatch (isCustom : Bool) : MapOp String → DomPatch
  | .set k v => DomPatch.setAttribute k v isCustom
  | .del k => DomPatch.removeAttribute k isCustom

/-- Mapping a dataset action to its emitted patch. -/
def datasetOpPatch : MapOp String → DomPatch
  | .set k v => DomPatch.setDataAttribute k v
  | .del k => DomPatch.removeDataAttribute k

/-- Mapping a property action to its emitted patch. -/
def propertyOpPatch : MapOp Value → DomPatch
  | .set k v => DomPatch.setProperty k v
  | .del k => DomPatch.deleteProperty k

theorem stylePatches_eq_ops (cur next : List (String × String)) :
    stylePatches cur next =
      (objDiffOps (fun a b => decide (a ≠ b)) "" cur next).map styleOpPatch := by
  unfold stylePatches objDiffOps
  rw [List.map_append, List.map_append, List.map_map, List.map_map, List.map_map]
  rfl

theorem attributePatches_eq_ops (cur next : List (String × String)) (ic : Bool) :
    attributePatches cur next ic =
      (objDiffOps (fun a b => decide (a ≠ b)) "" cur next).map (attrOpPatch ic) := by
  unfold attributePatches objDiffOps
  rw [List.map_append, List.map_append, List.map_map, List.map_map, List.map_map]
  rfl

theorem datasetPatches_eq_ops (cur next : List (String × String)) :
    datasetPatches cur next =
      (objDiffOps (fun a b => decide (a ≠ b)) "" cur next).map datasetOpPatch := by
  unfold datasetPatches objDiffOps
  rw [List.map_append, List.map_append, List.map_map, List.map_map, List.map_map]
  rfl

theorem propertiesPatches_eq_ops (cur next : List (String × Value)) :
    propertiesPatches cur next =
      (objDiffOps (fun a b => !deepEqual a b) Value.vNull cur next).map propertyOpPatch := by
  unfold propertiesPatches objDiffOps
  rw [List.map_append, List.map_append, List.map_map, List.map_map, List.map_map]
  rfl

theorem foldl_style_ops (ops : List (MapOp String)) :
    ∀ b : Backing, (ops.map styleOpPatch).foldl applyDomPatch b =
      { b with style := ops.foldl applyMapOp b.style } := by
  induction ops with
  | nil => intro b; rfl
  | cons op rest ih =>
    intro b
    cases op <;> rw [List.map_cons, List.foldl_cons, List.foldl_cons, ih _] <;> rfl

theorem foldl_attr_ops (ic : Bool) (ops : List (MapOp String)) :
    ∀ b : Backing, (ops.map (attrOpPatch ic)).foldl applyDomPatch b =
      { b with attrs := ops.foldl applyMapOp b.attrs } := by
  induction ops with
  | nil => intro b; rfl
  | cons op rest ih =>
    intro b
    cases op <;> rw [List.map_cons, List.foldl_cons, List.foldl_cons, ih _] <;> rfl

theorem foldl_dataset_ops (ops : List (MapOp String)) :
    ∀ b : Backing, (ops.map datasetOpPatch).foldl applyDomPatch b =
      { b with dataset := ops.foldl applyMapOp b.dataset } := by
  induction ops with
  | nil => intro b; rfl
  | cons op rest ih =>
    intro b
    cases op <;> rw [List.map_cons, List.foldl_cons, List.foldl_cons, ih _] <;> rfl

theorem foldl_property_ops (ops : List (MapOp Value)) :
    ∀ b : Backing, (ops.map propertyOpPatch).foldl applyDomPatch b =
      { b with properties := ops.foldl applyMapOp b.properties } := by
  induction ops with
  | nil => intro b; rfl
  | cons op rest ih =>
    intro b
    cases op <;> rw [List.map_cons, List.foldl_cons, List.foldl_cons, ih _] <;> rfl

theorem foldl_classNamePatches (cur next : String) (b : Backing) :
    (classNamePatches cur next).foldl applyDomPatch b =
      { b with className := if cur ≠ next then next else b.className } := by
  unfold classNamePatches
  by_cases h : cur ≠ next
  · rw [if_pos h, if_pos h]
    rfl
  · rw [if_neg h, if_neg h]
    rfl

theorem foldl_add_listener_patches (f : String → Listener) (ic : Bool)
    (ks : List String) :
    ∀ b : Backing,
      ((ks.map fun e => DomPatch.addListener e (f e) ic).foldl applyDomPatch b) =
        { b with listeners := ks.foldl (fun acc e => addEventListener acc e (f e)) b.listeners } := by
  induction ks with
  | nil => intro b; rfl
  | cons x rest ih =>
    intro b
    rw [List.map_cons, List.foldl_cons, List.foldl_cons, ih _]
    rfl

theorem foldl_remove_listener_patches (g : String → Listener) (ic : Bool)
    (ks : List String) :
    ∀ b : Backing,
      ((ks.map fun e => DomPatch.removeListener e (g e) ic).foldl applyDomPatch b) =
        { b with listeners :=
          ks.foldl (fun acc e => removeEventListener acc e (g e)) b.listeners } := by
  induction ks with
  | nil => intro b; rfl
  | cons x rest ih =>
    intro b
    rw [List.map_cons, List.foldl_cons, List.foldl_cons, ih _]
    rfl

theorem foldl_replace_listener_patches (g f : String → Listener) (ic : Bool)
    (ks : List String) :
    ∀ b : Backing,
      ((ks.map fun e => DomPatch.replaceListener e (g e) (f e) ic).foldl applyDomPatch b) =
        { b with listeners :=
          ks.foldl (fun acc e =>
            addEventListener (removeEventListener acc e (g e)) e (f e)) b.listeners } := by
  induction ks with
  | nil => intro b; rfl
  | cons x rest ih =>
    intro b
    rw [List.map_cons, List.foldl_cons, List.foldl_cons, ih _]
    rfl

theorem foldl_listenerDomPatches (cur next : List (String × Listener)) (ic : Bool)
    (b : Backing) :
    (listenerDomPatches cur next ic).foldl applyDomPatch b =
      { b with listeners := listenerPass cur next b.listeners } := by
  unfold listenerDomPatches listenerPass
  dsimp only
  rw [List.foldl_append, List.foldl_append,
    foldl_add_listener_patches (fun e => objGetD next e ⟨0, none⟩) ic _ b,
    foldl_remove_listener_patches (fun e => objGetD cur e ⟨0, none⟩) ic _ _,
    foldl_replace_listener_patches (fun e => objGetD cur e ⟨0, none⟩)
      (fun e => objGetD next e ⟨0, none⟩) ic _ _]

end BackingLift

section CreateBackingLemmas
variable {V : Type _}

theorem objSet_append_of_not_mem {m : List (String × V)} {k : String} (v : V)
    (h : k ∉ m.map Prod.fst) : objSet m k v = m ++ [(k, v)] := by
  unfold objSet
  rw [if_neg]
  intro hc
  exact h (by simpa using hc)

/-- Writing a duplicate-free batch of fresh properties onto a map object
appends the batch. -/
theorem foldl_objSet_fresh :
    ∀ (l m : List (String × V)), (l.map Prod.fst).Nodup →
      (∀ x ∈ l.map Prod.fst, x ∉ m.map Prod.fst) →
      l.foldl (fun m p => objSet m p.1 p.2) m = m ++ l
  | [], m, _, _ => by simp
  | p :: rest, m, hnd, hfresh => by
    rcases p with ⟨k, v⟩
    rw [List.foldl_cons]
    rw [objSet_append_of_not_mem v (hfresh k (by simp))]
    rw [foldl_objSet_fresh rest (m ++ [(k, v)]) (List.nodup_cons.mp (by simpa using hnd)).2
      (fun x hx => ?_)]
    · simp
    · rw [List.map_append]
      simp only [List.map_cons, List.map_nil, List.mem_append, List.mem_singleton]
      rintro (hxm | hxk)
      · exact hfresh x (by simp [hx]) hxm
      · rw [hxk] at hx
        exact (List.nodup_cons.mp (by simpa using hnd)).1 hx

/-- Registering a duplicate-free batch of fresh listener pairs appends the
batch. -/
theorem foldl_addEventListener_pairs :
    ∀ (l m : List (String × Listener)), (l.map Prod.fst).Nodup →
      (∀ x ∈ l.map Prod.fst, List.lookup x m = none) →
      l.foldl (fun m p => addEventListener m p.1 p.2) m = m ++ l
  | [], m, _, _ => by simp
  | p :: rest, m, hnd, hfresh => by
    rcases p with ⟨k, v⟩
    rw [List.foldl_cons, addEventListener_of_lookup_none v (hfresh k (by simp))]
    rw [foldl_addEventListener_pairs rest (m ++ [(k, v)])
      (List.nodup_cons.mp (by simpa using hnd)).2 (fun x hx => ?_)]
    · simp
    · have hxk : x ≠ k := by
        intro he
        rw [he] at hx
        exact (List.nodup_cons.mp (by simpa using hnd)).1 hx
      rw [lookup_append_of_none (hfresh x (by simp [hx])), lookup_cons_ne v _ hxk]
      rfl

/-- `Renderer.createElement` on a custom-free wellformed description builds
exactly the description's own maps: each category's fold over a blank object
reproduces the entry list. -/
theorem createBacking_eq (d : Desc) (hc : d.custom = none)
    (hs : (d.style.map Prod.fst).Nodup) (ha : (d.attrs.map Prod.fst).Nodup)
    (hd : (d.dataset.map Prod.fst).Nodup) (hp : (d.properties.map Prod.fst).Nodup)
    (hl : (d.listeners.map Prod.fst).Nodup) :
    createBacking d =
      { className := d.className.getD ""
        style := d.style
        attrs := d.attrs
        dataset := d.dataset
        properties := d.properties
        listeners := d.listeners
        text := d.text.getD "" } := by
  unfold createBacking
  rw [hc]
  simp only [Option.map_none', Option.getD_none, List.foldl_nil]
  rw [foldl_objSet_fresh d.style [] hs (by simp),
    foldl_objSet_fresh d.attrs [] ha (by simp),
    foldl_objSet_fresh d.dataset [] hd (by simp),
    foldl_objSet_fresh d.properties [] hp (by simp),
    foldl_addEventListener_pairs d.listeners [] hl (by simp)]
  rfl

end CreateBackingLemmas

section CategoryMaster

/-- The whole backing-level patch pass of `elementPatches` between two
custom-free descriptions, as a single field-by-field record update: each
category's added/removed/changed plan folds onto its own DOM store and the
text is untouched. -/
theorem foldl_categoryPatches (cur nxt : Desc) (hcc : cur.custom = none)
    (hnc : nxt.custom = none) (b : Backing) :
    (categoryPatches cur nxt).foldl applyDomPatch b =
      { className :=
          if cur.className.getD "" ≠ nxt.className.getD "" then nxt.className.getD ""
          else b.className
        style := (objDiffOps (fun a b => decide (a ≠ b)) "" cur.style nxt.style).foldl
          applyMapOp b.style
        attrs := (objDiffOps (fun a b => decide (a ≠ b)) "" cur.attrs nxt.attrs).foldl
          applyMapOp b.attrs
        dataset := (objDiffOps (fun a b => decide (a ≠ b)) "" cur.dataset nxt.dataset).foldl
          applyMapOp b.dataset
        properties := (objDiffOps (fun a b => !deepEqual a b) Value.vNull
          cur.properties nxt.properties).foldl applyMapOp b.properties
        listeners := listenerPass cur.listeners nxt.listeners b.listeners
        text := b.text } := by
  unfold categoryPatches
  rw [hcc, hnc]
  simp only [Option.isSome_none, Bool.or_self, Bool.false_eq_true, if_false,
    List.append_nil]
  rw [List.foldl_append, List.foldl_append, List.foldl_append, List.foldl_append,
    List.foldl_append]
  rw [foldl_classNamePatches,
    stylePatches_eq_ops, foldl_style_ops,
    attributePatches_eq_ops, foldl_attr_ops,
    foldl_listenerDomPatches,
    datasetPatches_eq_ops, foldl_dataset_ops,
    propertiesPatches_eq_ops, foldl_property_ops]

/-- The net effect of the text patches of one `elementPatches` call (the
`removeTextContent` guard plus the `setTextContent` tail) on a backing. -/
theorem foldl_textPatches (curText nxtText : Option String) (b : Backing) :
    ((match nxtText with
      | some t => if curText ≠ some t then [DomPatch.setTextContent t] else []
      | none => ([] : List DomPatch)).foldl applyDomPatch
     ((if curText.isSome ∧ nxtText = none then [DomPatch.removeTextContent]
       else []).foldl applyDomPatch b)) =
      { b with text :=
          match nxtText with
          | some t => if curText = some t then b.text else t
          | none => if curText.isSome then "" else b.text } := by
  cases nxtText with
  | some t =>
    rw [if_neg (by simp)]
    dsimp only
    by_cases hct : curText = some t
    · rw [if_neg (by simpa using hct), if_pos hct]
      rfl
    · rw [if_pos (by simpa using hct), if_neg hct]
      rfl
  | none =>
    dsimp only
    by_cases hcs : curText.isSome
    · rw [if_pos ⟨hcs, rfl⟩, if_pos hcs]
      rfl
    · rw [if_neg (by simp [hcs]), if_neg hcs]
      rfl

end CategoryMaster

section EqualityLemmas

/-- The object branch of `deepEqual` is reflexive whenever the value test is. -/
theorem objEqBy_refl {V : Type _} (eq : V → V → Bool) (default : V)
    (hrefl : ∀ v, eq v v = true) (fl : List (String × V)) :
    objEqBy eq default fl fl = true := by
  unfold objEqBy
  simp only [beq_self_eq_true, Bool.true_and]
  rw [List.all_eq_true]
  intro p hp
  obtain ⟨hpe, -⟩ := mem_zip_self hp
  rw [← hpe]
  simp only [beq_self_eq_true, Bool.true_and]
  exact hrefl _

/-- The object branch of `deepEqual` is symmetric whenever the value test is. -/
theorem objEqBy_symm {V : Type _} (eq : V → V → Bool) (default : V)
    (hsymm : ∀ a b, eq a b = eq b a) (fl gl : List (String × V)) :
    objEqBy eq default fl gl = objEqBy eq default gl fl := by
  unfold objEqBy
  by_cases hl : fl.length = gl.length
  · have h1 : (fl.length == gl.length) = true := by simpa using hl
    have h2 : (gl.length == fl.length) = true := by simpa using hl.symm
    rw [h1, h2, Bool.true_and, Bool.true_and]
    conv_rhs => rw [← List.zip_swap, List.all_map]
    rw [Bool.eq_iff_iff, List.all_eq_true, List.all_eq_true]
    constructor
    · intro h p hp
      have h' := h p hp
      rw [Bool.and_eq_true] at h'
      simp only [Function.comp_apply, Prod.fst_swap, Prod.snd_swap, Bool.and_eq_true]
      exact ⟨by rw [beqComm]; exact h'.1, by rw [hsymm]; exact h'.2⟩
    · intro h p hp
      have h' := h p hp
      simp only [Function.comp_apply, Prod.fst_swap, Prod.snd_swap,
        Bool.and_eq_true] at h'
      rw [Bool.and_eq_true]
      exact ⟨by rw [beqComm]; exact h'.1, by rw [hsymm]; exact h'.2⟩
  · have h1 : (fl.length == gl.length) = false := by simpa using hl
    have h2 : (gl.length == fl.length) = false := by simpa using fun e => hl e.symm
    rw [h1, h2, Bool.false_and, Bool.false_and]

/-- `deepEqual` on the custom block is reflexive. -/
theorem customEqual_refl : ∀ c : Option CustomBlock, customEqual c c = true
  | none => rfl
  | some c => by
    simp only [customEqual]
    rw [objEqBy_refl _ _ (fun v => beq_self_eq_true v) c.attrs,
      objEqBy_refl _ _ (fun v => beq_self_eq_true v) c.listeners]
    rfl

/-- `deepEqual` on the custom block is symmetric. -/
theorem customEqual_symm : ∀ c c' : Option CustomBlock,
    customEqual c c' = customEqual c' c
  | none, none => rfl
  | some _, none => rfl
  | none, some _ => rfl
  | some c, some c' => by
    simp only [customEqual]
    rw [objEqBy_symm _ _ (fun a b => beqComm a b) c.attrs c'.attrs,
      objEqBy_symm _ _ (fun a b => beqComm a b) c.listeners c'.listeners]

mutual
/-- `Diff.deepEqual` on element descriptions is reflexive. -/
theorem descEqual_refl : ∀ d : Desc, descEqual d d = true
  | .mk k n c s a ds pr ls cu tx ch => by
    simp only [descEqual, beq_self_eq_true, Bool.true_and]
    rw [objEqBy_refl _ _ (fun v => beq_self_eq_true v) s,
      objEqBy_refl _ _ (fun v => beq_self_eq_true v) a,
      objEqBy_refl _ _ (fun v => beq_self_eq_true v) ds,
      objEqBy_refl _ _ deepEqual_refl pr,
      objEqBy_refl _ _ (fun v => beq_self_eq_true v) ls,
      customEqual_refl cu, descChildrenEqual_refl ch]
    rfl
theorem descChildrenEqual_refl : ∀ c : DescChildren, descChildrenEqual c c = true
  | .noChildren => rfl
  | .withChildren l => descListEqual_refl l
theorem descListEqual_refl : ∀ l : DescList, descListEqual l l = true
  | .nil => rfl
  | .cons d tl => by
    simp only [descListEqual]
    rw [descEqual_refl d, descListEqual_refl tl]
    rfl
end

mutual
/-- `Diff.deepEqual` on element descriptions is symmetric. -/
theorem descEqual_symm : ∀ a b : Desc, descEqual a b = descEqual b a
  | .mk k n c s a ds pr ls cu tx ch, .mk k' n' c' s' a' ds' pr' ls' cu' tx' ch' => by
    simp only [descEqual]
    rw [beqComm k k', beqComm n n', beqComm c c',
      objEqBy_symm _ _ (fun x y => beqComm x y) s s',
      objEqBy_symm _ _ (fun x y => beqComm x y) a a',
      objEqBy_symm _ _ (fun x y => beqComm x y) ds ds',
      objEqBy_symm _ _ deepEqual_symm pr pr',
      objEqBy_symm _ _ (fun x y => beqComm x y) ls ls',
      customEqual_symm cu cu', beqComm tx tx',
      descChildrenEqual_symm ch ch']
theorem descChildrenEqual_symm : ∀ c c' : DescChildren,
    descChildrenEqual c c' = descChildrenEqual c' c
  | .noChildren, .noChildren => rfl
  | .noChildren, .withChildren _ => rfl
  | .withChildren _, .noChildren => rfl
  | .withChildren l, .withChildren m => descListEqual_symm l m
theorem descListEqual_symm : ∀ l m : DescList, descListEqual l m = descListEqual m l
  | .nil, .nil => rfl
  | .nil, .cons _ _ => rfl
  | .cons _ _, .nil => rfl
  | .cons d tl, .cons d' tl' => by
    simp only [descListEqual]
    rw [descEqual_symm d d', descListEqual_symm tl tl']
end

/-- Pointwise lookup equality implies map-state equivalence. -/
theorem mapEqv_of_pointwise {V : Type _} [DecidableEq V] {m m' : List (String × V)}
    (h : ∀ k, List.lookup k m = List.lookup k m') : mapEqv m m' = true := by
  unfold mapEqv
  rw [List.all_eq_true]
  intro k _
  rw [h k]
  exact beq_self_eq_true _

/-- Map-state equivalence is reflexive. -/
theorem mapEqv_refl {V : Type _} [DecidableEq V] (m : List (String × V)) :
    mapEqv m m = true :=
  mapEqv_of_pointwise fun _ => rfl

/-- Backing equivalence is reflexive. -/
theorem backingEqv_refl (b : Backing) : backingEqv b b = true := by
  unfold backingEqv
  rw [mapEqv_refl, mapEqv_refl, mapEqv_refl, mapEqv_refl, mapEqv_refl]
  simp

mutual
/-- Virtual-element equivalence is reflexive. -/
theorem elemEqv_refl : ∀ e : Elem, elemEqv e e = true
  | .mk d b c => by
    simp only [elemEqv, beq_self_eq_true, Bool.true_and]
    rw [backingEqv_refl b, Bool.true_and]
    exact elemChildrenEqv_refl c
theorem elemChildrenEqv_refl : ∀ c : ElemChildren, elemChildrenEqv c c = true
  | .noChildren => rfl
  | .withChildren l => elemListEqv_refl l
theorem elemListEqv_refl : ∀ l : ElemList, elemListEqv l l = true
  | .nil => rfl
  | .cons e tl => by
    simp only [elemListEqv]
    rw [elemEqv_refl e, elemListEqv_refl tl]
    rfl
end

/-- Pointwise equivalent child lists are equivalent as element lists. -/
theorem elemListEqv_ofList {xs ys : List Elem}
    (h : List.Forall₂ (fun a b => elemEqv a b = true) xs ys) :
    elemListEqv (ElemList.ofList xs) (ElemList.ofList ys) = true := by
  induction h with
  | nil => rfl
  | cons hab _ ih =>
    simp only [ElemList.ofList, elemListEqv]
    rw [hab, ih]
    rfl

theorem ElemList.toList_ofList : ∀ xs : List Elem, (ElemList.ofList xs).toList = xs
  | [] => rfl
  | x :: tl => by
    simp only [ElemList.ofList, ElemList.toList]
    rw [ElemList.toList_ofList tl]

theorem createElem_description : ∀ d : Desc, (createElem d).description = d
  | .mk _ _ _ _ _ _ _ _ _ _ _ => rfl

theorem createElem_backing : ∀ d : Desc, (createElem d).backing = createBacking d
  | .mk _ _ _ _ _ _ _ _ _ _ _ => rfl

theorem createElem_children :
    ∀ d : Desc, (createElem d).children = createElemChildren d.children
  | .mk _ _ _ _ _ _ _ _ _ _ _ => rfl

theorem createElemList_toList :
    ∀ l : DescList, (createElemList l).toList = l.toList.map createElem
  | .nil => rfl
  | .cons d tl => by
    simp only [createElemList, ElemList.toList, DescList.toList, List.map_cons]
    rw [createElemList_toList tl]

end EqualityLemmas

section AssocGeneric
variable {K V : Type _} [BEq K] [LawfulBEq K]

theorem lookup_cons_self2 (k : K) (w : V) (rest : List (K × V)) :
    List.lookup k ((k, w) :: rest) = some w := by
  rw [List.lookup_cons]
  simp

theorem lookup_cons_ne2 {k k0 : K} (w : V) (rest : List (K × V)) (h : k ≠ k0) :
    List.lookup k ((k0, w) :: rest) = List.lookup k rest := by
  rw [List.lookup_cons, beq_eq_false_iff_ne.mpr h]

theorem lookup_map_pair2 (f : K → V) (ks : List K) (k : K) :
    List.lookup k (ks.map fun e => (e, f e)) =
      if k ∈ ks then some (f k) else none := by
  induction ks with
  | nil => simp
  | cons x rest ih =>
    by_cases hk : k = x
    · subst hk
      simp [lookup_cons_self2]
    · rw [List.map_cons, lookup_cons_ne2 _ _ hk, ih]
      by_cases hm : k ∈ rest <;> simp [hm, hk]

end AssocGeneric

section SpliceMap
variable {α β : Type _}

/-- `splice` commutes with `map` (it only inspects the length). -/
theorem jsSplice_map (f : α → β) (l : List α) (start : Int) (deleteCount : Nat)
    (items : List α) :
    jsSplice (l.map f) start deleteCount (items.map f) =
      (jsSplice l start deleteCount items).map f := by
  unfold jsSplice
  rw [List.length_map, List.map_append, List.map_append, List.map_take, List.map_drop]

theorem Move.make_insert_map (f : α → β) (k : α) (a : Nat) (l : List α) :
    (Move.insert (f k) a).make (l.map f) = ((Move.insert k a).make l).map f := by
  simp only [Move.make]
  rw [show [f k] = [k].map f from rfl, jsSplice_map]

theorem Move.make_remove_map (f : α → β) (k : α) (a : Nat) (l : List α) :
    (Move.remove (f k) a).make (l.map f) = ((Move.remove k a).make l).map f := by
  simp only [Move.make]
  rw [show ([] : List β) = ([] : List α).map f from rfl, jsSplice_map]

theorem Move.make_move_map (f : α → β) (k : α) (fr : Int) (t : Nat) (l : List α) :
    (Move.move (f k) fr t).make (l.map f) = ((Move.move k fr t).make l).map f := by
  simp only [Move.make]
  rw [show [f k] = [k].map f from rfl,
    show ([] : List β) = ([] : List α).map f from rfl, jsSplice_map, jsSplice_map]

end SpliceMap

section Positional
variable {α : Type _} [DecidableEq α]

theorem indexOf?_append_cons_self (u v : List α) (x : α) (hu : x ∉ u) :
    (u ++ x :: v).indexOf? x = some u.length := by
  induction u with
  | nil => simp [List.indexOf?_cons]
  | cons a u' ih =>
    have hax : (a == x) = false := by
      rw [beq_eq_false_iff_ne]
      intro he
      refine hu ?_
      rw [← he]
      exact List.mem_cons_self a u'
    rw [List.cons_append, List.indexOf?_cons, if_neg (by simp [hax]),
      ih fun h => hu (List.mem_cons_of_mem _ h)]
    simp

theorem jsIndexOf_append_cons_self (u v : List α) (x : α) (hu : x ∉ u) :
    jsIndexOf (u ++ x :: v) x = (u.length : Int) := by
  unfold jsIndexOf
  rw [indexOf?_append_cons_self u v x hu]

theorem set_append_cons (u v : List α) (x y : α) :
    (u ++ x :: v).set u.length y = u ++ y :: v := by
  induction u with
  | nil => rfl
  | cons a u' ih =>
    simp only [List.cons_append, List.length_cons, List.set_cons_succ]
    rw [ih]

theorem jsSplice_replace_at (u v : List α) (x : α) (items : List α) :
    jsSplice (u ++ x :: v) (u.length : Int) 1 items = u ++ items ++ v := by
  simp only [jsSplice]
  rw [if_neg (by omega), Int.toNat_natCast,
    min_eq_left (by rw [List.length_append, List.length_cons]; omega), List.take_left]
  have hdrop : (u ++ x :: v).drop (u.length + 1) = v := by
    rw [show u ++ x :: v = (u ++ [x]) ++ v by simp,
      show u.length + 1 = (u ++ [x]).length by simp]
    exact List.drop_left _ _
  rw [hdrop]

/-- `removeChild` on a children array holding the node once, at a known
position: the entry is spliced out there. -/
theorem childNodeRemove_at (u v : List Elem) (x : Elem) (hu : x ∉ u) :
    childNodeRemove (u ++ x :: v) x = u ++ v := by
  unfold childNodeRemove
  rw [jsIndexOf_append_cons_self u v x hu,
    show (u.length : Int) = ((u.length : Nat) : Int) from rfl, jsSplice_replace_at]
  simp

/-- `replaceChild` on a children array holding the node once. -/
theorem replaceChildInList_at (u v : List Elem) (x y : Elem) (hu : x ∉ u) :
    replaceChildInList (u ++ x :: v) x y = u ++ y :: v := by
  unfold replaceChildInList
  rw [jsIndexOf_append_cons_self u v x hu,
    show (u.length : Int) = ((u.length : Nat) : Int) from rfl, jsSplice_replace_at]
  simp

/-- In-place child mutation at a known position. -/
theorem substChild_at (u v : List Elem) (x y : Elem) (hu : x ∉ u) :
    substChild (u ++ x :: v) x y = u ++ y :: v := by
  unfold substChild
  rw [indexOf?_append_cons_self u v x hu]
  exact set_append_cons u v x y

end Positional

section ChildKeys

theorem descChildKeys_length (l : List Desc) : (descChildKeys l).length = l.length := by
  unfold descChildKeys
  exact List.length_mapIdx

theorem elemChildKeys_length (l : List Elem) : (elemChildKeys l).length = l.length := by
  unfold elemChildKeys
  exact List.length_mapIdx

theorem descChildKeys_getElem (l : List Desc) (i : Nat) (h : i < l.length) :
    (getElem (descChildKeys l) i (by rwa [descChildKeys_length])) = jsKeyOr l[i].key i := by
  unfold descChildKeys
  rw [List.getElem_mapIdx]

theorem elemChildKeys_getElem (l : List Elem) (i : Nat) (h : i < l.length) :
    (getElem (elemChildKeys l) i (by rwa [elemChildKeys_length])) =
      jsKeyOr l[i].description.key i := by
  unfold elemChildKeys
  rw [List.getElem_mapIdx]

/-- The child keys of freshly created nodes are the child keys of their
descriptions. -/
theorem elemChildKeys_map_createElem (l : List Desc) :
    elemChildKeys (l.map createElem) = descChildKeys l := by
  refine List.ext_getElem (by rw [elemChildKeys_length, descChildKeys_length, List.length_map]) ?_
  intro i h1 h2
  have hl : i < l.length := by
    rw [elemChildKeys_length, List.length_map] at h1
    exact h1
  rw [elemChildKeys_getElem _ i (by rwa [List.length_map]),
    descChildKeys_getElem _ i hl, List.getElem_map, createElem_description]

/-- An explicitly keyed description has an index-independent child key. -/
theorem jsKeyOr_of_explicit {k : Option String} {nk : NodeKey}
    (h : jsKeyOrNull k = some nk) (i : Nat) : jsKeyOr k i = nk := by
  cases k with
  | none => cases h
  | some s =>
    by_cases hs : s = ""
    · simp [jsKeyOrNull, hs] at h
    · simp only [jsKeyOrNull, if_neg hs, Option.some.injEq] at h
      simp only [jsKeyOr, if_neg hs]
      exact h

end ChildKeys

section WfExtract

theorem keysNodupB_eq_true {V : Type _} {m : List (String × V)}
    (h : keysNodupB m = true) : (m.map Prod.fst).Nodup := by
  unfold keysNodupB at h
  exact of_decide_eq_true h

theorem wfDesc_proj {d : Desc} (h : wfDesc d = true) :
    (d.style.map Prod.fst).Nodup ∧ (d.attrs.map Prod.fst).Nodup ∧
    (d.dataset.map Prod.fst).Nodup ∧ (d.properties.map Prod.fst).Nodup ∧
    (d.listeners.map Prod.fst).Nodup := by
  rcases d with ⟨k, n, c, s, a, ds, pr, ls, cu, tx, ch⟩
  unfold wfDesc at h
  rw [Bool.and_eq_true, Bool.and_eq_true, Bool.and_eq_true, Bool.and_eq_true,
    Bool.and_eq_true, Bool.and_eq_true, Bool.and_eq_true] at h
  obtain ⟨⟨⟨⟨⟨⟨⟨h1, h2⟩, h3⟩, h4⟩, h5⟩, -⟩, -⟩, -⟩ := h
  exact ⟨keysNodupB_eq_true h1, keysNodupB_eq_true h2, keysNodupB_eq_true h3,
    keysNodupB_eq_true h4, keysNodupB_eq_true h5⟩

theorem wfDesc_text_excl {d : Desc} (h : wfDesc d = true)
    (ht : d.text.isSome = true) : d.children.toList = [] := by
  rcases d with ⟨k, n, c, s, a, ds, pr, ls, cu, tx, ch⟩
  unfold wfDesc at h
  rw [Bool.and_eq_true, Bool.and_eq_true, Bool.and_eq_true, Bool.and_eq_true,
    Bool.and_eq_true, Bool.and_eq_true, Bool.and_eq_true] at h
  obtain ⟨⟨-, h7⟩, -⟩ := h
  simp only [Desc.text] at ht
  rw [Bool.or_eq_true] at h7
  rcases h7 with h7 | h7
  · rw [Option.isNone_iff_eq_none] at h7
    rw [h7] at ht
    cases ht
  · exact of_decide_eq_true h7

theorem wfDescList_mem : ∀ {l : DescList}, wfDescList l = true →
    ∀ c ∈ l.toList, wfDesc c = true
  | .nil, _, c, hc => by simp [DescList.toList] at hc
  | .cons d tl, h, c, hc => by
    simp only [wfDescList, Bool.and_eq_true] at h
    simp only [DescList.toList] at hc
    rcases List.mem_cons.mp hc with rfl | hc'
    · exact h.1
    · exact wfDescList_mem h.2 c hc'

theorem wfDesc_children {d : Desc} {l : DescList} (h : wfDesc d = true)
    (hch : d.children = DescChildren.withChildren l) :
    l.toList ≠ [] ∧ (∀ c ∈ l.toList, (jsKeyOrNull c.key).isSome = true) ∧
    (descChildKeys l.toList).Nodup ∧ (∀ c ∈ l.toList, wfDesc c = true) := by
  rcases d with ⟨k, n, c, s, a, ds, pr, ls, cu, tx, ch⟩
  simp only [Desc.children] at hch
  subst hch
  unfold wfDesc at h
  rw [Bool.and_eq_true] at h
  obtain ⟨-, h8⟩ := h
  rw [Bool.and_eq_true, Bool.and_eq_true, Bool.and_eq_true] at h8
  obtain ⟨⟨⟨hne, hexp⟩, hnd⟩, hwf⟩ := h8
  refine ⟨?_, ?_, of_decide_eq_true hnd, wfDescList_mem hwf⟩
  · intro he
    rw [he] at hne
    simp at hne
  · intro c hc
    have := List.all_eq_true.mp hexp c hc
    simpa using this

theorem customFree_custom {d : Desc} (h : customFree d = true) : d.custom = none := by
  rcases d with ⟨k, n, c, s, a, ds, pr, ls, cu, tx, ch⟩
  simp only [customFree, Bool.and_eq_true] at h
  simpa [Desc.custom, Option.isNone_iff_eq_none] using h.1

theorem customFreeList_mem : ∀ {l : DescList}, customFreeList l = true →
    ∀ c ∈ l.toList, customFree c = true
  | .nil, _, c, hc => by simp [DescList.toList] at hc
  | .cons d tl, h, c, hc => by
    simp only [customFreeList, Bool.and_eq_true] at h
    simp only [DescList.toList] at hc
    rcases List.mem_cons.mp hc with rfl | hc'
    · exact h.1
    · exact customFreeList_mem h.2 c hc'

theorem customFree_children {d : Desc} (h : customFree d = true) :
    ∀ c ∈ d.children.toList, customFree c = true := by
  rcases d with ⟨k, n, cl, s, a, ds, pr, ls, cu, tx, ch⟩
  simp only [customFree, Bool.and_eq_true] at h
  intro c hc
  simp only [Desc.children] at hc
  cases ch with
  | noChildren => simp [DescChildren.toList] at hc
  | withChildren l =>
    simp only [DescChildren.toList] at hc
    exact customFreeList_mem h.2 c hc

end WfExtract

section SizeLemmas

theorem DescList.dsize_lt_of_mem : ∀ {l : DescList} {c : Desc},
    c ∈ l.toList → c.size < l.size
  | .nil, c, hc => by simp [DescList.toList] at hc
  | .cons d tl, c, hc => by
    simp only [DescList.toList] at hc
    rcases List.mem_cons.mp hc with rfl | hc'
    · simp [DescList.size]
      omega
    · have := DescList.dsize_lt_of_mem hc'
      simp [DescList.size]
      omega

theorem Desc.size_child_lt {d c : Desc} (h : c ∈ d.children.toList) :
    c.size < d.size := by
  rcases d with ⟨k, n, cl, s, a, ds, pr, ls, cu, tx, ch⟩
  simp only [Desc.children] at h
  cases ch with
  | noChildren => simp [DescChildren.toList] at h
  | withChildren l =>
    simp only [DescChildren.toList] at h
    have := DescList.dsize_lt_of_mem h
    simp only [Desc.size, DescChildren.size]
    omega

theorem Desc.dsize_pos (d : Desc) : 0 < d.size := by
  rcases d with ⟨k, n, cl, s, a, ds, pr, ls, cu, tx, ch⟩
  simp [Desc.size]

end SizeLemmas

section KeyReplay
variable {K : Type _} [LinearOrder K]

/-- Inserting each item of a batch at its own index, when the indices continue
the current length, appends the batch keys in order. -/
theorem foldl_insert_asc :
    ∀ (its : List (Item K)) (s : List K),
      (∀ j (h : j < its.length), (its.get ⟨j, h⟩).index = s.length + j) →
      ((its.map fun it => Move.insert it.key it.index).foldl
        (fun l m => m.make l) s) = s ++ its.map Item.key
  | [], s, _ => by simp
  | it :: rest, s, hidx => by
    have h0 : it.index = s.length := by
      have := hidx 0 (by simp)
      simpa using this
    have hstep : (Move.insert it.key it.index).make s = s ++ [it.key] := by
      simp only [Move.make]
      rw [h0, jsSplice_nat_insert, List.take_of_length_le (le_refl _),
        List.drop_eq_nil_of_le (le_refl _)]
    rw [List.map_cons, List.foldl_cons, hstep,
      foldl_insert_asc rest (s ++ [it.key]) (fun j h => ?_)]
    · simp
    · have := hidx (j + 1) (by simpa using h)
      simp only [List.get_cons_succ] at this
      rw [this]
      simp only [List.length_append, List.length_cons, List.length_nil]
      omega

/-- With no source children, the phase-1 working copy is already the target
(every target item is inserted at its own ascending index). -/
theorem phaseOneResult_nil_source (target : List K) (ht : target.Nodup) :
    phaseOneResult ([] : List K) target = target := by
  have h1 : insertedItems ([] : List K) target = createItems target := by
    unfold insertedItems
    refine List.filter_eq_self.mpr fun it _ => by simp
  unfold phaseOneResult
  rw [phaseOneMoves_eq [] target (by simp) ht, List.foldl_append]
  have hrem : removedItems ([] : List K) target = [] := rfl
  rw [hrem]
  simp only [List.reverse_nil, List.map_nil, List.foldl_nil]
  rw [foldl_insert_asc (insertedItems [] target) [] (fun j h => ?_), List.nil_append,
    h1, createItems_map_key]
  rw [List.get_eq_getElem]
  simp only [h1, List.length_nil, Nat.zero_add]
  have hlen : j < target.length := by
    rw [h1] at h
    simpa [createItems, List.length_mapIdx] using h
  simp only [createItems]
  rw [List.getElem_mapIdx]

end KeyReplay

section MoveItems
variable {K : Type _} [DecidableEq K]

theorem foldl_moveItem_items (target : List K) :
    ∀ (idxs : List Nat) (st : List K × List (Move K)),
      (∀ m ∈ st.2, m.item ∈ target) →
      ∀ m ∈ (idxs.foldl (moveItemIfNeeded target) st).2, m.item ∈ target
  | [], st, hst => hst
  | i :: rest, st, hst => by
    rw [List.foldl_cons]
    refine foldl_moveItem_items target rest _ ?_
    unfold moveItemIfNeeded
    rcases hget : target.get? i with _ | item
    · exact hst
    · dsimp only
      by_cases h : st.1.get? i ≠ some item
      · rw [if_pos h]
        intro m hm
        rcases List.mem_append.mp hm with hm' | hm'
        · exact hst m hm'
        · rcases List.mem_singleton.mp hm' with rfl
          show item ∈ target
          exact List.get?_mem hget
      · rw [if_neg h]
        exact hst

/-- Every move a reorder scan emits carries an item of the target sequence. -/
theorem calculateIndexChanges_items (source target : List K) (rev : Bool) :
    ∀ m ∈ (calculateIndexChanges source target rev).1, m.item ∈ target := by
  unfold calculateIndexChanges
  dsimp only
  refine foldl_moveItem_items target _ (source, []) ?_
  intro m hm
  simp at hm

end MoveItems

section MainFull
variable {K : Type _} [LinearOrder K]

/-- `calculateMoves_spec` refined with the origin of each reorder's item: the
emitted suffix after phase 1 consists of `move` operations whose items are
target keys, and replaying it from the phase-1 intermediate gives the
target. -/
theorem calculateMoves_spec_full (source target : List K) (fav : Option K)
    (hs : source.Nodup) (ht : target.Nodup) :
    ∃ movs, (calculateMoves source target fav).1 = phaseOneMoves source target ++ movs ∧
      (∀ m ∈ movs, m.isMove = true) ∧
      (∀ m ∈ movs, m.item ∈ target) ∧
      movs.foldl (fun l m => m.make l) (phaseOneResult source target) = target := by
  have hperm := phaseOneResult_perm source target hs ht
  unfold calculateMoves
  by_cases heq : phaseOneResult source target = target
  · rw [if_pos heq]
    exact ⟨[], by simp, by simp, by simp, heq⟩
  · rw [if_neg heq]
    dsimp only
    by_cases hcond : (decide ((calculateIndexChanges (phaseOneResult source target) target false).1.length > 1) ||
        match fav with
        | some f => (calculateIndexChanges (phaseOneResult source target) target false).1.length == 1 &&
            (((calculateIndexChanges (phaseOneResult source target) target false).1.map Move.item).head? != some f)
        | none => false) = true
    · rw [if_pos hcond]
      by_cases hlen : (calculateIndexChanges (phaseOneResult source target) target true).1.length ≤
          (calculateIndexChanges (phaseOneResult source target) target false).1.length
      · rw [if_pos hlen]
        obtain ⟨hrep, hmv⟩ := calculateIndexChanges_replay (phaseOneResult source target) target true
        refine ⟨_, rfl, hmv, calculateIndexChanges_items _ _ true, ?_⟩
        rw [hrep]
        exact calculateIndexChanges_result _ _ ht hperm true
      · rw [if_neg hlen]
        obtain ⟨hrep, hmv⟩ := calculateIndexChanges_replay (phaseOneResult source target) target false
        refine ⟨_, rfl, hmv, calculateIndexChanges_items _ _ false, ?_⟩
        rw [hrep]
        exact calculateIndexChanges_result _ _ ht hperm false
    · rw [if_neg hcond]
      obtain ⟨hrep, hmv⟩ := calculateIndexChanges_replay (phaseOneResult source target) target false
      refine ⟨_, rfl, hmv, calculateIndexChanges_items _ _ false, ?_⟩
      rw [hrep]
      exact calculateIndexChanges_result _ _ ht hperm false

end MainFull

section StatePositional
variable {α : Type _}

/-- Removing a later entry keeps an earlier position's occupant. -/
theorem jsSplice_remove_getElem_lt {l : List α} {a j : Nat} (ha : a < l.length)
    (hj : j < a) :
    ∃ h : j < (jsSplice l (a : Int) 1 []).length,
      (jsSplice l (a : Int) 1 [])[j] = (getElem l j (by omega)) := by
  rw [jsSplice_nat_remove]
  have hta : (l.take a).length = a := by
    rw [List.length_take]
    omega
  have hjt : j < (l.take a).length := by omega
  refine ⟨by rw [List.length_append]; omega, ?_⟩
  rw [List.getElem_append_left hjt, List.getElem_take]

/-- The removal splice drops exactly the indexed entry. -/
theorem jsSplice_remove_decomp (l : List α) (a : Nat) (ha : a < l.length) :
    jsSplice l (a : Int) 1 [] = l.take a ++ l.drop (a + 1) ∧
      l = l.take a ++ l[a] :: l.drop (a + 1) ∧ (l.take a).length = a := by
  refine ⟨jsSplice_nat_remove l a, ?_, by rw [List.length_take]; omega⟩
  conv_lhs => rw [← List.take_append_drop a l]
  rw [List.drop_eq_getElem_cons ha]

theorem sublist_take_drop_succ (l : List α) (a : Nat) :
    (l.take a ++ l.drop (a + 1)).Sublist l := by
  have h2 : (l.drop a).drop 1 = l.drop (a + 1) := by
    rw [List.drop_drop, Nat.add_comm]
  conv_rhs => rw [← List.take_append_drop a l]
  refine List.Sublist.append (List.Sublist.refl _) ?_
  rw [← h2]
  exact List.drop_sublist _ _

end StatePositional

section StepHelpers

theorem contains_true_of_mem2 {α : Type _} [BEq α] [LawfulBEq α] {l : List α} {k : α}
    (h : k ∈ l) : l.contains k = true :=
  List.elem_eq_true_of_mem h

theorem contains_false_of_not_mem2 {α : Type _} [BEq α] [LawfulBEq α] {l : List α}
    {k : α} (h : k ∉ l) : l.contains k = false := by
  cases hc : l.contains k
  · rfl
  · exact absurd (List.mem_of_elem_eq_true hc) h

theorem createItems_mem {K : Type _} {l : List K} {it : Item K}
    (h : it ∈ createItems l) :
    ∃ hidx : it.index < l.length, l[it.index] = it.key := by
  obtain ⟨j, hj, hget⟩ := List.mem_iff_getElem.mp h
  have hjl : j < l.length := by
    simpa [createItems, List.length_mapIdx] using hj
  have h2 : (getElem (createItems l) j hj) = (⟨(getElem l j hjl), j⟩ : Item K) := List.getElem_mapIdx ..
  rw [h2] at hget
  subst hget
  exact ⟨hjl, rfl⟩

/-- A resolvable source-key step of the child-move loop: a `remove` move whose
item is a source key removes the resolved node from the parent. -/
theorem childMoveStep_remove (S : List Elem) (fk tk : List NodeKey)
    (tg : List Desc) (st : ChildDiffState) (key : NodeKey) (a : Nat)
    (node : Elem) (cs : List Elem) (hmem : key ∈ fk)
    (hget : S.get? (fk.indexOf key) = some node) (hreal : st.real = some cs) :
    childMoveStep S fk tk tg st (Move.remove key a) =
      some { st with patches := st.patches ++ [DomPatch.removeChildNode a]
                     book := (Move.remove node a).make st.book
                     real := some (childNodeRemove cs node) } := by
  unfold childMoveStep getNode?
  dsimp only [Move.item, Move.isMove]
  rw [if_pos (contains_true_of_mem2 hmem), hget]
  dsimp only
  rw [if_neg Bool.false_ne_true, hreal]

/-- A fresh-key step: an `insert` move whose item is no source key creates the
node from its target description, records it, and splices it in. -/
theorem childMoveStep_insert (S : List Elem) (fk tk : List NodeKey)
    (tg : List Desc) (st : ChildDiffState) (key : NodeKey) (a : Nat) (d : Desc)
    (hmem : key ∉ fk) (hget : tg.get? (tk.indexOf key) = some d) :
    childMoveStep S fk tk tg st (Move.insert key a) =
      some { st with created := st.created ++ [createElem d]
                     createdMap := st.createdMap ++ [(key, createElem d)]
                     patches := st.patches ++ [DomPatch.insertChildNode a]
                     book := (Move.insert (createElem d) a).make st.book
                     real := some (jsSplice (st.real.getD []) (a : Int) 0 [createElem d]) } := by
  unfold childMoveStep getNode?
  dsimp only [Move.item, Move.isMove]
  rw [if_neg (by rw [contains_false_of_not_mem2 hmem]; simp),
    if_neg Bool.false_ne_true, hget]
  dsimp only
  rw [if_pos rfl]

/-- A reorder step resolving through the source nodes. -/
theorem childMoveStep_move_src (S : List Elem) (fk tk : List NodeKey)
    (tg : List Desc) (st : ChildDiffState) (key : NodeKey) (f : Int) (t : Nat)
    (node : Elem) (cs : List Elem) (hmem : key ∈ fk)
    (hget : S.get? (fk.indexOf key) = some node) (hreal : st.real = some cs) :
    childMoveStep S fk tk tg st (Move.move key f t) =
      some { st with patches := st.patches ++ [DomPatch.moveChildNode f t]
                     book := (Move.move node f t).make st.book
                     real := some ((Move.move node f t).make cs) } := by
  unfold childMoveStep getNode?
  rw [Move.item, Move.isMove, if_pos (contains_true_of_mem2 hmem), hget]
  dsimp only
  rw [if_neg (by simp), hreal]

/-- A reorder step resolving through `createdNodesMap`. -/
theorem childMoveStep_move_created (S : List Elem) (fk tk : List NodeKey)
    (tg : List Desc) (st : ChildDiffState) (key : NodeKey) (f : Int) (t : Nat)
    (node : Elem) (cs : List Elem) (hmem : key ∉ fk)
    (hlook : st.createdMap.lookup key = some node) (hreal : st.real = some cs) :
    childMoveStep S fk tk tg st (Move.move key f t) =
      some { st with patches := st.patches ++ [DomPatch.moveChildNode f t]
                     book := (Move.move node f t).make st.book
                     real := some ((Move.move node f t).make cs) } := by
  unfold childMoveStep getNode?
  dsimp only [Move.item, Move.isMove]
  rw [if_neg (by rw [contains_false_of_not_mem2 hmem]; simp), if_pos rfl, hlook]
  dsimp only
  rw [if_neg Bool.false_ne_true, hreal]

end StepHelpers

section SegA

/-- The removal prefix of the child-move loop: over a descending-index batch of
source-key removals, the parent's children array (located by `indexOf`) tracks
the bookkeeping copy (spliced at the recorded index) — both mirror the
key-level replay through the key-to-node assignment. -/
theorem childMoves_segA (S : List Elem) (fk tk : List NodeKey) (tg : List Desc)
    (F : NodeKey → Elem)
    (hsrc : ∀ k ∈ fk, S.get? (fk.indexOf k) = some (F k))
    (hinj : ∀ k1 ∈ fk, ∀ k2 ∈ fk, F k1 = F k2 → k1 = k2) :
    ∀ (its : List (Item NodeKey)) (kstate : List NodeKey) (st : ChildDiffState),
      kstate.Nodup →
      (∀ k ∈ kstate, k ∈ fk) →
      (∀ it ∈ its, it.key ∈ fk) →
      (∀ it ∈ its, ∃ h : it.index < kstate.length, kstate[it.index] = it.key) →
      List.Pairwise (fun a b : Item NodeKey => b.index < a.index) its →
      st.book = kstate.map F →
      st.real = some (kstate.map F) →
      ∃ ps,
        (its.map fun it => Move.remove it.key it.index).foldlM
          (childMoveStep S fk tk tg) st =
        some ⟨((its.map fun it => Move.remove it.key it.index).foldl
                 (fun l m => m.make l) kstate).map F,
              some (((its.map fun it => Move.remove it.key it.index).foldl
                 (fun l m => m.make l) kstate).map F),
              st.created, st.createdMap, ps⟩
  | [], kstate, st, _, _, _, _, _, hbook, hreal => by
    refine ⟨st.patches, ?_⟩
    simp only [List.map_nil, List.foldlM_nil, List.foldl_nil]
    rw [← hreal, ← hbook]
    rfl
  | it :: its', kstate, st, hnd, hsub, hkeys, hpos, hdesc, hbook, hreal => by
    obtain ⟨ha, hk⟩ := hpos it (List.mem_cons_self _ _)
    obtain ⟨hsp, hksplit, hlen⟩ := jsSplice_remove_decomp kstate it.index ha
    rw [hk] at hksplit
    have hkey_fk : it.key ∈ fk := hkeys it (List.mem_cons_self _ _)
    have hstep := childMoveStep_remove S fk tk tg st it.key it.index (F it.key)
      (kstate.map F) hkey_fk (hsrc it.key hkey_fk) hreal
    have hndsp : (kstate.take it.index ++ kstate.drop (it.index + 1)).Nodup :=
      (sublist_take_drop_succ kstate it.index).nodup hnd
    have hnotin : F it.key ∉ (kstate.take it.index).map F := by
      intro hmem
      obtain ⟨y, hy, hyF⟩ := List.mem_map.mp hmem
      have hy' : y ∈ kstate := List.mem_of_mem_take hy
      have hey : y = it.key := hinj y (hsub y hy') it.key hkey_fk hyF
      rw [hey] at hy
      have hnd' : (kstate.take it.index ++ it.key :: kstate.drop (it.index + 1)).Nodup := by
        rw [← hksplit]
        exact hnd
      have hdisj := (List.nodup_append.mp hnd').2.2
      exact hdisj hy (List.mem_cons_self _ _)
    have hnewk : (Move.remove it.key it.index).make kstate =
        kstate.take it.index ++ kstate.drop (it.index + 1) := by
      show jsSplice kstate (it.index : Int) 1 [] = _
      exact hsp
    have hbook' : (Move.remove (F it.key) it.index).make st.book =
        ((Move.remove it.key it.index).make kstate).map F := by
      rw [hbook]
      exact Move.make_remove_map F it.key it.index kstate
    have hreal' : childNodeRemove (kstate.map F) (F it.key) =
        ((Move.remove it.key it.index).make kstate).map F := by
      have hmapsplit : kstate.map F = (kstate.take it.index).map F ++
          F it.key :: (kstate.drop (it.index + 1)).map F := by
        conv_lhs => rw [hksplit]
        rw [List.map_append, List.map_cons]
      rw [hmapsplit, childNodeRemove_at _ _ _ hnotin, hnewk, List.map_append]
    obtain ⟨ps, hrec⟩ := childMoves_segA S fk tk tg F hsrc hinj its'
      ((Move.remove it.key it.index).make kstate)
      ⟨((Move.remove it.key it.index).make kstate).map F,
       some (((Move.remove it.key it.index).make kstate).map F),
       st.created, st.createdMap, st.patches ++ [DomPatch.removeChildNode it.index]⟩
      (by rw [hnewk]; exact hndsp)
      (by
        rw [hnewk]
        intro k hkm
        exact hsub k ((sublist_take_drop_succ kstate it.index).mem hkm))
      (fun it' hit' => hkeys it' (List.mem_cons_of_mem _ hit'))
      (fun it' hit' => by
        obtain ⟨h', hk'⟩ := hpos it' (List.mem_cons_of_mem _ hit')
        have hlt : it'.index < it.index := by
          rcases hdesc with - | ⟨hhead, -⟩
          exact hhead it' hit'
        obtain ⟨h'', hg⟩ := jsSplice_remove_getElem_lt (l := kstate) ha hlt
        show ∃ h : it'.index < (jsSplice kstate (it.index : Int) 1 []).length,
          (jsSplice kstate (it.index : Int) 1 [])[it'.index] = it'.key
        exact ⟨h'', hg.trans hk'⟩)
      (by
        rcases hdesc with - | ⟨-, htl⟩
        exact htl)
      rfl rfl
    refine ⟨ps, ?_⟩
    rw [List.map_cons, List.foldlM_cons, hstep]
    rw [show ((some ({ st with
        patches := st.patches ++ [DomPatch.removeChildNode it.index]
        book := (Move.remove (F it.key) it.index).make st.book
        real := some (childNodeRemove (kstate.map F) (F it.key)) } : ChildDiffState)) >>=
          fun s => (its'.map fun it => Move.remove it.key it.index).foldlM
            (childMoveStep S fk tk tg) s) =
        (its'.map fun it => Move.remove it.key it.index).foldlM
          (childMoveStep S fk tk tg)
          ({ st with
            patches := st.patches ++ [DomPatch.removeChildNode it.index]
            book := (Move.remove (F it.key) it.index).make st.book
            real := some (childNodeRemove (kstate.map F) (F it.key)) } : ChildDiffState)
      from rfl]
    rw [show ({ st with
        patches := st.patches ++ [DomPatch.removeChildNode it.index]
        book := (Move.remove (F it.key) it.index).make st.book
        real := some (childNodeRemove (kstate.map F) (F it.key)) } : ChildDiffState) =
      ⟨(Move.remove (F it.key) it.index).make st.book,
       some (childNodeRemove (kstate.map F) (F it.key)),
       st.created, st.createdMap,
       st.patches ++ [DomPatch.removeChildNode it.index]⟩ from rfl]
    rw [hbook', hreal', hrec, List.foldl_cons]

end SegA

section SegB

/-- The insertion segment of the child-move loop: each fresh target key
creates its node (recorded in `created`/`createdNodesMap`) and splices it into
both the children array and the bookkeeping copy at the recorded index,
mirroring the key-level replay. -/
theorem childMoves_segB (S : List Elem) (fk tk : List NodeKey) (tg : List Desc)
    (F : NodeKey → Elem)
    (htgt : ∀ k ∈ tk, k ∉ fk →
      ∃ d, tg.get? (tk.indexOf k) = some d ∧ createElem d = F k) :
    ∀ (its : List (Item NodeKey)) (kstate : List NodeKey) (st : ChildDiffState),
      (∀ it ∈ its, it.key ∈ tk ∧ it.key ∉ fk) →
      st.book = kstate.map F →
      st.real = some (kstate.map F) →
      ∃ ps,
        (its.map fun it => Move.insert it.key it.index).foldlM
          (childMoveStep S fk tk tg) st =
        some ⟨((its.map fun it => Move.insert it.key it.index).foldl
                 (fun l m => m.make l) kstate).map F,
              some (((its.map fun it => Move.insert it.key it.index).foldl
                 (fun l m => m.make l) kstate).map F),
              st.created ++ its.map fun it => F it.key,
              st.createdMap ++ its.map fun it => (it.key, F it.key),
              ps⟩
  | [], kstate, st, _, hbook, hreal => by
    refine ⟨st.patches, ?_⟩
    simp only [List.map_nil, List.foldlM_nil, List.foldl_nil, List.append_nil]
    rw [← hreal, ← hbook]
    rfl
  | it :: its', kstate, st, hkeys, hbook, hreal => by
    obtain ⟨hmemt, hmemf⟩ := hkeys it (List.mem_cons_self _ _)
    obtain ⟨d, hd, hcd⟩ := htgt it.key hmemt hmemf
    have hstep := childMoveStep_insert S fk tk tg st it.key it.index d hmemf hd
    have hbook' : (Move.insert (createElem d) it.index).make st.book =
        ((Move.insert it.key it.index).make kstate).map F := by
      rw [hbook, hcd]
      exact Move.make_insert_map F it.key it.index kstate
    have hreal' : jsSplice (st.real.getD []) (it.index : Int) 0 [createElem d] =
        ((Move.insert it.key it.index).make kstate).map F := by
      rw [hreal, hcd]
      show jsSplice (kstate.map F) (it.index : Int) 0 ([it.key].map F) = _
      rw [jsSplice_map]
      rfl
    obtain ⟨ps, hrec⟩ := childMoves_segB S fk tk tg F htgt its'
      ((Move.insert it.key it.index).make kstate)
      ⟨((Move.insert it.key it.index).make kstate).map F,
       some (((Move.insert it.key it.index).make kstate).map F),
       st.created ++ [F it.key], st.createdMap ++ [(it.key, F it.key)],
       st.patches ++ [DomPatch.insertChildNode it.index]⟩
      (fun it' hit' => hkeys it' (List.mem_cons_of_mem _ hit'))
      rfl rfl
    refine ⟨ps, ?_⟩
    rw [List.map_cons, List.foldlM_cons, hstep]
    rw [show ((some ({ st with
        created := st.created ++ [createElem d]
        createdMap := st.createdMap ++ [(it.key, createElem d)]
        patches := st.patches ++ [DomPatch.insertChildNode it.index]
        book := (Move.insert (createElem d) it.index).make st.book
        real := some (jsSplice (st.real.getD []) (it.index : Int) 0 [createElem d])
        } : ChildDiffState)) >>=
          fun s => (its'.map fun it => Move.insert it.key it.index).foldlM
            (childMoveStep S fk tk tg) s) =
        (its'.map fun it => Move.insert it.key it.index).foldlM
          (childMoveStep S fk tk tg)
          ({ st with
            created := st.created ++ [createElem d]
            createdMap := st.createdMap ++ [(it.key, createElem d)]
            patches := st.patches ++ [DomPatch.insertChildNode it.index]
            book := (Move.insert (createElem d) it.index).make st.book
            real := some (jsSplice (st.real.getD []) (it.index : Int) 0 [createElem d])
            } : ChildDiffState)
      from rfl]
    rw [show ({ st with
        created := st.created ++ [createElem d]
        createdMap := st.createdMap ++ [(it.key, createElem d)]
        patches := st.patches ++ [DomPatch.insertChildNode it.index]
        book := (Move.insert (createElem d) it.index).make st.book
        real := some (jsSplice (st.real.getD []) (it.index : Int) 0 [createElem d])
        } : ChildDiffState) =
      ⟨(Move.insert (createElem d) it.index).make st.book,
       some (jsSplice (st.real.getD []) (it.index : Int) 0 [createElem d]),
       st.created ++ [createElem d], st.createdMap ++ [(it.key, createElem d)],
       st.patches ++ [DomPatch.insertChildNode it.index]⟩ from rfl]
    rw [hbook', hreal', hcd, hrec]
    simp

end SegB

section SegC

/-- The reorder suffix of the child-move loop: each `move` resolves its node
(source node or created node), and the index-based double splice acts the same
on the children array, the bookkeeping copy and the key-level replay. -/
theorem childMoves_segC (S : List Elem) (fk tk : List NodeKey) (tg : List Desc)
    (F : NodeKey → Elem)
    (hsrc : ∀ k ∈ fk, S.get? (fk.indexOf k) = some (F k)) :
    ∀ (movs : List (Move NodeKey)) (kstate : List NodeKey) (st : ChildDiffState),
      (∀ m ∈ movs, m.isMove = true) →
      (∀ m ∈ movs, m.item ∈ tk) →
      (∀ k ∈ tk, k ∉ fk → st.createdMap.lookup k = some (F k)) →
      st.book = kstate.map F →
      st.real = some (kstate.map F) →
      ∃ ps,
        movs.foldlM (childMoveStep S fk tk tg) st =
        some ⟨(movs.foldl (fun l m => m.make l) kstate).map F,
              some ((movs.foldl (fun l m => m.make l) kstate).map F),
              st.created, st.createdMap, ps⟩
  | [], kstate, st, _, _, _, hbook, hreal => by
    refine ⟨st.patches, ?_⟩
    simp only [List.foldlM_nil, List.foldl_nil]
    rw [← hreal, ← hbook]
    rfl
  | mv :: movs', kstate, st, hmv, hitems, hcm, hbook, hreal => by
    have hmv1 := hmv mv (List.mem_cons_self _ _)
    rcases mv with ⟨k, a⟩ | ⟨k, f, t⟩ | ⟨k, a⟩
    · exact absurd hmv1 (by simp [Move.isMove])
    case move =>
      have hitem : k ∈ tk := hitems _ (List.mem_cons_self _ _)
      have hstep : childMoveStep S fk tk tg st (Move.move k f t) =
          some { st with patches := st.patches ++ [DomPatch.moveChildNode f t]
                         book := (Move.move (F k) f t).make st.book
                         real := some ((Move.move (F k) f t).make (kstate.map F)) } := by
        by_cases hkf : k ∈ fk
        · exact childMoveStep_move_src S fk tk tg st k f t (F k) (kstate.map F)
            hkf (hsrc k hkf) hreal
        · exact childMoveStep_move_created S fk tk tg st k f t (F k) (kstate.map F)
            hkf (hcm k hitem hkf) hreal
      have hbook' : (Move.move (F k) f t).make st.book =
          ((Move.move k f t).make kstate).map F := by
        rw [hbook]
        exact Move.make_move_map F k f t kstate
      have hreal' : (Move.move (F k) f t).make (kstate.map F) =
          ((Move.move k f t).make kstate).map F :=
        Move.make_move_map F k f t kstate
      obtain ⟨ps, hrec⟩ := childMoves_segC S fk tk tg F hsrc movs'
        ((Move.move k f t).make kstate)
        ⟨((Move.move k f t).make kstate).map F,
         some (((Move.move k f t).make kstate).map F),
         st.created, st.createdMap, st.patches ++ [DomPatch.moveChildNode f t]⟩
        (fun m hm => hmv m (List.mem_cons_of_mem _ hm))
        (fun m hm => hitems m (List.mem_cons_of_mem _ hm))
        hcm rfl rfl
      refine ⟨ps, ?_⟩
      rw [List.foldlM_cons, hstep]
      rw [show ((some ({ st with
          patches := st.patches ++ [DomPatch.moveChildNode f t]
          book := (Move.move (F k) f t).make st.book
          real := some ((Move.move (F k) f t).make (kstate.map F)) } : ChildDiffState)) >>=
            fun s => movs'.foldlM (childMoveStep S fk tk tg) s) =
          movs'.foldlM (childMoveStep S fk tk tg)
            ({ st with
              patches := st.patches ++ [DomPatch.moveChildNode f t]
              book := (Move.move (F k) f t).make st.book
              real := some ((Move.move (F k) f t).make (kstate.map F)) } : ChildDiffState)
        from rfl]
      rw [show ({ st with
          patches := st.patches ++ [DomPatch.moveChildNode f t]
          book := (Move.move (F k) f t).make st.book
          real := some ((Move.move (F k) f t).make (kstate.map F)) } : ChildDiffState) =
        ⟨(Move.move (F k) f t).make st.book,
         some ((Move.move (F k) f t).make (kstate.map F)),
         st.created, st.createdMap,
         st.patches ++ [DomPatch.moveChildNode f t]⟩ from rfl]
      rw [hbook', hreal', hrec, List.foldl_cons]
    · exact absurd hmv1 (by simp [Move.isMove])

end SegC

section Replay

/-- The whole move loop of `elementChildrenPatches`, fused with its
application: starting from the source children, the loop succeeds and leaves
the bookkeeping copy and the parent's children array both at the target-key
arrangement of nodes, with exactly the fresh target keys' nodes created and
recorded. -/
theorem childMoves_replay (S : List Elem) (fk tk : List NodeKey) (tg : List Desc)
    (F : NodeKey → Elem)
    (hfnd : fk.Nodup) (htnd : tk.Nodup)
    (hsrc : ∀ k ∈ fk, S.get? (fk.indexOf k) = some (F k))
    (htgt : ∀ k ∈ tk, k ∉ fk →
      ∃ d, tg.get? (tk.indexOf k) = some d ∧ createElem d = F k)
    (hinj : ∀ k1 ∈ fk, ∀ k2 ∈ fk, F k1 = F k2 → k1 = k2)
    (hS : S = fk.map F) :
    ∃ ps,
      (calculateMoves fk tk none).1.foldlM (childMoveStep S fk tk tg)
        (⟨S, some S, [], [], []⟩ : ChildDiffState) =
      some ⟨tk.map F, some (tk.map F),
            (tk.filter fun k => decide (k ∉ fk)).map F,
            (tk.filter fun k => decide (k ∉ fk)).map fun k => (k, F k),
            ps⟩ := by
  obtain ⟨movs, hshape, hmoves, hitems, hreplay⟩ :=
    calculateMoves_spec_full fk tk none hfnd htnd
  have hinsKeys : (insertedItems fk tk).map Item.key =
      tk.filter fun k => decide (k ∉ fk) := by
    unfold insertedItems
    rw [map_key_filter _ (fun k => decide (k ∉ fk)) (fun it => rfl),
      createItems_map_key]
  -- segment A on the removal prefix
  obtain ⟨ps1, hA⟩ := childMoves_segA S fk tk tg F hsrc hinj
    (removedItems fk tk).reverse fk
    (⟨S, some S, [], [], []⟩ : ChildDiffState)
    hfnd (fun k hk => hk)
    (fun it hit => by
      have hit' : it ∈ removedItems fk tk := List.mem_reverse.mp hit
      obtain ⟨h, hk⟩ := createItems_mem (List.mem_of_mem_filter hit')
      rw [← hk]
      exact List.getElem_mem h)
    (fun it hit => by
      have hit' : it ∈ removedItems fk tk := List.mem_reverse.mp hit
      exact createItems_mem (List.mem_of_mem_filter hit'))
    (by
      rw [List.pairwise_reverse]
      exact removedItems_idx_strict fk tk)
    (by simpa using hS) (by simpa using congrArg some hS)
  -- segment B on the insertion segment
  obtain ⟨ps2, hB⟩ := childMoves_segB S fk tk tg F htgt
    (insertedItems fk tk)
    (((removedItems fk tk).reverse.map fun it => Move.remove it.key it.index).foldl
      (fun l m => m.make l) fk)
    (⟨(((removedItems fk tk).reverse.map fun it => Move.remove it.key it.index).foldl
         (fun l m => m.make l) fk).map F,
      some ((((removedItems fk tk).reverse.map fun it => Move.remove it.key it.index).foldl
         (fun l m => m.make l) fk).map F),
      [], [], ps1⟩ : ChildDiffState)
    (fun it hit => by
      constructor
      · obtain ⟨h, hk⟩ := createItems_mem (List.mem_of_mem_filter hit)
        rw [← hk]
        exact List.getElem_mem h
      · have := List.of_mem_filter hit
        simpa using this)
    rfl rfl
  -- the phase-1 working copy
  have hphase1 : phaseOneResult fk tk =
      ((insertedItems fk tk).map fun it => Move.insert it.key it.index).foldl
        (fun l m => m.make l)
        (((removedItems fk tk).reverse.map fun it => Move.remove it.key it.index).foldl
          (fun l m => m.make l) fk) := by
    unfold phaseOneResult
    rw [phaseOneMoves_eq fk tk hfnd htnd, List.foldl_append]
  -- segment C on the reorder suffix
  obtain ⟨ps3, hC⟩ := childMoves_segC S fk tk tg F hsrc movs (phaseOneResult fk tk)
    (⟨(phaseOneResult fk tk).map F, some ((phaseOneResult fk tk).map F),
      [] ++ (insertedItems fk tk).map fun it => F it.key,
      [] ++ (insertedItems fk tk).map fun it => (it.key, F it.key),
      ps2⟩ : ChildDiffState)
    hmoves hitems
    (fun k hk hknf => by
      show List.lookup k ([] ++ (insertedItems fk tk).map fun it => (it.key, F it.key)) =
        some (F k)
      rw [List.nil_append,
        show ((insertedItems fk tk).map fun it => (it.key, F it.key)) =
          ((insertedItems fk tk).map Item.key).map fun e => (e, F e) by
            rw [List.map_map]; rfl,
        lookup_map_pair2, if_pos]
      rw [hinsKeys, List.mem_filter]
      exact ⟨hk, by simpa using hknf⟩)
    (by rw [hphase1]) (by rw [hphase1])
  refine ⟨ps3, ?_⟩
  rw [hshape, phaseOneMoves_eq fk tk hfnd htnd, List.foldlM_append, List.foldlM_append,
    hA]
  rw [show ((some (⟨(((removedItems fk tk).reverse.map fun it => Move.remove it.key it.index).foldl
         (fun l m => m.make l) fk).map F,
      some ((((removedItems fk tk).reverse.map fun it => Move.remove it.key it.index).foldl
         (fun l m => m.make l) fk).map F),
      [], [], ps1⟩ : ChildDiffState)) >>=
        fun s' => ((insertedItems fk tk).map fun it => Move.insert it.key it.index).foldlM
          (childMoveStep S fk tk tg) s') =
      ((insertedItems fk tk).map fun it => Move.insert it.key it.index).foldlM
        (childMoveStep S fk tk tg)
        (⟨(((removedItems fk tk).reverse.map fun it => Move.remove it.key it.index).foldl
             (fun l m => m.make l) fk).map F,
          some ((((removedItems fk tk).reverse.map fun it => Move.remove it.key it.index).foldl
             (fun l m => m.make l) fk).map F),
          [], [], ps1⟩ : ChildDiffState)
    from rfl]
  rw [hB]
  rw [show ((some (⟨(((insertedItems fk tk).map fun it => Move.insert it.key it.index).foldl
        (fun l m => m.make l)
        (((removedItems fk tk).reverse.map fun it => Move.remove it.key it.index).foldl
          (fun l m => m.make l) fk)).map F,
      some ((((insertedItems fk tk).map fun it => Move.insert it.key it.index).foldl
        (fun l m => m.make l)
        (((removedItems fk tk).reverse.map fun it => Move.remove it.key it.index).foldl
          (fun l m => m.make l) fk)).map F),
      [] ++ (insertedItems fk tk).map fun it => F it.key,
      [] ++ (insertedItems fk tk).map fun it => (it.key, F it.key),
      ps2⟩ : ChildDiffState)) >>=
        fun s' => movs.foldlM (childMoveStep S fk tk tg) s') =
      movs.foldlM (childMoveStep S fk tk tg)
        (⟨(((insertedItems fk tk).map fun it => Move.insert it.key it.index).foldl
            (fun l m => m.make l)
            (((removedItems fk tk).reverse.map fun it => Move.remove it.key it.index).foldl
              (fun l m => m.make l) fk)).map F,
          some ((((insertedItems fk tk).map fun it => Move.insert it.key it.index).foldl
            (fun l m => m.make l)
            (((removedItems fk tk).reverse.map fun it => Move.remove it.key it.index).foldl
              (fun l m => m.make l) fk)).map F),
          [] ++ (insertedItems fk tk).map fun it => F it.key,
          [] ++ (insertedItems fk tk).map fun it => (it.key, F it.key),
          ps2⟩ : ChildDiffState)
    from rfl]
  rw [show (⟨(((insertedItems fk tk).map fun it => Move.insert it.key it.index).foldl
        (fun l m => m.make l)
        (((removedItems fk tk).reverse.map fun it => Move.remove it.key it.index).foldl
          (fun l m => m.make l) fk)).map F,
      some ((((insertedItems fk tk).map fun it => Move.insert it.key it.index).foldl
        (fun l m => m.make l)
        (((removedItems fk tk).reverse.map fun it => Move.remove it.key it.index).foldl
          (fun l m => m.make l) fk)).map F),
      [] ++ (insertedItems fk tk).map fun it => F it.key,
      [] ++ (insertedItems fk tk).map fun it => (it.key, F it.key),
      ps2⟩ : ChildDiffState) =
    (⟨(phaseOneResult fk tk).map F, some ((phaseOneResult fk tk).map F),
      [] ++ (insertedItems fk tk).map fun it => F it.key,
      [] ++ (insertedItems fk tk).map fun it => (it.key, F it.key),
      ps2⟩ : ChildDiffState) by rw [hphase1]]
  rw [hC, hreplay]
  rw [show ((insertedItems fk tk).map fun it => F it.key) =
      ((insertedItems fk tk).map Item.key).map F by rw [List.map_map]; rfl,
    show ((insertedItems fk tk).map fun it => (it.key, F it.key)) =
      ((insertedItems fk tk).map Item.key).map fun e => (e, F e) by
        rw [List.map_map]; rfl,
    hinsKeys]
  simp

end Replay

section RecLoop

/-- The outcome of `elementChildPatches` on one child, independent of the
parent's children array: skip (deep-equal description), recursive diff, or
replacement by a fresh node. -/
def childStepOutcome (diffFn : Elem → Desc → Option (List DomPatch × Elem))
    (child : Elem) (d : Desc) : Option (List DomPatch × Elem) :=
  if child.description.name = d.name then
    if descEqual child.description d then some ([], child)
    else
      match diffFn child d with
      | none => none
      | some (p, c') => some (p, c')
  else some ([DomPatch.replaceChildNode], createElem d)

/-- `elementChildPatches` on a children array holding the child once, at a
known position: the array cell is rewritten with the outcome's node. -/
theorem elementChildStep_at (diffFn : Elem → Desc → Option (List DomPatch × Elem))
    (child : Elem) (d : Desc) (u v : List Elem) (hu : child ∉ u) :
    elementChildStep diffFn child (some d) (u ++ child :: v) =
      (childStepOutcome diffFn child d).map fun pc => (pc.1, u ++ pc.2 :: v) := by
  unfold elementChildStep childStepOutcome
  dsimp only
  by_cases hname : child.description.name = d.name
  · rw [if_pos hname, if_pos hname]
    by_cases heq : descEqual child.description d = true
    · rw [if_pos heq, if_pos heq]
      rfl
    · rw [if_neg heq, if_neg heq]
      cases hdf : diffFn child d with
      | none => rfl
      | some pc =>
        rcases pc with ⟨p, c'⟩
        dsimp only [Option.map_some']
        rw [substChild_at u v child c' hu]
  · rw [if_neg hname, if_neg hname]
    dsimp only [Option.map_some']
    rw [replaceChildInList_at u v child (createElem d) hu]

/-- The post-move recursion loop of `elementChildrenPatches`, run over a
bookkeeping array aligned with the target descriptions: created children are
skipped and every other cell of the children array is rewritten with its
step's outcome, in place. -/
theorem childRecLoop_spec (diffFn : Elem → Desc → Option (List DomPatch × Elem))
    (targets : List Desc) (created : List Elem) :
    ∀ (bs ncs pre : List Elem) (i : Nat),
      pre.length = i →
      ∀ (hlen : bs.length = ncs.length),
      (∀ j (hj : j < bs.length),
        if created.contains bs[j] = true then (getElem ncs j (hlen ▸ hj)) = bs[j]
        else ∃ d p, targets.get? (i + j) = some d ∧
          childStepOutcome diffFn bs[j] d = some (p, (getElem ncs j (hlen ▸ hj)))) →
      (∀ j (hj : j < bs.length), created.contains bs[j] = false →
        bs[j] ∉ pre ∧
        (∀ j' (hj' : j' < ncs.length), j' ≠ j → ncs[j'] ≠ bs[j]) ∧
        (∀ j' (hj' : j' < bs.length), j' ≠ j → bs[j'] ≠ bs[j])) →
      ∃ ps, childRecLoop diffFn targets created bs i (pre ++ bs) = some (ps, pre ++ ncs)
  | [], ncs, pre, i, _, hlen, _, _ => by
    have hncs : ncs = [] := by
      cases ncs with
      | nil => rfl
      | cons a l => cases hlen
    subst hncs
    exact ⟨[], rfl⟩
  | b :: bs', ncs, pre, i, hpre, hlen, hres, hsep => by
    cases ncs with
    | nil => cases hlen
    | cons nc ncs' =>
    have hlen' : bs'.length = ncs'.length := by
      simpa using hlen
    have hres0 := hres 0 (by simp)
    by_cases hcr : created.contains b = true
    · rw [if_pos (by simpa using hcr)] at hres0
      have hnc : nc = b := by simpa using hres0
      unfold childRecLoop
      rw [if_pos (by simpa using hcr)]
      have hreal : pre ++ b :: bs' = (pre ++ [b]) ++ bs' := by simp
      rw [hreal]
      obtain ⟨ps, hrec⟩ := childRecLoop_spec diffFn targets created bs' ncs'
        (pre ++ [b]) (i + 1) (by simp [hpre]) hlen'
        (fun j hj => by
          have := hres (j + 1) (by simpa using hj)
          rw [show i + 1 + j = i + (j + 1) by omega]
          simpa using this)
        (fun j hj hcrj => by
          have h1 := hsep (j + 1) (by simpa using hj) (by simpa using hcrj)
          refine ⟨?_, ?_, ?_⟩
          · rw [List.mem_append]
            rintro (hm | hm)
            · exact h1.1 (by simpa using hm)
            · rw [List.mem_singleton] at hm
              have h2 := h1.2.2 0 (by simp) (by omega)
              simp only [List.getElem_cons_zero, List.getElem_cons_succ] at h2
              exact h2 hm.symm
          · intro j' hj' hne
            have := h1.2.1 (j' + 1) (by simpa using hj') (by omega)
            simpa using this
          · intro j' hj' hne
            have := h1.2.2 (j' + 1) (by simpa using hj') (by omega)
            simpa using this)
      refine ⟨ps, ?_⟩
      rw [hrec, hnc]
      simp
    · have hcr' : created.contains b = false := by
        cases h : created.contains b
        · rfl
        · exact absurd h hcr
      rw [if_neg (by simpa using hcr')] at hres0
      obtain ⟨d, p, hd, hout⟩ := hres0
      rw [Nat.add_zero] at hd
      have hsep0 := hsep 0 (by simp) (by simpa using hcr')
      have hbpre : b ∉ pre := by
        have := hsep0.1
        simpa using this
      unfold childRecLoop
      rw [if_neg (by rw [hcr']; exact Bool.false_ne_true), hd,
        elementChildStep_at diffFn b d pre bs' hbpre]
      have hout' : childStepOutcome diffFn b d = some (p, nc) := by
        have := hout
        simpa using this
      rw [hout']
      dsimp only [Option.map_some']
      have hreal : pre ++ nc :: bs' = (pre ++ [nc]) ++ bs' := by simp
      rw [hreal]
      obtain ⟨ps, hrec⟩ := childRecLoop_spec diffFn targets created bs' ncs'
        (pre ++ [nc]) (i + 1) (by simp [hpre]) hlen'
        (fun j hj => by
          have := hres (j + 1) (by simpa using hj)
          rw [show i + 1 + j = i + (j + 1) by omega]
          simpa using this)
        (fun j hj hcrj => by
          have h1 := hsep (j + 1) (by simpa using hj) (by simpa using hcrj)
          refine ⟨?_, ?_, ?_⟩
          · rw [List.mem_append]
            rintro (hm | hm)
            · exact h1.1 (by simpa using hm)
            · rw [List.mem_singleton] at hm
              have h2 := h1.2.1 0 (by simp) (by omega)
              simp only [List.getElem_cons_zero, List.getElem_cons_succ] at h2
              exact h2 hm.symm
          · intro j' hj' hne
            have := h1.2.1 (j' + 1) (by simpa using hj') (by omega)
            simpa using this
          · intro j' hj' hne
            have := h1.2.2 (j' + 1) (by simpa using hj') (by omega)
            simpa using this)
      refine ⟨p ++ ps, ?_⟩
      rw [hrec]
      simp

end RecLoop

section ChildrenFull

/-- The children pass of `elementPatches`, fused with its application, on a
source-children array and target descriptions whose nodes are keyed and
resolvable: it succeeds, and the final children array holds, in target-key
order, each key's outcome node — the created node for fresh keys and the
per-child step outcome for surviving keys. -/
theorem elementChildrenDiff_full (diffFn : Elem → Desc → Option (List DomPatch × Elem))
    (S : List Elem) (tg : List Desc) (F nc : NodeKey → Elem)
    (hfnd : (elemChildKeys S).Nodup) (htnd : (descChildKeys tg).Nodup)
    (hFsrcP : ∀ j (hj : j < S.length),
      F ((getElem (elemChildKeys S) j (by rw [elemChildKeys_length]; exact hj))) = S[j])
    (hFtgtP : ∀ j (hj : j < tg.length),
      (getElem (descChildKeys tg) j (by rw [descChildKeys_length]; exact hj)) ∉ elemChildKeys S →
      F ((getElem (descChildKeys tg) j (by rw [descChildKeys_length]; exact hj))) =
        createElem tg[j])
    (htagF : ∀ k, (k ∈ elemChildKeys S ∨ k ∈ descChildKeys tg) →
      jsKeyOrNull (F k).description.key = some k)
    (htagN : ∀ k ∈ descChildKeys tg, jsKeyOrNull ((nc k).description.key) = some k)
    (houtC : ∀ k ∈ descChildKeys tg, k ∉ elemChildKeys S → nc k = F k)
    (houtD : ∀ j (hj : j < tg.length),
      (getElem (descChildKeys tg) j (by rw [descChildKeys_length]; exact hj)) ∈ elemChildKeys S →
      ∃ p, childStepOutcome diffFn
          (F ((getElem (descChildKeys tg) j (by rw [descChildKeys_length]; exact hj)))) (tg[j]) =
        some (p, nc ((getElem (descChildKeys tg) j (by rw [descChildKeys_length]; exact hj))))) :
    ∃ ps, elementChildrenDiff diffFn S tg (some S) =
      some (ps, some ((descChildKeys tg).map nc)) := by
  have hlenS : (elemChildKeys S).length = S.length := elemChildKeys_length S
  have hlenT : (descChildKeys tg).length = tg.length := descChildKeys_length tg
  have hFinj : ∀ k1, (k1 ∈ elemChildKeys S ∨ k1 ∈ descChildKeys tg) →
      ∀ k2, (k2 ∈ elemChildKeys S ∨ k2 ∈ descChildKeys tg) → F k1 = F k2 → k1 = k2 := by
    intro k1 h1 k2 h2 he
    have t1 := htagF k1 h1
    have t2 := htagF k2 h2
    rw [he] at t1
    exact Option.some.inj (t1.symm.trans t2)
  have hS : S = (elemChildKeys S).map F := by
    refine List.ext_getElem (by rw [List.length_map, hlenS]) ?_
    intro j h1 h2
    rw [List.getElem_map]
    exact (hFsrcP j h1).symm
  have hsrc : ∀ k ∈ elemChildKeys S,
      S.get? ((elemChildKeys S).indexOf k) = some (F k) := by
    intro k hk
    have hi : (elemChildKeys S).indexOf k < (elemChildKeys S).length :=
      List.indexOf_lt_length.mpr hk
    have hgi : (elemChildKeys S)[(elemChildKeys S).indexOf k] = k :=
      List.getElem_indexOf hi
    have hi' : (elemChildKeys S).indexOf k < S.length := by omega
    rw [List.get?_eq_getElem?, List.getElem?_eq_getElem hi']
    have h2 := hFsrcP ((elemChildKeys S).indexOf k) hi'
    rw [hgi] at h2
    rw [← h2]
  have htgt : ∀ k ∈ descChildKeys tg, k ∉ elemChildKeys S →
      ∃ d, tg.get? ((descChildKeys tg).indexOf k) = some d ∧ createElem d = F k := by
    intro k hk hknf
    have hi : (descChildKeys tg).indexOf k < (descChildKeys tg).length :=
      List.indexOf_lt_length.mpr hk
    have hgi : (descChildKeys tg)[(descChildKeys tg).indexOf k] = k :=
      List.getElem_indexOf hi
    have hi' : (descChildKeys tg).indexOf k < tg.length := by omega
    refine ⟨tg[(descChildKeys tg).indexOf k], ?_, ?_⟩
    · rw [List.get?_eq_getElem?, List.getElem?_eq_getElem hi']
    · have h2 := hFtgtP ((descChildKeys tg).indexOf k) hi'
      rw [hgi] at h2
      rw [h2 hknf]
  obtain ⟨ps1, hfold⟩ := childMoves_replay S (elemChildKeys S) (descChildKeys tg) tg F
    hfnd htnd hsrc htgt
    (fun k1 h1 k2 h2 => hFinj k1 (Or.inl h1) k2 (Or.inl h2)) hS
  obtain ⟨ps2, hloop⟩ := childRecLoop_spec diffFn tg
    (((descChildKeys tg).filter fun k => decide (k ∉ elemChildKeys S)).map F)
    ((descChildKeys tg).map F) ((descChildKeys tg).map nc) [] 0 rfl
    (by rw [List.length_map, List.length_map])
    (fun j hj => by
      have hjt : j < (descChildKeys tg).length := by
        rw [List.length_map] at hj
        exact hj
      have hjg : j < tg.length := by omega
      have hbs : (getElem ((descChildKeys tg).map F) j hj) = F ((getElem (descChildKeys tg) j hjt)) :=
        List.getElem_map _
      have hns : ∀ h, (getElem ((descChildKeys tg).map nc) j h) = nc ((getElem (descChildKeys tg) j hjt)) :=
        fun h => List.getElem_map _
      by_cases hkf : (getElem (descChildKeys tg) j hjt) ∈ elemChildKeys S
      · have hcont : (((descChildKeys tg).filter fun k =>
            decide (k ∉ elemChildKeys S)).map F).contains
              ((getElem ((descChildKeys tg).map F) j hj)) = false := by
          refine contains_false_of_not_mem2 ?_
          rw [hbs]
          intro hmem
          obtain ⟨k', hk', hFk'⟩ := List.mem_map.mp hmem
          have hk't : k' ∈ descChildKeys tg := List.mem_of_mem_filter hk'
          have hk'f : k' ∉ elemChildKeys S := by
            have := List.of_mem_filter hk'
            simpa using this
          have hkeq := hFinj k' (Or.inr hk't) ((getElem (descChildKeys tg) j hjt))
            (Or.inr (List.getElem_mem hjt)) hFk'
          rw [hkeq] at hk'f
          exact hk'f hkf
        rw [hcont, if_neg Bool.false_ne_true]
        obtain ⟨p, hout⟩ := houtD j hjg hkf
        refine ⟨(getElem tg j hjg), p, ?_, ?_⟩
        · rw [Nat.zero_add, List.get?_eq_getElem?, List.getElem?_eq_getElem hjg]
        · rw [hbs, hns]
          exact hout
      · have hcont : (((descChildKeys tg).filter fun k =>
            decide (k ∉ elemChildKeys S)).map F).contains
              ((getElem ((descChildKeys tg).map F) j hj)) = true := by
          refine contains_true_of_mem2 ?_
          rw [hbs]
          refine List.mem_map.mpr ⟨(getElem (descChildKeys tg) j hjt), ?_, rfl⟩
          rw [List.mem_filter]
          exact ⟨List.getElem_mem hjt, by simpa using hkf⟩
        rw [hcont, if_pos rfl, hbs, hns]
        exact houtC _ (List.getElem_mem hjt) hkf)
    (fun j hj _ => by
      have hjt : j < (descChildKeys tg).length := by
        rw [List.length_map] at hj
        exact hj
      have hbs : (getElem ((descChildKeys tg).map F) j hj) = F ((getElem (descChildKeys tg) j hjt)) :=
        List.getElem_map _
      refine ⟨by simp, ?_, ?_⟩
      · intro j' hj' hne
        have hj't : j' < (descChildKeys tg).length := by
          rw [List.length_map] at hj'
          exact hj'
        rw [hbs, List.getElem_map]
        intro he
        have t1 := htagN ((getElem (descChildKeys tg) j' hj't)) (List.getElem_mem hj't)
        have t2 := htagF ((getElem (descChildKeys tg) j hjt)) (Or.inr (List.getElem_mem hjt))
        rw [he] at t1
        have hkk := Option.some.inj (t1.symm.trans t2)
        exact hne (htnd.getElem_inj_iff.mp hkk)
      · intro j' hj' hne
        have hj't : j' < (descChildKeys tg).length := by
          rw [List.length_map] at hj'
          exact hj'
        rw [hbs, List.getElem_map]
        intro he
        have t1 := htagF ((getElem (descChildKeys tg) j' hj't)) (Or.inr (List.getElem_mem hj't))
        have t2 := htagF ((getElem (descChildKeys tg) j hjt)) (Or.inr (List.getElem_mem hjt))
        rw [he] at t1
        have hkk := Option.some.inj (t1.symm.trans t2)
        exact hne (htnd.getElem_inj_iff.mp hkk))
  simp only [List.nil_append] at hloop
  refine ⟨ps1 ++ ps2, ?_⟩
  unfold elementChildrenDiff
  rw [if_neg (by simp [hfnd, htnd])]
  dsimp only
  rw [hfold]
  dsimp only
  rw [hloop]

end ChildrenFull

section ChildrenNone

/-- An `insertChild` on a parent whose children array is still undefined
materializes it as empty first — the step cannot tell the two apart. -/
theorem childMoveStep_insert_none_start (S : List Elem) (fk tk : List NodeKey)
    (tg : List Desc) (c : List Elem) (m : List (NodeKey × Elem))
    (p : List DomPatch) (key : NodeKey) (a : Nat) :
    childMoveStep S fk tk tg ⟨S, none, c, m, p⟩ (Move.insert key a) =
      childMoveStep S fk tk tg ⟨S, some [], c, m, p⟩ (Move.insert key a) := by
  unfold childMoveStep
  cases hg : getNode? S fk tk tg m (Move.insert key a).item (Move.insert key a).isMove with
  | none => rfl
  | some nw =>
    rcases nw with ⟨node, wc⟩
    cases wc <;> rfl

/-- The children pass on a parent without a children array, against a
non-empty target list: every target child is created and inserted in order. -/
theorem elementChildrenDiff_none (diffFn : Elem → Desc → Option (List DomPatch × Elem))
    (tg : List Desc) (F : NodeKey → Elem)
    (htnd : (descChildKeys tg).Nodup) (hne : tg ≠ [])
    (hFtgtP : ∀ j (hj : j < tg.length),
      F ((getElem (descChildKeys tg) j (by rw [descChildKeys_length]; exact hj))) =
        createElem tg[j]) :
    ∃ ps, elementChildrenDiff diffFn [] tg none =
      some (ps, some ((descChildKeys tg).map F)) := by
  have hlenT : (descChildKeys tg).length = tg.length := descChildKeys_length tg
  have hfk : elemChildKeys ([] : List Elem) = [] := rfl
  have htgt : ∀ k ∈ descChildKeys tg, k ∉ elemChildKeys ([] : List Elem) →
      ∃ d, tg.get? ((descChildKeys tg).indexOf k) = some d ∧ createElem d = F k := by
    intro k hk _
    have hi : (descChildKeys tg).indexOf k < (descChildKeys tg).length :=
      List.indexOf_lt_length.mpr hk
    have hgi : (descChildKeys tg)[(descChildKeys tg).indexOf k] = k :=
      List.getElem_indexOf hi
    have hi' : (descChildKeys tg).indexOf k < tg.length := by omega
    refine ⟨tg[(descChildKeys tg).indexOf k], ?_, ?_⟩
    · rw [List.get?_eq_getElem?, List.getElem?_eq_getElem hi']
    · have h2 := hFtgtP ((descChildKeys tg).indexOf k) hi'
      rw [hgi] at h2
      rw [h2]
  obtain ⟨ps1, hfold⟩ := childMoves_replay ([] : List Elem) []
    (descChildKeys tg) tg F (by simp) htnd (by simp) (by rw [← hfk]; exact htgt)
    (by simp) rfl
  -- the emitted move list is a non-empty batch of insertions
  have hp1res : phaseOneResult ([] : List NodeKey) (descChildKeys tg) =
      descChildKeys tg := phaseOneResult_nil_source _ htnd
  have hmoves : (calculateMoves ([] : List NodeKey) (descChildKeys tg) none).1 =
      (insertedItems ([] : List NodeKey) (descChildKeys tg)).map
        fun it => Move.insert it.key it.index := by
    unfold calculateMoves
    rw [if_pos hp1res]
    dsimp only
    rw [phaseOneMoves_eq [] (descChildKeys tg) (by simp) htnd]
    rw [show removedItems ([] : List NodeKey) (descChildKeys tg) = [] from rfl]
    simp
  have hins : insertedItems ([] : List NodeKey) (descChildKeys tg) =
      createItems (descChildKeys tg) := by
    unfold insertedItems
    refine List.filter_eq_self.mpr fun it _ => by simp
  have htgne : descChildKeys tg ≠ [] := by
    intro he
    refine hne ?_
    have := descChildKeys_length tg
    rw [he] at this
    cases tg with
    | nil => rfl
    | cons a l => simp at this
  have hstart : (calculateMoves ([] : List NodeKey) (descChildKeys tg) none).1.foldlM
      (childMoveStep [] [] (descChildKeys tg) tg)
      (⟨[], none, [], [], []⟩ : ChildDiffState) =
      (calculateMoves ([] : List NodeKey) (descChildKeys tg) none).1.foldlM
      (childMoveStep [] [] (descChildKeys tg) tg)
      (⟨[], some [], [], [], []⟩ : ChildDiffState) := by
    rw [hmoves, hins]
    cases hk : descChildKeys tg with
    | nil => exact absurd hk htgne
    | cons k0 ks =>
      rw [show createItems (k0 :: ks) = (⟨k0, 0⟩ : Item NodeKey) ::
          (ks.mapIdx fun i k => (⟨k, i + 1⟩ : Item NodeKey)) by
        unfold createItems
        rw [List.mapIdx_cons]]
      rw [List.map_cons, List.foldlM_cons, List.foldlM_cons]
      rw [childMoveStep_insert_none_start]
  refine ?_
  obtain ⟨ps2, hloop⟩ := childRecLoop_spec diffFn tg
    (((descChildKeys tg).filter fun k => decide (k ∉ ([] : List NodeKey))).map F)
    ((descChildKeys tg).map F) ((descChildKeys tg).map F) [] 0 rfl rfl
    (fun j hj => by
      have hjt : j < (descChildKeys tg).length := by
        rw [List.length_map] at hj
        exact hj
      have hcont : ((((descChildKeys tg)).filter fun k =>
          decide (k ∉ ([] : List NodeKey))).map F).contains
            ((getElem ((descChildKeys tg).map F) j hj)) = true := by
        refine contains_true_of_mem2 ?_
        rw [List.getElem_map]
        refine List.mem_map.mpr ⟨(getElem (descChildKeys tg) j hjt), ?_, rfl⟩
        rw [List.mem_filter]
        exact ⟨List.getElem_mem hjt, by simp⟩
      rw [hcont, if_pos rfl])
    (fun j hj hcrj => by
      have hjt : j < (descChildKeys tg).length := by
        rw [List.length_map] at hj
        exact hj
      exfalso
      have hcont : ((((descChildKeys tg)).filter fun k =>
          decide (k ∉ ([] : List NodeKey))).map F).contains
            ((getElem ((descChildKeys tg).map F) j hj)) = true := by
        refine contains_true_of_mem2 ?_
        rw [List.getElem_map]
        refine List.mem_map.mpr ⟨(getElem (descChildKeys tg) j hjt), ?_, rfl⟩
        rw [List.mem_filter]
        exact ⟨List.getElem_mem hjt, by simp⟩
      rw [hcrj] at hcont
      exact Bool.false_ne_true hcont)
  simp only [List.nil_append] at hloop
  refine ⟨ps1 ++ ps2, ?_⟩
  unfold elementChildrenDiff
  rw [if_neg (by rw [show elemChildKeys ([] : List Elem) = [] from rfl]; simp [htnd])]
  dsimp only
  rw [show elemChildKeys ([] : List Elem) = [] from rfl]
  rw [hstart, hfold]
  dsimp only
  rw [hloop]

end ChildrenNone

section MainHelpers

/-- The whole backing-level action of one `elementPatches` call: the category
patches, the text-removal guard and the text-set tail, applied in emission
order. -/
def diffBacking (cur nxt : Desc) (b : Backing) : Backing :=
  (match nxt.text with
    | some t => if cur.text ≠ some t then [DomPatch.setTextContent t] else []
    | none => ([] : List DomPatch)).foldl applyDomPatch
   ((if cur.text.isSome ∧ nxt.text = none then [DomPatch.removeTextContent]
     else []).foldl applyDomPatch ((categoryPatches cur nxt).foldl applyDomPatch b))

theorem createElem_mk (d : Desc) :
    createElem d = Elem.mk d (createBacking d) (createElemChildren d.children) := by
  cases d
  rfl

theorem ElemList.ofList_toList : ∀ m : ElemList, ElemList.ofList m.toList = m
  | .nil => rfl
  | .cons e tl => by
    simp only [ElemList.toList, ElemList.ofList]
    rw [ElemList.ofList_toList tl]

theorem forall₂_of_pointwise {α β : Type _} {R : α → β → Prop} :
    ∀ {l : List α} {m : List β} (hlen : l.length = m.length),
      (∀ j (hj : j < l.length), R ((getElem l j hj)) ((getElem m j (by omega)))) → List.Forall₂ R l m
  | [], [], _, _ => List.Forall₂.nil
  | a :: l, b :: m, hlen, h => by
    refine List.Forall₂.cons (h 0 (by simp)) ?_
    refine forall₂_of_pointwise (by simpa using hlen) ?_
    intro j hj
    have := h (j + 1) (by simpa using hj)
    simpa using this

theorem nodup_indexOf_getElem {α : Type _} [DecidableEq α] {l : List α}
    (hnd : l.Nodup) {j : Nat} (hj : j < l.length) : l.indexOf ((getElem l j hj)) = j := by
  have hsplit : l = l.take j ++ ((getElem l j hj)) :: l.drop (j + 1) := by
    conv_lhs => rw [← List.take_append_drop j l]
    rw [List.drop_eq_getElem_cons hj]
  have hlt : (l.take j).length = j := by
    rw [List.length_take]
    omega
  have hnotin : (getElem l j hj) ∉ l.take j := by
    intro hmem
    have hnd2 : (l.take j ++ ((getElem l j hj)) :: l.drop (j + 1)).Nodup := by
      rw [← hsplit]
      exact hnd
    exact ((List.nodup_append.mp hnd2).2.2) hmem (List.mem_cons_self _ _)
  have h1 : l.indexOf? ((getElem l j hj)) = some j := by
    have h1b := indexOf?_append_cons_self (l.take j) (l.drop (j + 1)) ((getElem l j hj)) hnotin
    rw [hlt] at h1b
    rw [← h1b]
    congr 1
  have h2 := List.indexOf_eq_indexOf? ((getElem l j hj)) l
  rw [h1] at h2
  simpa using h2

/-- The key conjunct of `descEqual`. -/
theorem descEqual_key {a b : Desc} (h : descEqual a b = true) : a.key = b.key := by
  rcases a with ⟨k, n, c, s, at_, ds, pr, ls, cu, tx, ch⟩
  rcases b with ⟨k', n', c', s', at', ds', pr', ls', cu', tx', ch'⟩
  unfold descEqual at h
  rw [Bool.and_eq_true, Bool.and_eq_true, Bool.and_eq_true, Bool.and_eq_true,
    Bool.and_eq_true, Bool.and_eq_true, Bool.and_eq_true, Bool.and_eq_true,
    Bool.and_eq_true, Bool.and_eq_true] at h
  have hk := h.1.1.1.1.1.1.1.1.1.1
  simpa [Desc.key] using hk

/-- Explicit keys make the child key at a position the (index-independent) tag
of the description there. -/
theorem descChildKeys_tag {tg : List Desc}
    (hexp : ∀ c ∈ tg, (jsKeyOrNull c.key).isSome = true) (j : Nat)
    (hj : j < tg.length) :
    jsKeyOrNull ((getElem tg j hj)).key =
      some ((getElem (descChildKeys tg) j (by rw [descChildKeys_length]; exact hj))) := by
  have hs := hexp _ (List.getElem_mem hj)
  rcases hnk : jsKeyOrNull ((getElem tg j hj)).key with _ | nk
  · rw [hnk] at hs
    cases hs
  · rw [descChildKeys_getElem _ j hj, jsKeyOr_of_explicit hnk]

/-- A children array whose entries carry their keys as tags has those keys as
its child-key sequence. -/
theorem elemChildKeys_of_tags {S : List Elem} {ks : List NodeKey}
    (hlen : S.length = ks.length)
    (htag : ∀ j (hj : j < S.length),
      jsKeyOrNull (((getElem S j hj)).description.key) = some ((getElem ks j (by omega)))) :
    elemChildKeys S = ks := by
  refine List.ext_getElem (by rw [elemChildKeys_length]; exact hlen) ?_
  intro j h1 h2
  have hjS : j < S.length := by
    rw [elemChildKeys_length] at h1
    exact h1
  rw [elemChildKeys_getElem _ j hjS, jsKeyOr_of_explicit (htag j hjS)]

/-- A deep-equal description short-circuits `elementPatches`. -/
theorem elementDiff_succ_skip (fuel : Nat) (e : Elem) (d : Desc)
    (heq : descEqual e.description d = true) :
    elementDiff (fuel + 1) e d = some ([], e) := by
  unfold elementDiff
  rw [if_pos heq]

/-- One non-trivial `elementPatches` call, given its children pass's result:
the element ends with the new description, the backing-level net effect, and
the children array the children pass leaves. -/
theorem elementDiff_succ_eq (fuel : Nat) (e : Elem) (d : Desc)
    (hne : descEqual e.description d = false)
    {pc : List DomPatch} {real' : Option (List Elem)} {ech : ElemChildren}
    (hreal : (match real' with
       | none => ElemChildren.noChildren
       | some cs => ElemChildren.withChildren (ElemList.ofList cs)) = ech)
    (hch : (if e.children ≠ ElemChildren.noChildren ∨ d.children ≠ DescChildren.noChildren then
        elementChildrenDiff (elementDiff fuel) ((e.children.toOption).getD [])
          d.children.toList (e.children.toOption)
      else some ([], e.children.toOption)) = some (pc, real')) :
    elementDiff (fuel + 1) e d =
      some (categoryPatches e.description d ++
          (if e.description.text.isSome ∧ d.text = none then
            [DomPatch.removeTextContent] else []) ++
          pc ++
          (match d.text with
           | some t =>
             if e.description.text ≠ some t then [DomPatch.setTextContent t] else []
           | none => []) ++ [DomPatch.updateNode],
        Elem.mk d (diffBacking e.description d e.backing) ech) := by
  unfold elementDiff
  rw [if_neg (by simp [hne])]
  dsimp only
  simp only [hch]
  rw [hreal]
  rfl

/-- One full update cycle forth and back restores the DOM state of a
custom-free wellformed element's backing: class name, every property map, the
listener registry, and the text. -/
theorem diffBacking_round_trip (A B : Desc)
    (hcA : A.custom = none) (hcB : B.custom = none)
    (hsA : (A.style.map Prod.fst).Nodup) (haA : (A.attrs.map Prod.fst).Nodup)
    (hdA : (A.dataset.map Prod.fst).Nodup) (hpA : (A.properties.map Prod.fst).Nodup)
    (hlA : (A.listeners.map Prod.fst).Nodup)
    (hsB : (B.style.map Prod.fst).Nodup) (haB : (B.attrs.map Prod.fst).Nodup)
    (hdB : (B.dataset.map Prod.fst).Nodup) (hpB : (B.properties.map Prod.fst).Nodup)
    (hlB : (B.listeners.map Prod.fst).Nodup) :
    backingEqv (diffBacking B A (diffBacking A B (createBacking A)))
      (createBacking A) = true := by
  rw [createBacking_eq A hcA hsA haA hdA hpA hlA]
  unfold diffBacking
  rw [foldl_categoryPatches A B hcA hcB, foldl_textPatches,
    foldl_categoryPatches B A hcB hcA, foldl_textPatches]
  unfold backingEqv
  dsimp only
  rw [Bool.and_eq_true, Bool.and_eq_true, Bool.and_eq_true, Bool.and_eq_true,
    Bool.and_eq_true, Bool.and_eq_true]
  refine ⟨⟨⟨⟨⟨⟨?_, ?_⟩, ?_⟩, ?_⟩, ?_⟩, ?_⟩, ?_⟩
  · by_cases h : A.className.getD "" = B.className.getD ""
    · rw [if_neg (not_not_intro h.symm), if_neg (not_not_intro h)]
      exact beq_self_eq_true _
    · rw [if_pos fun e => h e.symm]
      exact beq_self_eq_true _
  · refine mapEqv_of_pointwise fun k => ?_
    exact objDiffOps_round_trip _ "" A.style B.style A.style
      (fun a b => decide_eq_decide.mpr ne_comm) hsA hsB (fun _ => rfl) k
  · refine mapEqv_of_pointwise fun k => ?_
    exact objDiffOps_round_trip _ "" A.attrs B.attrs A.attrs
      (fun a b => decide_eq_decide.mpr ne_comm) haA haB (fun _ => rfl) k
  · refine mapEqv_of_pointwise fun k => ?_
    exact objDiffOps_round_trip _ "" A.dataset B.dataset A.dataset
      (fun a b => decide_eq_decide.mpr ne_comm) hdA hdB (fun _ => rfl) k
  · refine mapEqv_of_pointwise fun k => ?_
    exact objDiffOps_round_trip _ Value.vNull A.properties B.properties A.properties
      (fun a b => by rw [deepEqual_symm]) hpA hpB (fun _ => rfl) k
  · refine mapEqv_of_pointwise fun k => ?_
    exact listenerPass_round_trip A.listeners B.listeners A.listeners
      hlA hlB hlA (fun _ => rfl) k
  · rcases hct : A.text with _ | a <;> rcases hnt : B.text with _ | t
    · simp
    · simp
    · simp
    · by_cases hat : a = t
      · subst hat
        simp
      · simp [Ne.symm hat]

end MainHelpers

section RoundTripHelpers

/-- The child description a key resolves to on a key sequence (`getNode`'s
`indexOf`-based description lookup), with a default for absent keys. -/
def descAt (tg : List Desc) (d0 : Desc) (k : NodeKey) : Desc :=
  tg.getD ((descChildKeys tg).indexOf k) d0

/-- The node `elementChildPatches` leaves for one child: `childStepOutcome`'s
node component, with the child itself as fallback. -/
def childOutcomeNode (diffFn : Elem → Desc → Option (List DomPatch × Elem))
    (child : Elem) (d : Desc) : Elem :=
  match childStepOutcome diffFn child d with
  | some pc => pc.2
  | none => child

/-- The child node the forward pass (source children `tgA`, target children
`tgB`) leaves at key `k`. -/
def fwdChild (g1 : Nat) (tgA tgB : List Desc) (d0 : Desc) (k : NodeKey) : Elem :=
  if k ∈ descChildKeys tgA then
    childOutcomeNode (elementDiff g1) (createElem (descAt tgA d0 k)) (descAt tgB d0 k)
  else createElem (descAt tgB d0 k)

/-- Ditto for the backward pass run on the forward pass's result. -/
def bwdChild (g1 g2 : Nat) (tgA tgB : List Desc) (d0 : Desc) (k : NodeKey) : Elem :=
  if k ∈ descChildKeys tgB then
    childOutcomeNode (elementDiff g2) (fwdChild g1 tgA tgB d0 k) (descAt tgA d0 k)
  else createElem (descAt tgA d0 k)

theorem childOutcomeNode_eq {diffFn : Elem → Desc → Option (List DomPatch × Elem)}
    {child : Elem} {d : Desc} {p : List DomPatch} {e : Elem}
    (h : childStepOutcome diffFn child d = some (p, e)) :
    childOutcomeNode diffFn child d = e := by
  unfold childOutcomeNode
  rw [h]

theorem elemEqv_desc_eq :
    ∀ {x y : Elem}, elemEqv x y = true → x.description = y.description
  | .mk d b c, .mk d' b' c', h => by
    simp only [elemEqv, Bool.and_eq_true] at h
    exact eq_of_beq h.1.1

theorem descAt_getElem {tg : List Desc} (d0 : Desc) (hnd : (descChildKeys tg).Nodup)
    {j : Nat} (hj : j < tg.length) :
    descAt tg d0
        ((getElem (descChildKeys tg) j (by rw [descChildKeys_length]; exact hj))) =
      getElem tg j hj := by
  unfold descAt
  rw [nodup_indexOf_getElem hnd, List.getD_eq_getElem _ _ hj]

theorem descAt_mem {tg : List Desc} (d0 : Desc) {k : NodeKey}
    (hk : k ∈ descChildKeys tg) : descAt tg d0 k ∈ tg := by
  have hi : (descChildKeys tg).indexOf k < (descChildKeys tg).length :=
    List.indexOf_lt_length.mpr hk
  have hi' : (descChildKeys tg).indexOf k < tg.length := by
    rw [descChildKeys_length] at hi
    exact hi
  unfold descAt
  rw [List.getD_eq_getElem _ _ hi']
  exact List.getElem_mem hi'

theorem descAt_tag {tg : List Desc} (d0 : Desc)
    (hexp : ∀ c ∈ tg, (jsKeyOrNull c.key).isSome = true) {k : NodeKey}
    (hk : k ∈ descChildKeys tg) :
    jsKeyOrNull (descAt tg d0 k).key = some k := by
  have hi : (descChildKeys tg).indexOf k < (descChildKeys tg).length :=
    List.indexOf_lt_length.mpr hk
  have hi' : (descChildKeys tg).indexOf k < tg.length := by
    rw [descChildKeys_length] at hi
    exact hi
  have hg : getElem (descChildKeys tg) ((descChildKeys tg).indexOf k) hi = k :=
    List.getElem_indexOf hi
  unfold descAt
  rw [List.getD_eq_getElem _ _ hi']
  have htag := descChildKeys_tag hexp _ hi'
  rw [hg] at htag
  exact htag


/-- One child pair's full cycle: given the round trip at smaller measure, the
per-child step of `elementChildPatches` succeeds both ways, returns to a node
equivalent to the original child, and keeps descriptions traceable. -/
theorem childPair_round_trip (n : Nat)
    (ih : ∀ a b : Desc, a.size + b.size ≤ n → wfDesc a = true → wfDesc b = true →
      customFree a = true → customFree b = true → ∀ g1 g2 : Nat, b.size ≤ g1 →
      a.size ≤ g2 →
      ∃ p1 e1 p2 e2, elementDiff g1 (createElem a) b = some (p1, e1) ∧
        (descEqual a b = false → e1.description = b) ∧
        elementDiff g2 e1 a = some (p2, e2) ∧ elemEqv e2 (createElem a) = true)
    (a b : Desc) (hsz : a.size + b.size ≤ n) (hwa : wfDesc a = true)
    (hwb : wfDesc b = true) (hca : customFree a = true) (hcb : customFree b = true)
    (g1 g2 : Nat) (hg1 : b.size ≤ g1) (hg2 : a.size ≤ g2) :
    ∃ p e1 q e2,
      childStepOutcome (elementDiff g1) (createElem a) b = some (p, e1) ∧
      (e1.description = a ∨ e1.description = b) ∧
      childStepOutcome (elementDiff g2) e1 a = some (q, e2) ∧
      elemEqv e2 (createElem a) = true ∧
      e2.description = a := by
  have hcd : (createElem a).description = a := createElem_description a
  by_cases hname : a.name = b.name
  · by_cases heq : descEqual a b = true
    · refine ⟨[], createElem a, [], createElem a, ?_, Or.inl hcd, ?_,
        elemEqv_refl _, hcd⟩
      · unfold childStepOutcome
        rw [hcd, if_pos hname, if_pos heq]
      · unfold childStepOutcome
        rw [hcd, if_pos rfl, if_pos (descEqual_refl a)]
    · have hne' : descEqual a b = false := by
        revert heq
        cases descEqual a b <;> simp
      obtain ⟨p1, e1, p2, e2, hfw, hdesc, hbw, heqv⟩ :=
        ih a b hsz hwa hwb hca hcb g1 g2 hg1 hg2
      have hd1 : e1.description = b := hdesc hne'
      refine ⟨p1, e1, p2, e2, ?_, Or.inr hd1, ?_, heqv, ?_⟩
      · unfold childStepOutcome
        rw [hcd, if_pos hname, if_neg (by rw [hne']; exact Bool.false_ne_true), hfw]
      · unfold childStepOutcome
        rw [hd1, if_pos hname.symm,
          if_neg (by rw [(descEqual_symm b a).trans hne']; exact Bool.false_ne_true),
          hbw]
      · exact (elemEqv_desc_eq heqv).trans hcd
  · refine ⟨[DomPatch.replaceChildNode], createElem b, [DomPatch.replaceChildNode],
      createElem a, ?_, Or.inr (createElem_description b), ?_, elemEqv_refl _,
      createElem_description a⟩
    · unfold childStepOutcome
      rw [hcd, if_neg hname]
    · unfold childStepOutcome
      rw [createElem_description b, if_neg fun e => hname e.symm]



/-- The key-to-node assignment the forward children pass resolves sources and
fresh targets through. -/
def srcAssign (tgA tgB : List Desc) (d0 : Desc) (k : NodeKey) : Elem :=
  if k ∈ descChildKeys tgA then createElem (descAt tgA d0 k)
  else createElem (descAt tgB d0 k)

/-- Ditto for the backward pass over the forward pass's result. -/
def bwdAssign (g1 : Nat) (tgA tgB : List Desc) (d0 : Desc) (k : NodeKey) : Elem :=
  if k ∈ descChildKeys tgB then fwdChild g1 tgA tgB d0 k
  else createElem (descAt tgA d0 k)

/-- One direction of the children pass, on a source array given as tagged
nodes over a key list: the pass succeeds and leaves the per-key outcome nodes
in target-key order. -/
theorem childrenPass_assign (diffFn : Elem → Desc → Option (List DomPatch × Elem))
    (f : NodeKey → Elem) (ks : List NodeKey) (tg : List Desc) (d0 : Desc)
    (hknd : ks.Nodup) (htnd : (descChildKeys tg).Nodup)
    (hexp : ∀ c ∈ tg, (jsKeyOrNull c.key).isSome = true)
    (htagsf : ∀ k ∈ ks, jsKeyOrNull ((f k).description.key) = some k)
    (F nc : NodeKey → Elem)
    (hFin : ∀ k ∈ ks, F k = f k)
    (hFout : ∀ k, k ∉ ks → k ∈ descChildKeys tg → F k = createElem (descAt tg d0 k))
    (htagN : ∀ k ∈ descChildKeys tg, jsKeyOrNull ((nc k).description.key) = some k)
    (houtC : ∀ k ∈ descChildKeys tg, k ∉ ks → nc k = F k)
    (houtD : ∀ k, k ∈ descChildKeys tg → k ∈ ks →
      ∃ p, childStepOutcome diffFn (f k) (descAt tg d0 k) = some (p, nc k)) :
    ∃ ps, elementChildrenDiff diffFn (ks.map f) tg (some (ks.map f)) =
      some (ps, some ((descChildKeys tg).map nc)) := by
  have hkeys : elemChildKeys (ks.map f) = ks := by
    refine elemChildKeys_of_tags (by rw [List.length_map]) ?_
    intro j hj
    have hjk : j < ks.length := by
      rw [List.length_map] at hj
      exact hj
    rw [List.getElem_map]
    exact htagsf _ (List.getElem_mem _)
  refine elementChildrenDiff_full diffFn (ks.map f) tg F nc
    (by rw [hkeys]; exact hknd) htnd ?_ ?_ ?_ htagN ?_ ?_
  · intro j hj
    have hjk : j < ks.length := by
      rw [List.length_map] at hj
      exact hj
    have hkeq : getElem (elemChildKeys (ks.map f)) j
        (by rw [elemChildKeys_length]; exact hj) = getElem ks j hjk :=
      List.getElem_of_eq hkeys _
    rw [hkeq, hFin _ (List.getElem_mem _), List.getElem_map]
  · intro j hj hnot
    rw [hkeys] at hnot
    rw [hFout _ hnot (List.getElem_mem _), descAt_getElem d0 htnd hj]
  · intro k hk
    rcases hk with hk | hk
    · rw [hkeys] at hk
      rw [hFin _ hk]
      exact htagsf _ hk
    · by_cases hks : k ∈ ks
      · rw [hFin _ hks]
        exact htagsf _ hks
      · rw [hFout _ hks hk, createElem_description]
        exact descAt_tag d0 hexp hk
  · intro k hk hnot
    rw [hkeys] at hnot
    exact houtC _ hk hnot
  · intro j hj hmem
    rw [hkeys] at hmem
    obtain ⟨p, ho⟩ := houtD _ (List.getElem_mem _) hmem
    refine ⟨p, ?_⟩
    rw [hFin _ hmem, ← descAt_getElem d0 htnd hj]
    exact ho

/-- The children pass of one update cycle both ways, for explicitly keyed
children lists: the forward pass leaves the `fwdChild` nodes in target-key
order, the backward pass on that result leaves the `bwdChild` nodes in
source-key order, each equivalent to the source's created child. -/
theorem bothChildren_spec (g1 g2 : Nat) (tgA tgB : List Desc) (d0 : Desc)
    (hAnd : (descChildKeys tgA).Nodup) (hBnd : (descChildKeys tgB).Nodup)
    (hAexp : ∀ c ∈ tgA, (jsKeyOrNull c.key).isSome = true)
    (hBexp : ∀ c ∈ tgB, (jsKeyOrNull c.key).isSome = true)
    (hstep : ∀ k, k ∈ descChildKeys tgA → k ∈ descChildKeys tgB →
      ∃ p e1 q e2,
        childStepOutcome (elementDiff g1) (createElem (descAt tgA d0 k))
          (descAt tgB d0 k) = some (p, e1) ∧
        (e1.description = descAt tgA d0 k ∨ e1.description = descAt tgB d0 k) ∧
        childStepOutcome (elementDiff g2) e1 (descAt tgA d0 k) = some (q, e2) ∧
        elemEqv e2 (createElem (descAt tgA d0 k)) = true ∧
        e2.description = descAt tgA d0 k) :
    (∃ ps, elementChildrenDiff (elementDiff g1) (tgA.map createElem) tgB
        (some (tgA.map createElem)) =
      some (ps, some ((descChildKeys tgB).map (fwdChild g1 tgA tgB d0)))) ∧
    (∃ qs, elementChildrenDiff (elementDiff g2)
        ((descChildKeys tgB).map (fwdChild g1 tgA tgB d0)) tgA
        (some ((descChildKeys tgB).map (fwdChild g1 tgA tgB d0))) =
      some (qs, some ((descChildKeys tgA).map (bwdChild g1 g2 tgA tgB d0)))) ∧
    List.Forall₂ (fun x y => elemEqv x y = true)
      ((descChildKeys tgA).map (bwdChild g1 g2 tgA tgB d0))
      (tgA.map createElem) := by
  have hfwdS : ∀ k, k ∈ descChildKeys tgA → k ∈ descChildKeys tgB →
      ∃ p e1 q e2,
        childStepOutcome (elementDiff g1) (createElem (descAt tgA d0 k))
          (descAt tgB d0 k) = some (p, e1) ∧
        fwdChild g1 tgA tgB d0 k = e1 ∧
        (e1.description = descAt tgA d0 k ∨ e1.description = descAt tgB d0 k) ∧
        childStepOutcome (elementDiff g2) e1 (descAt tgA d0 k) = some (q, e2) ∧
        bwdChild g1 g2 tgA tgB d0 k = e2 ∧
        elemEqv e2 (createElem (descAt tgA d0 k)) = true ∧
        e2.description = descAt tgA d0 k := by
    intro k hkA hkB
    obtain ⟨p, e1, q, e2, ho1, hd1, ho2, heqv, hd2⟩ := hstep k hkA hkB
    refine ⟨p, e1, q, e2, ho1, ?_, hd1, ho2, ?_, heqv, hd2⟩
    · unfold fwdChild
      rw [if_pos hkA, childOutcomeNode_eq ho1]
    · unfold bwdChild
      rw [if_pos hkB]
      unfold fwdChild
      rw [if_pos hkA, childOutcomeNode_eq ho1, childOutcomeNode_eq ho2]
  have hbwdF : ∀ k, k ∉ descChildKeys tgB →
      bwdChild g1 g2 tgA tgB d0 k = createElem (descAt tgA d0 k) := by
    intro k hk
    unfold bwdChild
    rw [if_neg hk]
  have htagsF : ∀ k ∈ descChildKeys tgB,
      jsKeyOrNull ((fwdChild g1 tgA tgB d0 k).description.key) = some k := by
    intro k hkB
    by_cases hkA : k ∈ descChildKeys tgA
    · obtain ⟨p, e1, q, e2, ho1, hF, hd1, ho2, hB, heqv, hd2⟩ := hfwdS k hkA hkB
      rw [hF]
      rcases hd1 with hd1 | hd1
      · rw [hd1]
        exact descAt_tag d0 hAexp hkA
      · rw [hd1]
        exact descAt_tag d0 hBexp hkB
    · unfold fwdChild
      rw [if_neg hkA, createElem_description]
      exact descAt_tag d0 hBexp hkB
  have htagsB : ∀ k ∈ descChildKeys tgA,
      jsKeyOrNull ((bwdChild g1 g2 tgA tgB d0 k).description.key) = some k := by
    intro k hkA
    by_cases hkB : k ∈ descChildKeys tgB
    · obtain ⟨p, e1, q, e2, ho1, hF, hd1, ho2, hB, heqv, hd2⟩ := hfwdS k hkA hkB
      rw [hB, hd2]
      exact descAt_tag d0 hAexp hkA
    · rw [hbwdF k hkB, createElem_description]
      exact descAt_tag d0 hAexp hkA
  have hcreA : (descChildKeys tgA).map (fun k => createElem (descAt tgA d0 k)) =
      tgA.map createElem := by
    refine List.ext_getElem
      (by rw [List.length_map, List.length_map, descChildKeys_length]) ?_
    intro j h1 h2
    have hjA : j < tgA.length := by
      rw [List.length_map] at h2
      exact h2
    rw [List.getElem_map, List.getElem_map, descAt_getElem d0 hAnd hjA]
  refine ⟨?_, ?_, ?_⟩
  · obtain ⟨ps, h⟩ := childrenPass_assign (elementDiff g1)
      (fun k => createElem (descAt tgA d0 k)) (descChildKeys tgA) tgB d0
      hAnd hBnd hBexp
      (fun k hk => by rw [createElem_description]; exact descAt_tag d0 hAexp hk)
      (srcAssign tgA tgB d0) (fwdChild g1 tgA tgB d0)
      (fun k hk => by unfold srcAssign; rw [if_pos hk])
      (fun k hk1 hk2 => by unfold srcAssign; rw [if_neg hk1])
      htagsF
      (fun k hkB hkA => by unfold fwdChild srcAssign; rw [if_neg hkA, if_neg hkA])
      (fun k hkB hkA => by
        obtain ⟨p, e1, q, e2, ho1, hF, hd1, ho2, hB, heqv, hd2⟩ := hfwdS k hkA hkB
        exact ⟨p, by rw [hF]; exact ho1⟩)
    rw [hcreA] at h
    exact ⟨ps, h⟩
  · obtain ⟨qs, h⟩ := childrenPass_assign (elementDiff g2)
      (fwdChild g1 tgA tgB d0) (descChildKeys tgB) tgA d0
      hBnd hAnd hAexp htagsF
      (bwdAssign g1 tgA tgB d0) (bwdChild g1 g2 tgA tgB d0)
      (fun k hk => by unfold bwdAssign; rw [if_pos hk])
      (fun k hk1 hk2 => by unfold bwdAssign; rw [if_neg hk1])
      htagsB
      (fun k hkA hkB => by unfold bwdChild bwdAssign; rw [if_neg hkB, if_neg hkB])
      (fun k hkA hkB => by
        obtain ⟨p, e1, q, e2, ho1, hF, hd1, ho2, hB, heqv, hd2⟩ := hfwdS k hkA hkB
        exact ⟨q, by rw [hF, hB]; exact ho2⟩)
    exact ⟨qs, h⟩
  · refine forall₂_of_pointwise
      (by rw [List.length_map, List.length_map, descChildKeys_length]) ?_
    intro j hj
    have hjt : j < (descChildKeys tgA).length := by
      rw [List.length_map] at hj
      exact hj
    have hjA : j < tgA.length := by
      rw [descChildKeys_length] at hjt
      exact hjt
    rw [List.getElem_map, List.getElem_map]
    by_cases hkB : getElem (descChildKeys tgA) j hjt ∈ descChildKeys tgB
    · obtain ⟨p, e1, q, e2, ho1, hF, hd1, ho2, hB, heqv, hd2⟩ :=
        hfwdS _ (List.getElem_mem _) hkB
      rw [hB]
      rw [descAt_getElem d0 hAnd hjA] at heqv
      exact heqv
    · rw [hbwdF _ hkB, descAt_getElem d0 hAnd hjA]
      exact elemEqv_refl _



/-- `elementPatches` on an element carrying a children array, given its
children pass's result. -/
theorem elementDiff_succ_withChildren (fuel : Nat) (dcur : Desc) (bk : Backing)
    (m : ElemList) (d : Desc) (hne : descEqual dcur d = false)
    {pc : List DomPatch} {cs : List Elem}
    (hch : elementChildrenDiff (elementDiff fuel) m.toList d.children.toList
      (some m.toList) = some (pc, some cs)) :
    elementDiff (fuel + 1) (Elem.mk dcur bk (ElemChildren.withChildren m)) d =
      some (categoryPatches dcur d ++
          (if dcur.text.isSome ∧ d.text = none then
            [DomPatch.removeTextContent] else []) ++
          pc ++
          (match d.text with
           | some t => if dcur.text ≠ some t then [DomPatch.setTextContent t] else []
           | none => []) ++ [DomPatch.updateNode],
        Elem.mk d (diffBacking dcur d bk)
          (ElemChildren.withChildren (ElemList.ofList cs))) := by
  have hch2 : (if (Elem.mk dcur bk (ElemChildren.withChildren m)).children ≠
        ElemChildren.noChildren ∨ d.children ≠ DescChildren.noChildren then
      elementChildrenDiff (elementDiff fuel)
        (((Elem.mk dcur bk (ElemChildren.withChildren m)).children.toOption).getD [])
        d.children.toList
        ((Elem.mk dcur bk (ElemChildren.withChildren m)).children.toOption)
    else some ([], (Elem.mk dcur bk (ElemChildren.withChildren m)).children.toOption)) =
      some (pc, some cs) := by
    rw [if_pos (Or.inl (by simp [Elem.children]))]
    exact hch
  exact elementDiff_succ_eq fuel (Elem.mk dcur bk (ElemChildren.withChildren m)) d
    hne rfl hch2

/-- `elementPatches` on an element without a children array against a
description without one: no children pass runs. -/
theorem elementDiff_succ_nn (fuel : Nat) (dcur : Desc) (bk : Backing) (d : Desc)
    (hne : descEqual dcur d = false) (hdch : d.children = DescChildren.noChildren) :
    elementDiff (fuel + 1) (Elem.mk dcur bk ElemChildren.noChildren) d =
      some (categoryPatches dcur d ++
          (if dcur.text.isSome ∧ d.text = none then
            [DomPatch.removeTextContent] else []) ++
          [] ++
          (match d.text with
           | some t => if dcur.text ≠ some t then [DomPatch.setTextContent t] else []
           | none => []) ++ [DomPatch.updateNode],
        Elem.mk d (diffBacking dcur d bk) ElemChildren.noChildren) := by
  have hch2 : (if (Elem.mk dcur bk ElemChildren.noChildren).children ≠
        ElemChildren.noChildren ∨ d.children ≠ DescChildren.noChildren then
      elementChildrenDiff (elementDiff fuel)
        (((Elem.mk dcur bk ElemChildren.noChildren).children.toOption).getD [])
        d.children.toList
        ((Elem.mk dcur bk ElemChildren.noChildren).children.toOption)
    else some ([], (Elem.mk dcur bk ElemChildren.noChildren).children.toOption)) =
      some ([], none) := by
    rw [hdch, if_neg (by simp [Elem.children])]
    rfl
  exact elementDiff_succ_eq fuel (Elem.mk dcur bk ElemChildren.noChildren) d
    hne rfl hch2

/-- `elementPatches` on an element without a children array against a
description with one: the children pass runs on an undefined source. -/
theorem elementDiff_succ_nw (fuel : Nat) (dcur : Desc) (bk : Backing) (d : Desc)
    (lB : DescList) (hne : descEqual dcur d = false)
    (hdch : d.children = DescChildren.withChildren lB)
    {pc : List DomPatch} {cs : List Elem}
    (hch : elementChildrenDiff (elementDiff fuel) [] lB.toList none =
      some (pc, some cs)) :
    elementDiff (fuel + 1) (Elem.mk dcur bk ElemChildren.noChildren) d =
      some (categoryPatches dcur d ++
          (if dcur.text.isSome ∧ d.text = none then
            [DomPatch.removeTextContent] else []) ++
          pc ++
          (match d.text with
           | some t => if dcur.text ≠ some t then [DomPatch.setTextContent t] else []
           | none => []) ++ [DomPatch.updateNode],
        Elem.mk d (diffBacking dcur d bk)
          (ElemChildren.withChildren (ElemList.ofList cs))) := by
  have hch2 : (if (Elem.mk dcur bk ElemChildren.noChildren).children ≠
        ElemChildren.noChildren ∨ d.children ≠ DescChildren.noChildren then
      elementChildrenDiff (elementDiff fuel)
        (((Elem.mk dcur bk ElemChildren.noChildren).children.toOption).getD [])
        d.children.toList
        ((Elem.mk dcur bk ElemChildren.noChildren).children.toOption)
    else some ([], (Elem.mk dcur bk ElemChildren.noChildren).children.toOption)) =
      some (pc, some cs) := by
    rw [if_pos (Or.inr (by rw [hdch]; simp)), hdch]
    exact hch
  exact elementDiff_succ_eq fuel (Elem.mk dcur bk ElemChildren.noChildren) d
    hne rfl hch2

/-- The forward children pass on a parent without a children array creates
the `fwdChild` nodes (all fresh) in target-key order. -/
theorem noSourceChildren_spec (g1 : Nat) (tgB : List Desc) (d0 : Desc)
    (hBnd : (descChildKeys tgB).Nodup) (hne : tgB ≠ [])
    (hBexp : ∀ c ∈ tgB, (jsKeyOrNull c.key).isSome = true) :
    ∃ ps, elementChildrenDiff (elementDiff g1) [] tgB none =
      some (ps, some ((descChildKeys tgB).map (fwdChild g1 [] tgB d0))) := by
  refine elementChildrenDiff_none (elementDiff g1) tgB (fwdChild g1 [] tgB d0)
    hBnd hne ?_
  intro j hj
  unfold fwdChild
  rw [if_neg (by simp [descChildKeys]), descAt_getElem d0 hBnd hj]



theorem descChildKeys_nil : descChildKeys ([] : List Desc) = [] := by
  simp [descChildKeys]

theorem elemEqv_mk_createElem {A : Desc} {bk : Backing} {ech : ElemChildren}
    (hbk : backingEqv bk (createBacking A) = true)
    (hch : elemChildrenEqv ech (createElemChildren A.children) = true) :
    elemEqv (Elem.mk A bk ech) (createElem A) = true := by
  rw [createElem_mk]
  simp only [elemEqv]
  rw [beq_self_eq_true, hbk, hch]
  rfl

/-- Round trip of one full update cycle on wellformed custom-free trees:
diffing a freshly created tree of `A` to `B` and diffing the result back to
`A` succeeds — on any sufficient fuel — and restores a tree equivalent to the
original in every property category. The intermediate description is tracked
for the recursion through children. -/
theorem elementDiff_round_trip :
    ∀ n : Nat, ∀ A B : Desc, A.size + B.size ≤ n → wfDesc A = true →
      wfDesc B = true → customFree A = true → customFree B = true →
      ∀ f1 f2 : Nat, B.size ≤ f1 → A.size ≤ f2 →
      ∃ p1 e1 p2 e2, elementDiff f1 (createElem A) B = some (p1, e1) ∧
        (descEqual A B = false → e1.description = B) ∧
        elementDiff f2 e1 A = some (p2, e2) ∧ elemEqv e2 (createElem A) = true
  | 0, A, B, hsz, _, _, _, _, _, _, _, _ => by
    exfalso
    have h1 := Desc.dsize_pos A
    have h2 := Desc.dsize_pos B
    omega
  | n + 1, A, B, hsz, hwA, hwB, hcA, hcB, f1, f2, hf1, hf2 => by
    have ih := elementDiff_round_trip n
    obtain ⟨g1, rfl⟩ : ∃ g1, f1 = g1 + 1 := by
      cases f1 with
      | zero =>
        exfalso
        have := Desc.dsize_pos B
        omega
      | succ g => exact ⟨g, rfl⟩
    obtain ⟨g2, rfl⟩ : ∃ g2, f2 = g2 + 1 := by
      cases f2 with
      | zero =>
        exfalso
        have := Desc.dsize_pos A
        omega
      | succ g => exact ⟨g, rfl⟩
    by_cases hAB : descEqual A B = true
    · refine ⟨[], createElem A, [], createElem A, ?_, ?_, ?_, elemEqv_refl _⟩
      · exact elementDiff_succ_skip g1 (createElem A) B
          (by rw [createElem_description]; exact hAB)
      · intro hfalse
        rw [hAB] at hfalse
        cases hfalse
      · exact elementDiff_succ_skip g2 (createElem A) A
          (by rw [createElem_description]; exact descEqual_refl A)
    · have hne : descEqual A B = false := by
        revert hAB
        cases descEqual A B <;> simp
      have hneB : descEqual B A = false := (descEqual_symm B A).trans hne
      have hcuA : A.custom = none := customFree_custom hcA
      have hcuB : B.custom = none := customFree_custom hcB
      obtain ⟨hsA, haA, hdA, hpA, hlA⟩ := wfDesc_proj hwA
      obtain ⟨hsB, haB, hdB, hpB, hlB⟩ := wfDesc_proj hwB
      have hbk : backingEqv (diffBacking B A (diffBacking A B (createBacking A)))
          (createBacking A) = true :=
        diffBacking_round_trip A B hcuA hcuB hsA haA hdA hpA hlA hsB haB hdB hpB hlB
      rcases hchA : A.children with _ | lA <;> rcases hchB : B.children with _ | lB
      · have hcre : createElem A =
            Elem.mk A (createBacking A) ElemChildren.noChildren := by
          rw [createElem_mk, hchA]
          rfl
        have hfw := elementDiff_succ_nn g1 A (createBacking A) B hne hchB
        rw [← hcre] at hfw
        have hbw := elementDiff_succ_nn g2 B (diffBacking A B (createBacking A)) A
          hneB hchA
        refine ⟨_, _, _, _, hfw, fun _ => rfl, hbw, ?_⟩
        refine elemEqv_mk_createElem hbk ?_
        rw [hchA]
        rfl
      · obtain ⟨hBne, hBexp, hBnd, hBwf⟩ := wfDesc_children hwB hchB
        obtain ⟨ps, hf⟩ := noSourceChildren_spec g1 lB.toList A hBnd hBne hBexp
        have hcre : createElem A =
            Elem.mk A (createBacking A) ElemChildren.noChildren := by
          rw [createElem_mk, hchA]
          rfl
        have hfw := elementDiff_succ_nw g1 A (createBacking A) B lB hne hchB hf
        rw [← hcre] at hfw
        have hstep0 : ∀ k, k ∈ descChildKeys ([] : List Desc) →
            k ∈ descChildKeys lB.toList →
            ∃ p e1 q e2,
              childStepOutcome (elementDiff g1)
                (createElem (descAt ([] : List Desc) A k))
                (descAt lB.toList A k) = some (p, e1) ∧
              (e1.description = descAt ([] : List Desc) A k ∨
                e1.description = descAt lB.toList A k) ∧
              childStepOutcome (elementDiff g2) e1 (descAt ([] : List Desc) A k) =
                some (q, e2) ∧
              elemEqv e2 (createElem (descAt ([] : List Desc) A k)) = true ∧
              e2.description = descAt ([] : List Desc) A k := by
          intro k hk
          rw [descChildKeys_nil] at hk
          exact absurd hk (List.not_mem_nil k)
        obtain ⟨-, ⟨qs, hb⟩, -⟩ := bothChildren_spec g1 g2 [] lB.toList A
          (by rw [descChildKeys_nil]; exact List.nodup_nil) hBnd
          (fun c hc => absurd hc (List.not_mem_nil c)) hBexp hstep0
        rw [descChildKeys_nil, List.map_nil] at hb
        have hch2 : elementChildrenDiff (elementDiff g2)
            (ElemList.ofList ((descChildKeys lB.toList).map
              (fwdChild g1 [] lB.toList A))).toList A.children.toList
            (some (ElemList.ofList ((descChildKeys lB.toList).map
              (fwdChild g1 [] lB.toList A))).toList) = some (qs, some []) := by
          rw [ElemList.toList_ofList, hchA]
          exact hb
        have hbw := elementDiff_succ_withChildren g2 B
          (diffBacking A B (createBacking A))
          (ElemList.ofList ((descChildKeys lB.toList).map
            (fwdChild g1 [] lB.toList A))) A hneB hch2
        refine ⟨_, _, _, _, hfw, fun _ => rfl, hbw, ?_⟩
        refine elemEqv_mk_createElem hbk ?_
        rw [hchA]
        rfl
      · obtain ⟨hAne, hAexp, hAnd, hAwf⟩ := wfDesc_children hwA hchA
        obtain ⟨⟨ps, hf⟩, ⟨qs, hb⟩, hforall⟩ := bothChildren_spec g1 g2 lA.toList []
          A hAnd (by rw [descChildKeys_nil]; exact List.nodup_nil) hAexp
          (fun c hc => absurd hc (List.not_mem_nil c))
          (fun k hkA hkB => absurd hkB
            (by rw [descChildKeys_nil]; exact List.not_mem_nil k))
        rw [descChildKeys_nil, List.map_nil] at hf
        have hcre : createElem A = Elem.mk A (createBacking A)
            (ElemChildren.withChildren (createElemList lA)) := by
          rw [createElem_mk, hchA]
          rfl
        have hch1 : elementChildrenDiff (elementDiff g1) (createElemList lA).toList
            B.children.toList (some (createElemList lA).toList) =
            some (ps, some []) := by
          rw [createElemList_toList, hchB]
          exact hf
        have hfw := elementDiff_succ_withChildren g1 A (createBacking A)
          (createElemList lA) B hne hch1
        rw [← hcre] at hfw
        have hbnil : (descChildKeys ([] : List Desc)).map
            (fwdChild g1 lA.toList [] A) = [] := by
          rw [descChildKeys_nil]
          rfl
        rw [hbnil] at hb
        have hch2 : elementChildrenDiff (elementDiff g2)
            (ElemList.ofList ([] : List Elem)).toList A.children.toList
            (some (ElemList.ofList ([] : List Elem)).toList) =
            some (qs, some ((descChildKeys lA.toList).map
              (bwdChild g1 g2 lA.toList [] A))) := by
          rw [ElemList.toList_ofList, hchA]
          exact hb
        have hbw := elementDiff_succ_withChildren g2 B
          (diffBacking A B (createBacking A)) (ElemList.ofList ([] : List Elem)) A
          hneB hch2
        refine ⟨_, _, _, _, hfw, fun _ => rfl, hbw, ?_⟩
        refine elemEqv_mk_createElem hbk ?_
        rw [hchA]
        show elemListEqv (ElemList.ofList ((descChildKeys lA.toList).map
          (bwdChild g1 g2 lA.toList [] A))) (createElemList lA) = true
        rw [show createElemList lA = ElemList.ofList (lA.toList.map createElem) from by
          rw [← createElemList_toList, ElemList.ofList_toList]]
        exact elemListEqv_ofList hforall
      · obtain ⟨hAne, hAexp, hAnd, hAwf⟩ := wfDesc_children hwA hchA
        obtain ⟨hBne, hBexp, hBnd, hBwf⟩ := wfDesc_children hwB hchB
        have hAcf : ∀ c ∈ lA.toList, customFree c = true := by
          intro c hc
          refine customFree_children hcA c ?_
          rw [hchA]
          exact hc
        have hBcf : ∀ c ∈ lB.toList, customFree c = true := by
          intro c hc
          refine customFree_children hcB c ?_
          rw [hchB]
          exact hc
        have hstep : ∀ k, k ∈ descChildKeys lA.toList →
            k ∈ descChildKeys lB.toList →
            ∃ p e1 q e2,
              childStepOutcome (elementDiff g1) (createElem (descAt lA.toList A k))
                (descAt lB.toList A k) = some (p, e1) ∧
              (e1.description = descAt lA.toList A k ∨
                e1.description = descAt lB.toList A k) ∧
              childStepOutcome (elementDiff g2) e1 (descAt lA.toList A k) =
                some (q, e2) ∧
              elemEqv e2 (createElem (descAt lA.toList A k)) = true ∧
              e2.description = descAt lA.toList A k := by
          intro k hkA hkB
          have hma : descAt lA.toList A k ∈ lA.toList := descAt_mem A hkA
          have hmb : descAt lB.toList A k ∈ lB.toList := descAt_mem A hkB
          have hsa : (descAt lA.toList A k).size < A.size :=
            Desc.size_child_lt (by rw [hchA]; exact hma)
          have hsb : (descAt lB.toList A k).size < B.size :=
            Desc.size_child_lt (by rw [hchB]; exact hmb)
          exact childPair_round_trip n ih (descAt lA.toList A k)
            (descAt lB.toList A k) (by omega) (hAwf _ hma) (hBwf _ hmb)
            (hAcf _ hma) (hBcf _ hmb) g1 g2 (by omega) (by omega)
        obtain ⟨⟨ps, hf⟩, ⟨qs, hb⟩, hforall⟩ :=
          bothChildren_spec g1 g2 lA.toList lB.toList A hAnd hBnd hAexp hBexp hstep
        have hcre : createElem A = Elem.mk A (createBacking A)
            (ElemChildren.withChildren (createElemList lA)) := by
          rw [createElem_mk, hchA]
          rfl
        have hch1 : elementChildrenDiff (elementDiff g1) (createElemList lA).toList
            B.children.toList (some (createElemList lA).toList) =
            some (ps, some ((descChildKeys lB.toList).map
              (fwdChild g1 lA.toList lB.toList A))) := by
          rw [createElemList_toList, hchB]
          exact hf
        have hfw := elementDiff_succ_withChildren g1 A (createBacking A)
          (createElemList lA) B hne hch1
        rw [← hcre] at hfw
        have hch2 : elementChildrenDiff (elementDiff g2)
            (ElemList.ofList ((descChildKeys lB.toList).map
              (fwdChild g1 lA.toList lB.toList A))).toList A.children.toList
            (some (ElemList.ofList ((descChildKeys lB.toList).map
              (fwdChild g1 lA.toList lB.toList A))).toList) =
            some (qs, some ((descChildKeys lA.toList).map
              (bwdChild g1 g2 lA.toList lB.toList A))) := by
          rw [ElemList.toList_ofList, hchA]
          exact hb
        have hbw := elementDiff_succ_withChildren g2 B
          (diffBacking A B (createBacking A))
          (ElemList.ofList ((descChildKeys lB.toList).map
            (fwdChild g1 lA.toList lB.toList A))) A hneB hch2
        refine ⟨_, _, _, _, hfw, fun _ => rfl, hbw, ?_⟩
        refine elemEqv_mk_createElem hbk ?_
        rw [hchA]
        show elemListEqv (ElemList.ofList ((descChildKeys lA.toList).map
          (bwdChild g1 g2 lA.toList lB.toList A))) (createElemList lA) = true
        rw [show createElemList lA = ElemList.ofList (lA.toList.map createElem) from by
          rw [← createElemList_toList, ElemList.ofList_toList]]
        exact elemListEqv_ofList hforall


end RoundTripHelpers

section ClaimC4

/-- A concrete list item with an explicit key and a text payload. -/
def rtExChildX : Desc :=
  .mk (some "x") "li" none [] [] [] [] [] none (some "one") .noChildren

/-- A second concrete keyed list item. -/
def rtExChildY : Desc :=
  .mk (some "y") "li" none [] [] [] [] [] none (some "two") .noChildren

/-- A concrete tree state: a list with a class, style, attribute, property,
listener and two keyed children. -/
def rtExA : Desc :=
  .mk none "ul" (some "big") [("color", "red")] [("id", "a")] []
    [("val", Value.vNum 3)] [("click", ⟨7, none⟩)] none none
    (.withChildren (.cons rtExChildX (.cons rtExChildY .nil)))

/-- A reachable second state: changed style and property, new dataset entry,
replaced listener, one child removed. -/
def rtExB : Desc :=
  .mk none "ul" none [("color", "blue")] [] [("d", "1")]
    [("val", Value.vNum 4)] [("click", ⟨9, some 7⟩)] none none
    (.withChildren (.cons rtExChildY .nil))

/-- C4: for every wellformed custom-free tree state `A` and target state `B`,
computing the diff A→B and applying its patches (the fused `elementDiff`,
with the `Desc.size` fuel that always suffices), then computing the diff
B→A on the result and applying those patches, yields a tree structurally
equivalent to the original `A`-tree in every property category — class name,
style, attributes, dataset, DOM properties, listeners and text (`backingEqv`),
and, recursively, children (`elemEqv`). -/
theorem roundTrip_restores_tree (A B : Desc)
    (hwA : wfDesc A = true) (hwB : wfDesc B = true)
    (hcA : customFree A = true) (hcB : customFree B = true) :
    ∃ p1 e1 p2 e2,
      elementDiff B.size (createElem A) B = some (p1, e1) ∧
      elementDiff A.size e1 A = some (p2, e2) ∧
      elemEqv e2 (createElem A) = true := by
  obtain ⟨p1, e1, p2, e2, h1, -, h2, h3⟩ :=
    elementDiff_round_trip (A.size + B.size) A B le_rfl hwA hwB hcA hcB
      B.size A.size le_rfl le_rfl
  exact ⟨p1, e1, p2, e2, h1, h2, h3⟩

/-- The C4 round trip at a concrete pair of tree states. -/
theorem roundTrip_restores_tree_witness :
    (wfDesc rtExA = true ∧ wfDesc rtExB = true ∧
     customFree rtExA = true ∧ customFree rtExB = true) ∧
    ∃ p1 e1 p2 e2,
      elementDiff rtExB.size (createElem rtExA) rtExB = some (p1, e1) ∧
      elementDiff rtExA.size e1 rtExA = some (p2, e2) ∧
      elemEqv e2 (createElem rtExA) = true :=
  ⟨⟨by decide, by decide, by decide, by decide⟩,
   roundTrip_restores_tree rtExA rtExB (by decide) (by decide) (by decide)
     (by decide)⟩

end ClaimC4

end Toolkit
